import Mathlib

/-!
# Skip list (`SkipList.h`, `SkipList.cpp`): shallow embedding and verification

The C++ program keeps, for every level `0 .. maxLevels_ - 1`, a doubly linked
chain of `SkipListNode`s reached from `heads_[level]` / `tails_[level]`, and
links the occurrences of one key vertically through `upLevel_` / `downLevel_`.

Embedding conventions.

* A pointer is `Option Ptr` (`none` is `nullptr`), the free store is a finite
  map `mem : Ptr → Option SkipListNode`; `new` hands out the fresh address
  `brk`, `delete` resets a cell to `none`.
* Every operation returns an `Option`: `none` stands for undefined behaviour of
  the C++ program (dereferencing `nullptr` or a deleted node, indexing
  `heads_` / `tails_` / `insertionPoints` out of bounds) or for a pointer walk
  that does not finish within its fuel.  The fuel of a walk along `next_` or
  `downLevel_` is `brk`, the number of nodes ever allocated.
* `alsoHigher()` reads a global generator; it is embedded as a stream
  `coin : Nat → Bool` together with the number `g` of flips drawn so far.
* Keys are C++ `int`s; they are only compared, never computed with, so they are
  embedded as `Int`.
-/

set_option autoImplicit false

/-- Address of a node in the free store; `none : Option Ptr` is `nullptr`. -/
abbrev Ptr := Nat

/-- The struct `SkipList::SkipListNode`. -/
structure SkipListNode where
  data_ : Int
  next_ : Option Ptr
  prev_ : Option Ptr
  upLevel_ : Option Ptr
  downLevel_ : Option Ptr

/-- The class `SkipList` together with the free store its nodes live in. -/
structure SkipList where
  maxLevels_ : Int
  heads_ : List (Option Ptr)
  tails_ : List (Option Ptr)
  mem : Ptr → Option SkipListNode
  brk : Ptr

namespace SkipList

/-- Overwrite the cell at address `p`. -/
def store (s : SkipList) (p : Ptr) (c : Option SkipListNode) : SkipList :=
  { s with mem := fun q => if q = p then c else s.mem q }

/-- The expression `new SkipListNode(data)`: the node constructor sets the
    key and nulls the four links. -/
def newNode (s : SkipList) (data : Int) : SkipList × Ptr :=
  (({ s with brk := s.brk + 1 } : SkipList).store s.brk
      (some { data_ := data, next_ := none, prev_ := none,
              upLevel_ := none, downLevel_ := none }), s.brk)

/-- The statement `delete p`. -/
def deleteNode (s : SkipList) (p : Ptr) : SkipList := s.store p none

/-- Reading through a pointer: `p->...`. -/
def load (s : SkipList) (p : Option Ptr) : Option SkipListNode :=
  match p with
  | none => none
  | some a => s.mem a

/-- Writing through a pointer: `p->field = ...`. -/
def modify (s : SkipList) (p : Option Ptr) (f : SkipListNode → SkipListNode) :
    Option SkipList :=
  match p with
  | none => none
  | some a =>
    match s.mem a with
    | none => none
    | some n => some (s.store a (some (f n)))

/-- The assignment `p->next_ = v`. -/
def setNext (s : SkipList) (p v : Option Ptr) : Option SkipList :=
  s.modify p (fun n => { n with next_ := v })

/-- The assignment `p->prev_ = v`. -/
def setPrev (s : SkipList) (p v : Option Ptr) : Option SkipList :=
  s.modify p (fun n => { n with prev_ := v })

/-- The assignment `p->upLevel_ = v`. -/
def setUp (s : SkipList) (p v : Option Ptr) : Option SkipList :=
  s.modify p (fun n => { n with upLevel_ := v })

/-- The assignment `p->downLevel_ = v`. -/
def setDown (s : SkipList) (p v : Option Ptr) : Option SkipList :=
  s.modify p (fun n => { n with downLevel_ := v })

/-- Reading `arr[i]` for an `int` index. -/
def getAt (xs : List (Option Ptr)) (i : Int) : Option (Option Ptr) :=
  if 0 ≤ i then xs[i.toNat]? else none

/-- Writing `arr[i] = v` for an `int` index. -/
def setAt (xs : List (Option Ptr)) (i : Int) (v : Option Ptr) :
    Option (List (Option Ptr)) :=
  if 0 ≤ i ∧ i.toNat < xs.length then some (xs.set i.toNat v) else none

/-- The assignment `heads_[level] = v`. -/
def setHead (s : SkipList) (level : Int) (v : Option Ptr) : Option SkipList :=
  match setAt s.heads_ level v with
  | none => none
  | some hs => some { s with heads_ := hs }

/-- The assignment `tails_[level] = v`. -/
def setTail (s : SkipList) (level : Int) (v : Option Ptr) : Option SkipList :=
  match setAt s.tails_ level v with
  | none => none
  | some ts => some { s with tails_ := ts }

/-- The constructor `SkipList(int maxLevels)`: both arrays are value
    initialised to `nullptr`.  A negative array bound makes the `new[]`
    expression throw (`none`). -/
def construct (maxLevels : Int) : Option SkipList :=
  if maxLevels < 0 then none
  else some { maxLevels_ := maxLevels,
              heads_ := List.replicate maxLevels.toNat none,
              tails_ := List.replicate maxLevels.toNat none,
              mem := fun _ => none,
              brk := 0 }

/-- The method `isEmpty`: `heads_[0] == nullptr`. -/
def isEmpty (s : SkipList) : Option Bool :=
  match getAt s.heads_ 0 with
  | none => none
  | some h => some h.isNone

/-- The loop `for (int i = maxLevels_ - 1; i >= 0; i--)` shared by `findNode`
    and `insert`: the argument `n` is `i + 1`.  It yields the values of
    `level` and `curr` after the loop; when no level has a head both keep the
    value they had before (`curr` is then not initialised, and it is not read
    before it is assigned). -/
def topLevel (heads : List (Option Ptr)) (level : Nat) (curr : Option Ptr) :
    Nat → Option (Nat × Option Ptr)
  | 0 => some (level, curr)
  | i + 1 =>
    match heads[i]? with
    | none => none
    | some none => topLevel heads level curr i
    | some (some h) => some (i, some h)

/-- The inner loop
    `while (item > next->data_) { stillAtHead = false; curr = next;
       next = next->next_; if (next == nullptr) break; }`
    on the variables `(next, curr, stillAtHead)`; `next` is not null whenever
    the loop condition is evaluated. -/
def advance (s : SkipList) (item : Int) :
    Nat → Ptr → Option Ptr → Bool → Option (Option Ptr × Option Ptr × Bool)
  | 0, _, _, _ => none
  | fuel + 1, next, curr, stillAtHead =>
    match s.mem next with
    | none => none
    | some nd =>
      if item > nd.data_ then
        match nd.next_ with
        | none => some (none, some next, false)
        | some nx => advance s item fuel nx (some next) false
      else some (some next, curr, stillAtHead)

/-- The text shared by the loops `while (level >= 0)` of `findNode` and of
    `insert`, from `if (stillAtHead) curr = heads_[level];` through the end of
    the inner loop: it yields `(next, curr, stillAtHead)`. -/
def scanLevel (s : SkipList) (item : Int) (level : Nat) (curr : Option Ptr)
    (stillAtHead : Bool) : Option (Option Ptr × Option Ptr × Bool) :=
  match (if stillAtHead then s.heads_[level]? else some curr) with
  | none => none
  | some none => none
  | some (some start) => advance s item s.brk start (some start) stillAtHead

/-- The loop `while (level >= 0)` of `findNode`; the first argument is
    `level + 1`, so that `0` stands for `level = -1`.  The result is the
    returned pointer together with the final value of the reference parameter
    `level`. -/
def findLoop (s : SkipList) (item : Int) :
    Nat → Option Ptr → Bool → Option (Option Ptr × Int)
  | 0, _, _ => some (none, -1)
  | level + 1, curr, stillAtHead =>
    match s.scanLevel item level curr stillAtHead with
    | none => none
    | some (none, curr1, still1) =>
      match s.load curr1 with
      | none => none
      | some cn => findLoop s item level cn.downLevel_ still1
    | some (some nx, curr1, still1) =>
      match s.mem nx with
      | none => none
      | some nd =>
        if item = nd.data_ then some (some nx, (level : Int))
        else
          match s.load curr1 with
          | none => none
          | some cn => findLoop s item level cn.downLevel_ still1

/-- The method `findNode(item, level)`. -/
def findNode (s : SkipList) (item : Int) (level : Int) : Option (Option Ptr × Int) :=
  match getAt s.heads_ level with
  | none => none
  | some none => some (none, level)
  | some (some _) =>
    match topLevel s.heads_ level.toNat none s.maxLevels_.toNat with
    | none => none
    | some (top, curr) => findLoop s item (top + 1) curr true

/-- The method `contains`. -/
def contains (s : SkipList) (item : Int) : Option Bool :=
  match s.findNode item 0 with
  | none => none
  | some (r, _) => some r.isSome

/-- The method `addBefore(newNode, nextNode, level)`. -/
def addBefore (s : SkipList) (newNode : Ptr) (nextNode : Option Ptr) (level : Nat) :
    Option SkipList :=
  match s.heads_[level]? with
  | none => none
  | some none =>
    (s.setHead level (some newNode)).bind fun s1 => s1.setTail level (some newNode)
  | some (some _) =>
    match nextNode with
    | none =>
      (getAt s.tails_ level).bind fun t =>
      (s.setPrev (some newNode) t).bind fun s1 =>
      (getAt s1.tails_ level).bind fun t1 =>
      (s1.setNext t1 (some newNode)).bind fun s2 =>
      s2.setTail level (some newNode)
    | some nx =>
      (s.mem nx).bind fun nn =>
      match nn.prev_ with
      | none =>
        (s.setNext (some newNode) (some nx)).bind fun s1 =>
        (s1.setPrev (some nx) (some newNode)).bind fun s2 =>
        s2.setHead level (some newNode)
      | some _ =>
        (s.setPrev (some newNode) nn.prev_).bind fun s1 =>
        (s1.setNext (some newNode) (some nx)).bind fun s2 =>
        (s2.mem nx).bind fun nn2 =>
        (s2.setNext nn2.prev_ (some newNode)).bind fun s3 =>
        s3.setPrev (some nx) (some newNode)

/-- The loop `while (level >= 0)` of `insert`, which records
    `insertionPoints[level] = next`; the first argument is `level + 1`. -/
def locateLoop (s : SkipList) (item : Int) :
    Nat → Option Ptr → Bool → List (Option Ptr) → Option (List (Option Ptr))
  | 0, _, _, ips => some ips
  | level + 1, curr, stillAtHead, ips =>
    match s.scanLevel item level curr stillAtHead with
    | none => none
    | some (next, curr1, still1) =>
      match setAt ips level next with
      | none => none
      | some ips1 =>
        match s.load curr1 with
        | none => none
        | some cn => locateLoop s item level cn.downLevel_ still1 ips1

/-- The first half of `insert` after the duplicate test: the vector
    `insertionPoints(maxLevels_, nullptr)` and the search that fills it. -/
def locate (s : SkipList) (item : Int) : Option (List (Option Ptr)) :=
  match getAt s.heads_ 0 with
  | none => none
  | some none => some (List.replicate s.maxLevels_.toNat none)
  | some (some _) =>
    match topLevel s.heads_ 0 none s.maxLevels_.toNat with
    | none => none
    | some (top, curr) =>
      locateLoop s item (top + 1) curr true (List.replicate s.maxLevels_.toNat none)

/-- One pass through the body of the loop `while (level < maxLevels_)` of
    `insert`, up to and including `downNode = newNode`. -/
def pushNode (s : SkipList) (item : Int) (ips : List (Option Ptr)) (level : Nat)
    (downNode : Option Ptr) : Option (SkipList × Ptr) :=
  match ips[level]? with
  | none => none
  | some ip =>
    ((s.newNode item).1.addBefore (s.newNode item).2 ip level).bind fun s2 =>
    (s2.setDown (some (s.newNode item).2) downNode).bind fun s3 =>
    (match downNode with
     | none => some s3
     | some d => s3.setUp (some d) (some (s.newNode item).2)).bind fun s4 =>
    some (s4, (s.newNode item).2)

/-- The loop `while (level < maxLevels_)` of `insert`.  The coin is drawn after
    `level++`, once for every node that was added.  The fuel is the number of
    levels. -/
def buildColumn (coin : Nat → Bool) (item : Int) (ips : List (Option Ptr)) :
    Nat → SkipList → Nat → Option Ptr → Nat → Option (SkipList × Nat)
  | 0, s, level, _, g => if (level : Int) < s.maxLevels_ then none else some (s, g)
  | fuel + 1, s, level, downNode, g =>
    if (level : Int) < s.maxLevels_ then
      match s.pushNode item ips level downNode with
      | none => none
      | some (s1, newNode) =>
        if coin g then buildColumn coin item ips fuel s1 (level + 1) (some newNode) (g + 1)
        else some (s1, g + 1)
    else some (s, g)

/-- The method `insert`; the result carries the returned flag, the new
    structure and the new position of the coin generator. -/
def insert (coin : Nat → Bool) (g : Nat) (s : SkipList) (item : Int) :
    Option (Bool × SkipList × Nat) :=
  match s.contains item with
  | none => none
  | some true => some (false, s, g)
  | some false =>
    match s.locate item with
    | none => none
    | some ips =>
      match buildColumn coin item ips s.maxLevels_.toNat s 0 none g with
      | none => none
      | some (s1, g1) => some (true, s1, g1)

/-- One pass through the body of the loop `while (topNode != nullptr)` of
    `erase`, up to `delete tmp`: it yields the new structure and the new value
    of `topNode`. -/
def unlinkNode (s : SkipList) (t : Ptr) (level : Int) : Option (SkipList × Option Ptr) :=
  (s.mem t).bind fun n0 =>
  (match n0.next_ with
   | none => s.setTail level n0.prev_
   | some nx => s.setPrev (some nx) n0.prev_).bind fun s1 =>
  (s1.mem t).bind fun n1 =>
  (match n1.prev_ with
   | none => s1.setHead level n1.next_
   | some pv => s1.setNext (some pv) n1.next_).bind fun s2 =>
  (s2.mem t).bind fun n2 =>
  some (s2.deleteNode t, n2.downLevel_)

/-- The loop `while (topNode != nullptr)` of `erase`. -/
def eraseLoop : Nat → SkipList → Option Ptr → Int → Option SkipList
  | _, s, none, _ => some s
  | 0, _, some _, _ => none
  | fuel + 1, s, some t, level =>
    match s.unlinkNode t level with
    | none => none
    | some (s1, topNode) => eraseLoop fuel s1 topNode (level - 1)

/-- The method `erase`; the result carries the returned flag and the new
    structure. -/
def erase (s : SkipList) (item : Int) : Option (Bool × SkipList) :=
  match s.isEmpty with
  | none => none
  | some true => some (false, s)
  | some false =>
    match s.findNode item 0 with
    | none => none
    | some (none, _) => some (false, s)
    | some (some t, level) =>
      match eraseLoop s.brk s (some t) level with
      | none => none
      | some s1 => some (true, s1)

/-- The loop `while (curr != nullptr)` of `operator<<`: the keys met from
    `curr` along `next_`. -/
def keysFrom (s : SkipList) : Nat → Option Ptr → Option (List Int)
  | _, none => some []
  | 0, some _ => none
  | fuel + 1, some a =>
    match s.mem a with
    | none => none
    | some n => (keysFrom s fuel n.next_).map fun ks => n.data_ :: ks

/-- The keys of one level in the order in which `operator<<` prints them. -/
def levelKeys (s : SkipList) (level : Nat) : Option (List Int) :=
  match s.heads_[level]? with
  | none => none
  | some h => keysFrom s s.brk h

/-- The loop `while (curr != nullptr)` of `clear`: the addresses of the nodes
    met from `curr` along `next_`. -/
def nodesFrom (s : SkipList) : Nat → Option Ptr → Option (List Ptr)
  | _, none => some []
  | 0, some _ => none
  | fuel + 1, some a =>
    match s.mem a with
    | none => none
    | some n => (nodesFrom s fuel n.next_).map fun ps => a :: ps

/-- The nodes of one level, from `heads_[level]` along `next_`. -/
def levelNodes (s : SkipList) (level : Nat) : Option (List Ptr) :=
  match s.heads_[level]? with
  | none => none
  | some h => nodesFrom s s.brk h

/-- The loop `while (curr != nullptr) { os << ", " << curr->data_; curr = curr->next_; }`
    of `operator<<`; `os` is the text written so far. -/
def printRest (s : SkipList) : Nat → Option Ptr → String → Option String
  | _, none, os => some os
  | 0, some _, _ => none
  | fuel + 1, some a, os =>
    match s.mem a with
    | none => none
    | some n => printRest s fuel n.next_ (os ++ ", " ++ toString n.data_)

/-- The loop `for (int i = list.maxLevels_ - 1; i >= 0; i--)` of `operator<<`;
    the first argument is `i + 1`, and `endl` writes a line feed. -/
def printLevels (s : SkipList) : Nat → String → Option String
  | 0, os => some os
  | i + 1, os =>
    match s.heads_[i]? with
    | none => none
    | some none => printLevels s i (os ++ "Level: " ++ toString i ++ " -- empty" ++ "\n")
    | some (some h) =>
      match s.mem h with
      | none => none
      | some n =>
        match printRest s s.brk n.next_
            (os ++ "Level: " ++ toString i ++ " -- " ++ toString n.data_) with
        | none => none
        | some os1 => printLevels s i (os1 ++ "\n")

/-- The friend `operator<<(os, list)`: the text it writes to an empty stream.
    The function reads the structure and returns text only. -/
def render (s : SkipList) : Option String := printLevels s s.maxLevels_.toNat ""

end SkipList

/-- A call of one of the two mutating methods. -/
inductive Op where
  | insert (item : Int)
  | erase (item : Int)

/-- The structure and the returned flags after a sequence of calls, the coin
    generator standing at `g` before the first one. -/
def runOps (coin : Nat → Bool) : List Op → SkipList → Nat → Option (SkipList × Nat × List Bool)
  | [], s, g => some (s, g, [])
  | Op.insert item :: ops, s, g =>
    match s.insert coin g item with
    | none => none
    | some (b, s1, g1) =>
      match runOps coin ops s1 g1 with
      | none => none
      | some (s2, g2, bs) => some (s2, g2, b :: bs)
  | Op.erase item :: ops, s, g =>
    match s.erase item with
    | none => none
    | some (b, s1) =>
      match runOps coin ops s1 g with
      | none => none
      | some (s2, g2, bs) => some (s2, g2, b :: bs)

/-- The structures that calls of `insert` and `erase` produce from a freshly
    constructed one with at least one level, whatever the coin does. -/
inductive Reachable : SkipList → Prop
  | construct (maxLevels : Int) (s : SkipList) :
      1 ≤ maxLevels → SkipList.construct maxLevels = some s → Reachable s
  | insert (coin : Nat → Bool) (g : Nat) (item : Int) (s : SkipList) (b : Bool)
      (s2 : SkipList) (g2 : Nat) :
      Reachable s → s.insert coin g item = some (b, s2, g2) → Reachable s2
  | erase (item : Int) (s : SkipList) (b : Bool) (s2 : SkipList) :
      Reachable s → s.erase item = some (b, s2) → Reachable s2

/-- The calls of the example run: five insertions and two removals. -/
def exampleOps : List Op :=
  [Op.insert 5, Op.insert 1, Op.insert 9, Op.insert 3, Op.insert 7, Op.erase 1, Op.erase 9]

/-- The coin of the example run: the columns of 5, 1, 9, 3, 7 get the heights
    1, 2, 3, 1, 2. -/
def exampleCoin (n : Nat) : Bool :=
  [false, true, false, true, true, true, false, true, false].getD n false

/-- The example run: `exampleOps` on a fresh structure with three levels. -/
def exampleRun : Option (SkipList × Nat × List Bool) :=
  (SkipList.construct 3).bind fun s0 => runOps exampleCoin exampleOps s0 0

/-- Reference model of the claims: the finite set of keys that a sequence of
    calls leaves, `insert` adding its key and `erase` removing it. -/
def specSet : List Op → Finset Int → Finset Int
  | [], S => S
  | Op.insert item :: ops, S => specSet ops (insert item S)
  | Op.erase item :: ops, S => specSet ops (S.erase item)

/-! ## Representation invariant and specification vocabulary

A level is described by the list of the addresses of its nodes, from the head
to the tail.  `Rep s L` states that the structure `s` stores the levels
`L 0, L 1, ...`; the other definitions describe what one pass through a loop
body does to such a structure. -/

namespace SkipList

/-- The field `next_` of the cell at `a`, when there is one. -/
def nx (s : SkipList) (a : Ptr) : Option (Option Ptr) := (s.mem a).map fun n => n.next_

/-- The field `prev_` of the cell at `a`, when there is one. -/
def pv (s : SkipList) (a : Ptr) : Option (Option Ptr) := (s.mem a).map fun n => n.prev_

/-- The field `downLevel_` of the cell at `a`, when there is one. -/
def dn (s : SkipList) (a : Ptr) : Option (Option Ptr) := (s.mem a).map fun n => n.downLevel_

/-- The field `upLevel_` of the cell at `a`, when there is one. -/
def up (s : SkipList) (a : Ptr) : Option (Option Ptr) := (s.mem a).map fun n => n.upLevel_

/-- The key stored at `a` (`0` when the cell is not allocated). -/
def keyOf (s : SkipList) (a : Ptr) : Int :=
  match s.mem a with
  | some n => n.data_
  | none => 0

/-- The keys of a list of nodes. -/
def keys (s : SkipList) (l : List Ptr) : List Int := l.map s.keyOf

/-- First address of `l`, or `q` when `l` is empty. -/
def hd (l : List Ptr) (q : Option Ptr) : Option Ptr :=
  match l with
  | [] => q
  | a :: _ => some a

/-- The link field `g` leads from every node of `l` to the node after it, and
    from the last node of `l` to `q`. -/
def Linked (g : Ptr → Option (Option Ptr)) : List Ptr → Option Ptr → Prop
  | [], _ => True
  | a :: l, q => g a = some (hd l q) ∧ Linked g l q

/-- The nodes of `l` whose key is below `item`. -/
def lo (s : SkipList) (item : Int) (l : List Ptr) : List Ptr :=
  l.filter fun a => decide (s.keyOf a < item)

/-- The nodes of `l` whose key is at least `item`. -/
def hi (s : SkipList) (item : Int) (l : List Ptr) : List Ptr :=
  l.filter fun a => decide (item ≤ s.keyOf a)

/-- The structure `s` stores the levels `L`. -/
structure Rep (s : SkipList) (L : Nat → List Ptr) : Prop where
  pos : 1 ≤ s.maxLevels_
  hlen : s.heads_.length = s.maxLevels_.toNat
  tlen : s.tails_.length = s.maxLevels_.toNat
  head : ∀ i, i < s.maxLevels_.toNat → s.heads_[i]? = some (L i).head?
  tail : ∀ i, i < s.maxLevels_.toNat → s.tails_[i]? = some (L i).getLast?
  above : ∀ i, s.maxLevels_.toNat ≤ i → L i = []
  next : ∀ i, Linked s.nx (L i) none
  prev : ∀ i, Linked s.pv (L i).reverse none
  sorted : ∀ i, (s.keys (L i)).Pairwise (· < ·)
  down0 : ∀ p ∈ L 0, s.dn p = some none
  downS : ∀ i, ∀ p ∈ L (i + 1), ∃ q ∈ L i, s.dn p = some (some q) ∧ s.keyOf q = s.keyOf p
  disj : ∀ i j p, p ∈ L i → p ∈ L j → i = j
  live : ∀ p, s.mem p ≠ none → ∃ i, p ∈ L i
  fresh : ∀ p, s.brk ≤ p → s.mem p = none

/-- The part of the invariant that the search reads: the heads, the `next_`
    chains, the ascending keys and the down links to the same key one level
    lower (which make every level a subset of the level below); the nodes are
    cells below `brk`. -/
structure Searchable (s : SkipList) (L : Nat → List Ptr) : Prop where
  pos : 1 ≤ s.maxLevels_
  head : ∀ i, i < s.maxLevels_.toNat → s.heads_[i]? = some (L i).head?
  above : ∀ i, s.maxLevels_.toNat ≤ i → L i = []
  next : ∀ i, Linked s.nx (L i) none
  sorted : ∀ i, (s.keys (L i)).Pairwise (· < ·)
  downS : ∀ i, ∀ p ∈ L (i + 1), ∃ q ∈ L i, s.dn p = some (some q) ∧ s.keyOf q = s.keyOf p
  below : ∀ i, ∀ a ∈ L i, a < s.brk

/-- The result of `findNode`: nothing when the key is on no level, otherwise
    the node of the key on the highest level that has it, with that level. -/
def FoundTop (s : SkipList) (L : Nat → List Ptr) (item : Int) (res : Option Ptr × Int) : Prop :=
  match res.1 with
  | none => ∀ j, item ∉ s.keys (L j)
  | some t => ∃ k : Nat, res.2 = (k : Int) ∧ t ∈ L k ∧ s.keyOf t = item ∧
      ∀ j, k < j → item ∉ s.keys (L j)

/-- The condition on `(curr, stillAtHead)` when the search enters a level; the
    first argument is `level + 1`. -/
def CurOK (s : SkipList) (L : Nat → List Ptr) (item : Int) : Nat → Option Ptr → Bool → Prop
  | 0, _, _ => True
  | n + 1, curr, sah => sah = true ∨ ∃ c, curr = some c ∧ c ∈ L n ∧ s.keyOf c < item

/-- The state `s2` is `s` after a new node `p` with key `item` and down link
    `d` was spliced into level `n` between the nodes `A` and the nodes `B`. -/
structure PushEff (s s2 : SkipList) (p : Ptr) (item : Int) (n : Nat) (A B : List Ptr)
    (d : Option Ptr) : Prop where
  maxLevels : s2.maxLevels_ = s.maxLevels_
  brk : s2.brk = s.brk + 1
  hlen : s2.heads_.length = s.heads_.length
  tlen : s2.tails_.length = s.tails_.length
  heads : ∀ i, s2.heads_[i]? = if i = n then some (A ++ p :: B).head? else s.heads_[i]?
  tails : ∀ i, s2.tails_[i]? = if i = n then some (A ++ p :: B).getLast? else s.tails_[i]?
  nx : ∀ a, s2.nx a
    = if a = p then some B.head? else if some a = A.getLast? then some (some p) else s.nx a
  pv : ∀ a, s2.pv a
    = if a = p then some A.getLast? else if some a = B.head? then some (some p) else s.pv a
  dn : ∀ a, s2.dn a = if a = p then some d else s.dn a
  up : ∀ a, s2.up a
    = if a = p then some none else if some a = d then some (some p) else s.up a
  key : ∀ a, s2.keyOf a = if a = p then item else s.keyOf a
  mem : ∀ a, s2.mem a = none ↔ a ≠ p ∧ s.mem a = none

/-- The state `s2` is `s` after the node `t`, which stood on level `n` between
    the nodes `A` and the nodes `B`, was unlinked and deleted. -/
structure EraseEff (s s2 : SkipList) (t : Ptr) (n : Nat) (A B : List Ptr) : Prop where
  maxLevels : s2.maxLevels_ = s.maxLevels_
  brk : s2.brk = s.brk
  hlen : s2.heads_.length = s.heads_.length
  tlen : s2.tails_.length = s.tails_.length
  heads : ∀ i, s2.heads_[i]? = if i = n then some (A ++ B).head? else s.heads_[i]?
  tails : ∀ i, s2.tails_[i]? = if i = n then some (A ++ B).getLast? else s.tails_[i]?
  nx : ∀ a, s2.nx a
    = if a = t then none else if some a = A.getLast? then some B.head? else s.nx a
  pv : ∀ a, s2.pv a
    = if a = t then none else if some a = B.head? then some A.getLast? else s.pv a
  dn : ∀ a, s2.dn a = if a = t then none else s.dn a
  up : ∀ a, s2.up a = if a = t then none else s.up a
  key : ∀ a, a ≠ t → s2.keyOf a = s.keyOf a
  mem : ∀ a, s2.mem a = none ↔ a = t ∨ s.mem a = none

/-- The nodes of `l` whose key is not `item`. -/
def without (s : SkipList) (item : Int) (l : List Ptr) : List Ptr :=
  l.filter fun a => decide (s.keyOf a ≠ item)

/-- The sorted key list `ks` with `item` put at its place. -/
def insertKey (item : Int) (ks : List Int) : List Int :=
  ks.filter (fun k => decide (k < item)) ++ item :: ks.filter (fun k => decide (item ≤ k))

/-- The number of nodes that the loop `while (level < maxLevels_)` of `insert`
    adds when `cap` levels remain and the generator stands at `g`. -/
def columnHeight (coin : Nat → Bool) : Nat → Nat → Nat
  | _, 0 => 0
  | g, cap + 1 => if coin g then columnHeight coin (g + 1) cap + 1 else 1

/-- The levels `L2` of `s2` are the levels `L` of `s` with `item` added on the
    `c` levels from `lvl` on. -/
structure Built (s : SkipList) (L : Nat → List Ptr) (s2 : SkipList) (L2 : Nat → List Ptr)
    (item : Int) (lvl c : Nat) : Prop where
  maxLevels : s2.maxLevels_ = s.maxLevels_
  brk : s2.brk = s.brk + c
  keys : ∀ j, s2.keys (L2 j)
    = if lvl ≤ j ∧ j < lvl + c then insertKey item (s.keys (L j)) else s.keys (L j)
  old : ∀ j, ∀ a ∈ L j, a ∈ L2 j ∧ s2.keyOf a = s.keyOf a
  frame : ∀ j, j < lvl ∨ lvl + c ≤ j → L2 j = L j

/-- The number of favourable outcomes that come first among the `n` draws
    `coin g, coin (g + 1), ...`. -/
def leadingFavourable (coin : Nat → Bool) : Nat → Nat → Nat
  | _, 0 => 0
  | g, n + 1 => if coin g then leadingFavourable coin (g + 1) n + 1 else 0

/-- Reference text of one line of the printed view: the level index, then
    either the word `empty` or the keys separated by a comma and a blank. -/
def renderLine (i : Nat) (ks : List Int) : String :=
  match ks with
  | [] => "Level: " ++ toString i ++ " -- empty"
  | _ :: _ => "Level: " ++ toString i ++ " -- " ++ String.intercalate ", " (ks.map toString)

/-- A text made of the given lines, each ended by a line feed. -/
def joinLines (lines : List String) : String := String.join (lines.map fun l => l ++ "\n")

/-- Reference text of the printed view: one line per level, the level
    `m - 1` first and the level 0 last. -/
def renderLines (m : Nat) (keysAt : Nat → List Int) : List String :=
  (List.range m).reverse.map fun i => renderLine i (keysAt i)

/-- The vertical links of the nodes in memory are inverse to each other: an up
    reference leads to a node whose down reference leads back, and a down
    reference leads to a node whose up reference leads back. -/
structure Vertical (s : SkipList) : Prop where
  up_down : ∀ q u, s.up q = some (some u) → s.dn u = some (some q)
  down_up : ∀ p q, s.dn p = some (some q) → s.up q = some (some p)

/-- The vertical links inside the loop of `erase`, whose variable `topNode`
    holds `x`: the node `x` is the top of its column, and it alone may still
    have an up reference to the node that was just deleted. -/
structure VerticalBut (s : SkipList) (x : Option Ptr) : Prop where
  up_down : ∀ q u, some q ≠ x → s.up q = some (some u) → s.dn u = some (some q)
  down_up : ∀ p q, s.dn p = some (some q) → s.up q = some (some p)
  top : ∀ t, x = some t → ∀ p, s.dn p ≠ some (some t)

/-! ### Linked lists of addresses -/

@[simp]
theorem hd_nil (q : Option Ptr) : hd [] q = q := rfl

@[simp]
theorem hd_cons (a : Ptr) (l : List Ptr) (q : Option Ptr) : hd (a :: l) q = some a := rfl

theorem hd_none (l : List Ptr) : hd l none = l.head? := by
  cases l <;> rfl

theorem hd_append (l1 l2 : List Ptr) (q : Option Ptr) : hd (l1 ++ l2) q = hd l1 (hd l2 q) := by
  cases l1 <;> rfl

@[simp]
theorem linked_nil (g : Ptr → Option (Option Ptr)) (q : Option Ptr) :
    Linked g [] q := trivial

@[simp]
theorem linked_cons (g : Ptr → Option (Option Ptr)) (a : Ptr) (l : List Ptr)
    (q : Option Ptr) : Linked g (a :: l) q ↔ g a = some (hd l q) ∧ Linked g l q := Iff.rfl

theorem linked_append (g : Ptr → Option (Option Ptr)) (l1 l2 : List Ptr) (q : Option Ptr) :
    Linked g (l1 ++ l2) q ↔ Linked g l1 (hd l2 q) ∧ Linked g l2 q := by
  induction l1 with
  | nil => simp
  | cons a l ih => simp [ih, hd_append, and_assoc]

theorem linked_congr {g g2 : Ptr → Option (Option Ptr)} {l : List Ptr} {q : Option Ptr}
    (h : ∀ a ∈ l, g2 a = g a) (hl : Linked g l q) : Linked g2 l q := by
  induction l with
  | nil => simp
  | cons a l ih =>
    simp only [linked_cons] at hl ⊢
    exact ⟨by rw [h a (List.mem_cons_self a l)]; exact hl.1,
      ih (fun b hb => h b (List.mem_cons_of_mem a hb)) hl.2⟩

theorem linked_alloc {g : Ptr → Option (Option Ptr)} {l : List Ptr} {q : Option Ptr}
    (hl : Linked g l q) : ∀ a ∈ l, g a ≠ none := by
  induction l with
  | nil => simp
  | cons a l ih =>
    simp only [linked_cons] at hl
    intro b hb
    rcases List.mem_cons.1 hb with rfl | hb
    · simp [hl.1]
    · exact ih hl.2 b hb

/-- Redirecting the link of the last node of `l`. -/
theorem linked_retarget {g g2 : Ptr → Option (Option Ptr)} {l : List Ptr} {q q2 : Option Ptr}
    (hl : Linked g l q) (hnd : l.Nodup)
    (h : ∀ a ∈ l, g2 a = if some a = l.getLast? then some q2 else g a) :
    Linked g2 l q2 := by
  induction l with
  | nil => simp
  | cons a l ih =>
    cases l with
    | nil =>
      have := h a (by simp)
      simpa using this
    | cons b l =>
      have hab : some a ≠ (a :: b :: l).getLast? := by
        intro e
        have hm : a ∈ b :: l := by
          have : (b :: l).getLast? = some a := by simpa [List.getLast?_cons_cons] using e.symm
          exact List.mem_of_getLast?_eq_some this
        exact (List.nodup_cons.1 hnd).1 hm
      have ha := h a (by simp)
      rw [if_neg hab] at ha
      simp only [linked_cons] at hl
      refine (linked_cons _ _ _ _).2 ⟨?_, ih hl.2 (List.nodup_cons.1 hnd).2 ?_⟩
      · rw [ha]; simpa using hl.1
      · intro c hc
        have := h c (List.mem_cons_of_mem a hc)
        simpa [List.getLast?_cons_cons] using this

/-- Splicing a new node `p` between `A` and `B`. -/
theorem linked_insert {g g2 : Ptr → Option (Option Ptr)} {A B : List Ptr} {p : Ptr}
    (hl : Linked g (A ++ B) none) (hnd : (A ++ B).Nodup)
    (hp : g2 p = some B.head?)
    (h : ∀ a ∈ A ++ B, g2 a = if some a = A.getLast? then some (some p) else g a) :
    Linked g2 (A ++ p :: B) none := by
  rw [linked_append] at hl ⊢
  obtain ⟨hA, hdj, hB⟩ := List.nodup_append.1 hnd |>.1, List.nodup_append.1 hnd |>.2.2,
    List.nodup_append.1 hnd |>.2.1
  refine ⟨?_, (linked_cons _ _ _ _).2 ⟨by rw [hp, hd_none], ?_⟩⟩
  · exact linked_retarget hl.1 hA (fun a ha => h a (List.mem_append_left B ha))
  · refine linked_congr (fun b hb => ?_) hl.2
    rw [h b (List.mem_append_right A hb), if_neg]
    intro e
    exact hdj (List.mem_of_getLast?_eq_some e.symm) hb

/-- Unlinking the node `t` between `A` and `B`. -/
theorem linked_remove {g g2 : Ptr → Option (Option Ptr)} {A B : List Ptr} {t : Ptr}
    (hl : Linked g (A ++ t :: B) none) (hnd : (A ++ t :: B).Nodup)
    (h : ∀ a ∈ A ++ B, g2 a = if some a = A.getLast? then some B.head? else g a) :
    Linked g2 (A ++ B) none := by
  rw [linked_append] at hl ⊢
  have hA := (List.nodup_append.1 hnd).1
  have hdj := (List.nodup_append.1 hnd).2.2
  refine ⟨?_, ?_⟩
  · refine linked_retarget hl.1 hA (fun a ha => ?_)
    rw [h a (List.mem_append_left B ha), hd_none]
  · refine linked_congr (fun b hb => ?_) ((linked_cons _ _ _ _).1 hl.2).2
    rw [h b (List.mem_append_right A hb), if_neg]
    intro e
    exact hdj (List.mem_of_getLast?_eq_some e.symm) (List.mem_cons_of_mem t hb)

/-! ### Lists of addresses and keys -/

theorem length_le_of_nodup_lt {l : List Nat} {n : Nat} (hnd : l.Nodup) (h : ∀ a ∈ l, a < n) :
    l.length ≤ n := by
  have hs : l.toFinset ⊆ Finset.range n := by
    intro a ha
    exact Finset.mem_range.2 (h a (List.mem_toFinset.1 ha))
  have := Finset.card_le_card hs
  rwa [List.toFinset_card_of_nodup hnd, Finset.card_range] at this

theorem nodup_of_keys_sorted {s : SkipList} {l : List Ptr}
    (h : (s.keys l).Pairwise (· < ·)) : l.Nodup := by
  unfold keys at h
  rw [List.pairwise_map] at h
  exact h.imp (fun hab e => by subst e; exact lt_irrefl _ hab)

theorem lo_append_hi {s : SkipList} (item : Int) {l : List Ptr}
    (h : (s.keys l).Pairwise (· < ·)) : s.lo item l ++ s.hi item l = l := by
  induction l with
  | nil => rfl
  | cons a l ih =>
    have h2 : (s.keys l).Pairwise (· < ·) := (List.pairwise_cons.1 h).2
    have h1 : ∀ b ∈ l, s.keyOf a < s.keyOf b := by
      intro b hb
      exact (List.pairwise_cons.1 h).1 _ (List.mem_map_of_mem _ hb)
    by_cases hc : s.keyOf a < item
    · have e1 : s.lo item (a :: l) = a :: s.lo item l := by simp [lo, hc]
      have e2 : s.hi item (a :: l) = s.hi item l := by simp [hi, hc]
      rw [e1, e2, List.cons_append, ih h2]
    · have e1 : s.lo item (a :: l) = [] := by
        simp only [lo, List.filter_eq_nil_iff, decide_eq_true_eq]
        intro b hb
        rcases List.mem_cons.1 hb with rfl | hb
        · exact hc
        · have := h1 b hb
          omega
      have e2 : s.hi item (a :: l) = a :: l := by
        simp only [hi, List.filter_eq_self, decide_eq_true_eq]
        intro b hb
        rcases List.mem_cons.1 hb with rfl | hb
        · omega
        · have := h1 b hb
          omega
      rw [e1, e2, List.nil_append]

theorem lo_hi_of_split {s : SkipList} {item : Int} {A B : List Ptr}
    (hA : ∀ a ∈ A, s.keyOf a < item) (hB : ∀ b ∈ B, item ≤ s.keyOf b) :
    s.lo item (A ++ B) = A ∧ s.hi item (A ++ B) = B := by
  have a1 : s.lo item A = A := by
    simp only [lo, List.filter_eq_self, decide_eq_true_eq]; exact hA
  have a2 : s.lo item B = [] := by
    simp only [lo, List.filter_eq_nil_iff, decide_eq_true_eq]
    intro b hb; have := hB b hb; omega
  have b1 : s.hi item A = [] := by
    simp only [hi, List.filter_eq_nil_iff, decide_eq_true_eq]
    intro a ha; have := hA a ha; omega
  have b2 : s.hi item B = B := by
    simp only [hi, List.filter_eq_self, decide_eq_true_eq]; exact hB
  constructor
  · show List.filter _ (A ++ B) = A
    rw [List.filter_append]
    show s.lo item A ++ s.lo item B = A
    rw [a1, a2, List.append_nil]
  · show List.filter _ (A ++ B) = B
    rw [List.filter_append]
    show s.hi item A ++ s.hi item B = B
    rw [b1, b2, List.nil_append]

theorem mem_lo {s : SkipList} {item : Int} {l : List Ptr} {a : Ptr} :
    a ∈ s.lo item l ↔ a ∈ l ∧ s.keyOf a < item := by
  simp [lo]

theorem mem_hi {s : SkipList} {item : Int} {l : List Ptr} {a : Ptr} :
    a ∈ s.hi item l ↔ a ∈ l ∧ item ≤ s.keyOf a := by
  simp [hi]

theorem set_same {α : Type} (l : List α) (i : Nat) (v : α) (h : l[i]? = some v) :
    l.set i v = l := by
  apply List.ext_getElem?
  intro j
  rw [List.getElem?_set]
  split_ifs with h1 h2
  · subst h1; exact h.symm
  · subst h1
    rw [List.getElem?_eq_none (by omega)] at h
    exact absurd h (by simp)
  · rfl

/-! ### Consequences of the invariant -/

theorem mem_of_nx {s : SkipList} {a : Ptr} {v : Option Ptr} (h : s.nx a = some v) :
    ∃ n, s.mem a = some n ∧ n.next_ = v := by
  simpa [nx] using h

theorem mem_of_pv {s : SkipList} {a : Ptr} {v : Option Ptr} (h : s.pv a = some v) :
    ∃ n, s.mem a = some n ∧ n.prev_ = v := by
  simpa [pv] using h

theorem mem_of_dn {s : SkipList} {a : Ptr} {v : Option Ptr} (h : s.dn a = some v) :
    ∃ n, s.mem a = some n ∧ n.downLevel_ = v := by
  simpa [dn] using h

theorem keyOf_of_mem {s : SkipList} {a : Ptr} {n : SkipListNode} (h : s.mem a = some n) :
    s.keyOf a = n.data_ := by
  simp [keyOf, h]

theorem Rep.alloc {s : SkipList} {L : Nat → List Ptr} (r : Rep s L) {i : Nat} {a : Ptr}
    (h : a ∈ L i) : ∃ n, s.mem a = some n := by
  have := linked_alloc (r.next i) a h
  cases hm : s.mem a with
  | none => simp [nx, hm] at this
  | some n => exact ⟨n, rfl⟩

theorem Rep.lt_brk {s : SkipList} {L : Nat → List Ptr} (r : Rep s L) {i : Nat} {a : Ptr}
    (h : a ∈ L i) : a < s.brk := by
  obtain ⟨n, hn⟩ := r.alloc h
  by_contra hc
  have := r.fresh a (Nat.le_of_not_lt hc)
  rw [hn] at this
  exact absurd this (by simp)

theorem Rep.nodup {s : SkipList} {L : Nat → List Ptr} (r : Rep s L) (i : Nat) :
    (L i).Nodup := nodup_of_keys_sorted (r.sorted i)

theorem Rep.length_le {s : SkipList} {L : Nat → List Ptr} (r : Rep s L) (i : Nat) :
    (L i).length ≤ s.brk :=
  length_le_of_nodup_lt (r.nodup i) (fun _ ha => r.lt_brk ha)

theorem Rep.level_lt {s : SkipList} {L : Nat → List Ptr} (r : Rep s L) {i : Nat} {a : Ptr}
    (h : a ∈ L i) : i < s.maxLevels_.toNat := by
  by_contra hc
  rw [r.above i (by omega)] at h
  simp at h

theorem sorted_head_le {s : SkipList} {item : Int} {b : Ptr} {B : List Ptr}
    (hs : (s.keys (b :: B)).Pairwise (· < ·)) (hb : item ≤ s.keyOf b) :
    ∀ x ∈ b :: B, item ≤ s.keyOf x := by
  intro x hx
  rcases List.mem_cons.1 hx with rfl | hx
  · exact hb
  · have := (List.pairwise_cons.1 hs).1 _ (List.mem_map_of_mem s.keyOf hx)
    omega

/-! ### The search -/

theorem advance_spec (s : SkipList) (item : Int) :
    ∀ (l : List Ptr) (c : Ptr) (fuel : Nat) (curr : Option Ptr) (sah : Bool),
      Linked s.nx (c :: l) none → (c :: l).length ≤ fuel →
      ∃ A B, c :: l = A ++ B ∧ (∀ a ∈ A, s.keyOf a < item) ∧
        (∀ b, B.head? = some b → item ≤ s.keyOf b) ∧
        advance s item fuel c curr sah
          = some (B.head?, A.getLast?.or curr, sah && A.isEmpty) := by
  intro l
  induction l with
  | nil =>
    intro c fuel curr sah hl hf
    obtain ⟨fuel, rfl⟩ : ∃ f, fuel = f + 1 := ⟨fuel - 1, by simp at hf; omega⟩
    obtain ⟨nd, hnd, hnx⟩ := mem_of_nx ((linked_cons _ _ _ _).1 hl).1
    simp only [hd_nil] at hnx
    by_cases hc : item > nd.data_
    · refine ⟨[c], [], rfl, ?_, ?_, ?_⟩
      · intro a ha
        simp only [List.mem_singleton] at ha
        subst ha
        rw [keyOf_of_mem hnd]; exact hc
      · simp
      · simp [advance, hnd, hc, hnx]
    · refine ⟨[], [c], rfl, ?_, ?_, ?_⟩
      · simp
      · intro b hb
        simp only [List.head?_cons, Option.some.injEq] at hb
        subst hb
        rw [keyOf_of_mem hnd]; omega
      · simp [advance, hnd, hc]
  | cons b l ih =>
    intro c fuel curr sah hl hf
    obtain ⟨fuel, rfl⟩ : ∃ f, fuel = f + 1 := ⟨fuel - 1, by simp at hf; omega⟩
    obtain ⟨nd, hnd, hnx⟩ := mem_of_nx ((linked_cons _ _ _ _).1 hl).1
    simp only [hd_cons] at hnx
    by_cases hc : item > nd.data_
    · obtain ⟨A, B, hAB, hA, hB, hadv⟩ :=
        ih b fuel (some c) false ((linked_cons _ _ _ _).1 hl).2
          (by simp at hf ⊢; omega)
      refine ⟨c :: A, B, by rw [hAB]; rfl, ?_, hB, ?_⟩
      · intro a ha
        rcases List.mem_cons.1 ha with rfl | ha
        · rw [keyOf_of_mem hnd]; exact hc
        · exact hA a ha
      · simp only [advance, hnd, hc, hnx, if_true, hadv]
        cases A with
        | nil => simp
        | cons a A =>
          obtain ⟨z, hz⟩ : ∃ z, (a :: A).getLast? = some z :=
            ⟨_, List.getLast?_eq_getLast _ (List.cons_ne_nil _ _)⟩
          simp [List.getLast?_cons_cons, hz]
    · refine ⟨[], c :: b :: l, rfl, ?_, ?_, ?_⟩
      · simp
      · intro x hx
        simp only [List.head?_cons, Option.some.injEq] at hx
        subst hx
        rw [keyOf_of_mem hnd]; omega
      · simp [advance, hnd, hc]

theorem split_lo_hi {s : SkipList} {item : Int} {A B : List Ptr}
    (hs : (s.keys (A ++ B)).Pairwise (· < ·)) (hA : ∀ a ∈ A, s.keyOf a < item)
    (hB : ∀ b, B.head? = some b → item ≤ s.keyOf b) :
    s.lo item (A ++ B) = A ∧ s.hi item (A ++ B) = B := by
  refine lo_hi_of_split hA ?_
  cases B with
  | nil => simp
  | cons b B =>
    have hs2 : (s.keys (b :: B)).Pairwise (· < ·) := by
      unfold keys at hs ⊢
      rw [List.map_append] at hs
      exact (List.pairwise_append.1 hs).2.1
    exact sorted_head_le hs2 (hB b rfl)

theorem sorted_hi {s : SkipList} (item : Int) {l : List Ptr}
    (hs : (s.keys l).Pairwise (· < ·)) : (s.keys (s.hi item l)).Pairwise (· < ·) := by
  unfold keys at hs ⊢
  rw [List.pairwise_map] at hs ⊢
  exact hs.filter _

theorem hi_head_of_mem_key {s : SkipList} {item : Int} {l : List Ptr}
    (hs : (s.keys l).Pairwise (· < ·)) (h : item ∈ s.keys l) :
    ∃ b, (s.hi item l).head? = some b ∧ s.keyOf b = item ∧ b ∈ l := by
  obtain ⟨x, hx, hk⟩ := List.mem_map.1 h
  have hxh : x ∈ s.hi item l := mem_hi.2 ⟨hx, by omega⟩
  cases hB : s.hi item l with
  | nil => rw [hB] at hxh; simp at hxh
  | cons b B =>
    have hbm : b ∈ s.hi item l := by rw [hB]; exact List.mem_cons_self b B
    have hb := mem_hi.1 hbm
    refine ⟨b, rfl, ?_, hb.1⟩
    rw [hB] at hxh
    rcases List.mem_cons.1 hxh with e | hxB
    · rw [← e]; exact hk
    · have hs2 := sorted_hi item hs
      rw [hB] at hs2
      have := (List.pairwise_cons.1 hs2).1 _ (List.mem_map_of_mem s.keyOf hxB)
      have := hb.2
      omega

theorem Rep.levels_pos {s : SkipList} {L : Nat → List Ptr} (r : Rep s L) :
    0 < s.maxLevels_.toNat := by
  have := r.pos
  omega

theorem Rep.getAt_heads_zero {s : SkipList} {L : Nat → List Ptr} (r : Rep s L) :
    getAt s.heads_ 0 = some (L 0).head? := by
  simp only [getAt, le_refl, if_true, Int.toNat_zero]
  exact r.head 0 r.levels_pos

/-! ### The search on a structure with the search invariant -/

theorem Searchable.search_alloc {s : SkipList} {L : Nat → List Ptr} (r : Searchable s L) {i : Nat}
    {a : Ptr} (h : a ∈ L i) : ∃ n, s.mem a = some n := by
  have := linked_alloc (r.next i) a h
  cases hm : s.mem a with
  | none => simp [nx, hm] at this
  | some n => exact ⟨n, rfl⟩

theorem Searchable.search_length_le {s : SkipList} {L : Nat → List Ptr} (r : Searchable s L)
    (i : Nat) : (L i).length ≤ s.brk :=
  length_le_of_nodup_lt (nodup_of_keys_sorted (r.sorted i)) (r.below i)

theorem Searchable.search_levels_pos {s : SkipList} {L : Nat → List Ptr} (r : Searchable s L) :
    0 < s.maxLevels_.toNat := by
  have := r.pos
  omega

theorem Searchable.search_getAt_heads_zero {s : SkipList} {L : Nat → List Ptr}
    (r : Searchable s L) : getAt s.heads_ 0 = some (L 0).head? := by
  simp only [getAt, le_refl, if_true, Int.toNat_zero]
  exact r.head 0 r.search_levels_pos

theorem Searchable.search_key_below {s : SkipList} {L : Nat → List Ptr} (r : Searchable s L) {k : Int} :
    ∀ (d i : Nat), k ∈ s.keys (L (i + d)) → k ∈ s.keys (L i) := by
  intro d
  induction d with
  | zero => intro i h; exact h
  | succ d ih =>
    intro i h
    apply ih
    obtain ⟨p, hp, rfl⟩ := List.mem_map.1 h
    obtain ⟨q, hq, -, hk⟩ := r.downS (i + d) p hp
    exact List.mem_map.2 ⟨q, hq, hk⟩

theorem Searchable.search_key_zero {s : SkipList} {L : Nat → List Ptr} (r : Searchable s L) {k : Int} {i : Nat}
    (h : k ∈ s.keys (L i)) : k ∈ s.keys (L 0) :=
  r.search_key_below i 0 (by simpa using h)

theorem Searchable.search_ne_nil_below {s : SkipList} {L : Nat → List Ptr} (r : Searchable s L) {i j : Nat}
    (hij : i ≤ j) (h : L j ≠ []) : L i ≠ [] := by
  obtain ⟨p, hp⟩ := List.exists_mem_of_ne_nil _ h
  have h1 : s.keyOf p ∈ s.keys (L (i + (j - i))) := by
    rw [Nat.add_sub_cancel' hij]
    exact List.mem_map_of_mem _ hp
  have h2 := r.search_key_below (j - i) i h1
  intro e
  rw [e] at h2
  simp [keys] at h2

theorem Searchable.search_scanLevel_spec {s : SkipList} {L : Nat → List Ptr} (r : Searchable s L) (item : Int)
    {n : Nat} (hn : n < s.maxLevels_.toNat) (hne : L n ≠ [])
    {curr : Option Ptr} {sah : Bool}
    (hc : sah = true ∨ ∃ c, curr = some c ∧ c ∈ L n ∧ s.keyOf c < item) :
    ∃ c1 sah1, s.scanLevel item n curr sah
        = some ((s.hi item (L n)).head?, some c1, sah1) ∧
      c1 ∈ L n ∧ (sah1 = false → s.keyOf c1 < item) := by
  by_cases hsah : sah = true
  · subst hsah
    obtain ⟨c, l, hcl⟩ := List.exists_cons_of_ne_nil hne
    have hh := r.head n hn
    rw [hcl] at hh
    have hlk := r.next n
    rw [hcl] at hlk
    have hlen := r.search_length_le n
    rw [hcl] at hlen
    obtain ⟨A, B, hAB, hA, hB, hadv⟩ := advance_spec s item l c s.brk (some c) true hlk hlen
    have hs := r.sorted n
    rw [hcl, hAB] at hs
    obtain ⟨-, hhi⟩ := split_lo_hi hs hA hB
    cases A with
    | nil =>
      refine ⟨c, true, ?_, by rw [hcl]; simp, by simp⟩
      simp only [scanLevel, if_true, hh, List.head?_cons, hadv]
      rw [hcl, hAB, hhi]; simp
    | cons a A =>
      obtain ⟨z, hz⟩ : ∃ z, (a :: A).getLast? = some z :=
        ⟨_, List.getLast?_eq_getLast _ (List.cons_ne_nil _ _)⟩
      have hzm : z ∈ a :: A := List.mem_of_getLast?_eq_some hz
      refine ⟨z, false, ?_, ?_, fun _ => hA z hzm⟩
      · simp only [scanLevel, if_true, hh, List.head?_cons, hadv]
        rw [hcl, hAB, hhi]; simp [hz]
      · rw [hcl, hAB]; exact List.mem_append_left B hzm
  · have hsf : sah = false := by simpa using hsah
    subst hsf
    obtain ⟨c, rfl, hcm, hck⟩ : ∃ c, curr = some c ∧ c ∈ L n ∧ s.keyOf c < item := by
      rcases hc with h | h
      · exact absurd h (by simp)
      · exact h
    obtain ⟨P, l, hPl⟩ := List.append_of_mem hcm
    have hlk := r.next n
    rw [hPl, linked_append] at hlk
    have hlen := r.search_length_le n
    rw [hPl] at hlen
    obtain ⟨A, B, hAB, hA, hB, hadv⟩ := advance_spec s item l c s.brk (some c) false hlk.2
      (by simp at hlen ⊢; omega)
    have hs := r.sorted n
    rw [hPl] at hs
    have hP : ∀ a ∈ P, s.keyOf a < item := by
      intro a ha
      unfold keys at hs
      rw [List.map_append] at hs
      have := (List.pairwise_append.1 hs).2.2 _ (List.mem_map_of_mem s.keyOf ha) _
        (List.mem_map_of_mem s.keyOf (List.mem_cons_self c l))
      omega
    rw [hAB, ← List.append_assoc] at hs
    have hPA : ∀ a ∈ P ++ A, s.keyOf a < item := by
      intro a ha
      rcases List.mem_append.1 ha with h | h
      · exact hP a h
      · exact hA a h
    obtain ⟨-, hhi⟩ := split_lo_hi hs hPA hB
    cases A with
    | nil =>
      exfalso
      have e : B = c :: l := by simpa using hAB.symm
      have := hB c (by rw [e]; rfl)
      omega
    | cons a A =>
      obtain ⟨z, hz⟩ : ∃ z, (a :: A).getLast? = some z :=
        ⟨_, List.getLast?_eq_getLast _ (List.cons_ne_nil _ _)⟩
      have hzm : z ∈ a :: A := List.mem_of_getLast?_eq_some hz
      refine ⟨z, false, ?_, ?_, fun _ => hA z hzm⟩
      · simp only [scanLevel, Bool.false_eq_true, if_false, hadv]
        rw [hPl, hAB, ← List.append_assoc, hhi]; simp [hz]
      · rw [hPl, hAB]
        exact List.mem_append_right P (List.mem_append_left B hzm)

theorem Searchable.search_curOK_down {s : SkipList} {L : Nat → List Ptr} (r : Searchable s L) (item : Int)
    {n : Nat} {c1 : Ptr} {sah1 : Bool} {cn : SkipListNode}
    (hc1 : c1 ∈ L n) (hk : sah1 = false → s.keyOf c1 < item) (hcn : s.mem c1 = some cn) :
    CurOK s L item n cn.downLevel_ sah1 := by
  cases n with
  | zero => trivial
  | succ n =>
    cases sah1 with
    | true => exact Or.inl rfl
    | false =>
      obtain ⟨q, hq, hd, hkq⟩ := r.downS n c1 hc1
      obtain ⟨n2, hn2, hdn⟩ := mem_of_dn hd
      rw [hcn] at hn2
      cases hn2
      exact Or.inr ⟨q, hdn, hq, by rw [hkq]; exact hk rfl⟩

theorem Searchable.search_findLoop_spec {s : SkipList} {L : Nat → List Ptr} (r : Searchable s L) (item : Int) :
    ∀ (n : Nat) (curr : Option Ptr) (sah : Bool), n ≤ s.maxLevels_.toNat →
      (∀ j, j < n → L j ≠ []) → CurOK s L item n curr sah →
      (∀ j, n ≤ j → item ∉ s.keys (L j)) →
      ∃ res, findLoop s item n curr sah = some res ∧ FoundTop s L item res := by
  intro n
  induction n with
  | zero =>
    intro curr sah _ _ _ habove
    exact ⟨(none, -1), rfl, fun j => habove j (Nat.zero_le j)⟩
  | succ n ih =>
    intro curr sah hn hne hc habove
    obtain ⟨c1, sah1, hscan, hc1, hk1⟩ :=
      r.search_scanLevel_spec item (Nat.lt_of_succ_le hn) (hne n (Nat.lt_succ_self n)) hc
    obtain ⟨cn, hcn⟩ := r.search_alloc hc1
    have hdown : item ∉ s.keys (L n) →
        ∃ res, findLoop s item n cn.downLevel_ sah1 = some res ∧ FoundTop s L item res := by
      intro hnot
      refine ih cn.downLevel_ sah1 (Nat.le_of_succ_le hn)
        (fun j hj => hne j (Nat.lt_succ_of_lt hj)) (r.search_curOK_down item hc1 hk1 hcn) ?_
      intro j hj
      rcases Nat.eq_or_lt_of_le hj with e | hlt
      · rw [← e]; exact hnot
      · exact habove j hlt
    cases hB : (s.hi item (L n)).head? with
    | none =>
      have hnot : item ∉ s.keys (L n) := by
        intro hmem
        obtain ⟨b, hb, -, -⟩ := hi_head_of_mem_key (r.sorted n) hmem
        rw [hB] at hb
        exact absurd hb (by simp)
      obtain ⟨res, hres, hft⟩ := hdown hnot
      refine ⟨res, ?_, hft⟩
      rw [hB] at hscan
      simp only [findLoop, hscan, load, hcn, hres]
    | some b =>
      have hbm : b ∈ L n := (mem_hi.1 (List.mem_of_mem_head? hB)).1
      obtain ⟨nd, hnd⟩ := r.search_alloc hbm
      rw [hB] at hscan
      by_cases hitem : item = nd.data_
      · refine ⟨(some b, (n : Int)), ?_, ?_⟩
        · simp only [findLoop, hscan, hnd]
          rw [if_pos hitem]
        · exact ⟨n, rfl, hbm, by rw [keyOf_of_mem hnd, hitem],
            fun j hj => habove j (Nat.succ_le_of_lt hj)⟩
      · have hnot : item ∉ s.keys (L n) := by
          intro hmem
          obtain ⟨b2, hb2, hk2, -⟩ := hi_head_of_mem_key (r.sorted n) hmem
          rw [hB] at hb2
          cases hb2
          rw [keyOf_of_mem hnd] at hk2
          exact hitem hk2.symm
        obtain ⟨res, hres, hft⟩ := hdown hnot
        refine ⟨res, ?_, hft⟩
        simp only [findLoop, hscan, hnd]
        rw [if_neg hitem]
        simp only [load, hcn, hres]

theorem Searchable.search_topLevel_spec {s : SkipList} {L : Nat → List Ptr} (r : Searchable s L) (h0 : L 0 ≠ []) :
    ∀ n, n ≤ s.maxLevels_.toNat → (∀ j, n ≤ j → L j = []) →
      ∃ top curr, topLevel s.heads_ 0 none n = some (top, curr) ∧
        top < s.maxLevels_.toNat ∧ L top ≠ [] ∧ ∀ j, top < j → L j = [] := by
  intro n
  induction n with
  | zero =>
    intro _ h
    exact absurd (h 0 (Nat.le_refl 0)) h0
  | succ n ih =>
    intro hn h
    have hh := r.head n (Nat.lt_of_succ_le hn)
    cases hL : L n with
    | nil =>
      obtain ⟨top, curr, ht, h1, h2, h3⟩ := ih (Nat.le_of_succ_le hn) (by
        intro j hj
        rcases Nat.eq_or_lt_of_le hj with e | hlt
        · rw [← e]; exact hL
        · exact h j hlt)
      refine ⟨top, curr, ?_, h1, h2, h3⟩
      rw [hL] at hh
      simp only [topLevel, hh, List.head?_nil, ht]
    | cons c l =>
      rw [hL] at hh
      refine ⟨n, some c, ?_, Nat.lt_of_succ_le hn, by rw [hL]; simp, fun j hj => h j hj⟩
      simp only [topLevel, hh, List.head?_cons]

theorem Searchable.search_all_nil {s : SkipList} {L : Nat → List Ptr} (r : Searchable s L) (h0 : L 0 = []) :
    ∀ j, L j = [] := by
  intro j
  by_contra hne
  exact r.search_ne_nil_below (Nat.zero_le j) hne h0

theorem Searchable.search_findNode_spec {s : SkipList} {L : Nat → List Ptr} (r : Searchable s L) (item : Int) :
    ∃ res, s.findNode item 0 = some res ∧ FoundTop s L item res := by
  cases hL : L 0 with
  | nil =>
    refine ⟨(none, 0), ?_, ?_⟩
    · simp only [findNode, r.search_getAt_heads_zero, hL, List.head?_nil]
    · intro j
      rw [r.search_all_nil hL j]
      simp [keys]
  | cons c l =>
    have h0 : L 0 ≠ [] := by rw [hL]; simp
    obtain ⟨top, curr, ht, h1, h2, h3⟩ :=
      r.search_topLevel_spec h0 s.maxLevels_.toNat (Nat.le_refl _) (fun j hj => r.above j hj)
    obtain ⟨res, hres, hft⟩ := r.search_findLoop_spec item (top + 1) curr true h1
      (fun j hj => r.search_ne_nil_below (Nat.le_of_lt_succ hj) h2) (Or.inl rfl)
      (fun j hj => by rw [h3 j hj]; simp [keys])
    refine ⟨res, ?_, hft⟩
    simp only [findNode, r.search_getAt_heads_zero, hL, List.head?_cons, Int.toNat_zero, ht, hres]

theorem Searchable.search_contains_spec {s : SkipList} {L : Nat → List Ptr} (r : Searchable s L) (item : Int) :
    s.contains item = some (decide (item ∈ s.keys (L 0))) := by
  obtain ⟨res, hres, hft⟩ := r.search_findNode_spec item
  obtain ⟨t, lvl⟩ := res
  simp only [contains, hres]
  cases t with
  | none =>
    have : item ∉ s.keys (L 0) := hft 0
    simp [this]
  | some t =>
    obtain ⟨k, -, htk, hkey, -⟩ := hft
    have : item ∈ s.keys (L 0) := r.search_key_zero (List.mem_map.2 ⟨t, htk, hkey⟩)
    simp [this]

/-! ### The search on a structure with the full invariant -/

theorem Rep.searchable {s : SkipList} {L : Nat → List Ptr} (r : Rep s L) : Searchable s L :=
  { pos := r.pos, head := r.head, above := r.above, next := r.next, sorted := r.sorted,
    downS := r.downS, below := fun _ _ h => r.lt_brk h }

theorem Rep.key_below {s : SkipList} {L : Nat → List Ptr} (r : Rep s L) {k : Int} :
    ∀ (d i : Nat), k ∈ s.keys (L (i + d)) → k ∈ s.keys (L i) :=
  r.searchable.search_key_below

theorem Rep.key_zero {s : SkipList} {L : Nat → List Ptr} (r : Rep s L) {k : Int} {i : Nat}
    (h : k ∈ s.keys (L i)) : k ∈ s.keys (L 0) :=
  r.searchable.search_key_zero h

theorem Rep.ne_nil_below {s : SkipList} {L : Nat → List Ptr} (r : Rep s L) {i j : Nat}
    (hij : i ≤ j) (h : L j ≠ []) : L i ≠ [] :=
  r.searchable.search_ne_nil_below hij h

theorem Rep.scanLevel_spec {s : SkipList} {L : Nat → List Ptr} (r : Rep s L) (item : Int)
    {n : Nat} (hn : n < s.maxLevels_.toNat) (hne : L n ≠ [])
    {curr : Option Ptr} {sah : Bool}
    (hc : sah = true ∨ ∃ c, curr = some c ∧ c ∈ L n ∧ s.keyOf c < item) :
    ∃ c1 sah1, s.scanLevel item n curr sah
        = some ((s.hi item (L n)).head?, some c1, sah1) ∧
      c1 ∈ L n ∧ (sah1 = false → s.keyOf c1 < item) :=
  r.searchable.search_scanLevel_spec item hn hne hc

theorem Rep.curOK_down {s : SkipList} {L : Nat → List Ptr} (r : Rep s L) (item : Int)
    {n : Nat} {c1 : Ptr} {sah1 : Bool} {cn : SkipListNode}
    (hc1 : c1 ∈ L n) (hk : sah1 = false → s.keyOf c1 < item) (hcn : s.mem c1 = some cn) :
    CurOK s L item n cn.downLevel_ sah1 :=
  r.searchable.search_curOK_down item hc1 hk hcn

theorem Rep.findLoop_spec {s : SkipList} {L : Nat → List Ptr} (r : Rep s L) (item : Int) :
    ∀ (n : Nat) (curr : Option Ptr) (sah : Bool), n ≤ s.maxLevels_.toNat →
      (∀ j, j < n → L j ≠ []) → CurOK s L item n curr sah →
      (∀ j, n ≤ j → item ∉ s.keys (L j)) →
      ∃ res, findLoop s item n curr sah = some res ∧ FoundTop s L item res :=
  r.searchable.search_findLoop_spec item

theorem Rep.topLevel_spec {s : SkipList} {L : Nat → List Ptr} (r : Rep s L) (h0 : L 0 ≠ []) :
    ∀ n, n ≤ s.maxLevels_.toNat → (∀ j, n ≤ j → L j = []) →
      ∃ top curr, topLevel s.heads_ 0 none n = some (top, curr) ∧
        top < s.maxLevels_.toNat ∧ L top ≠ [] ∧ ∀ j, top < j → L j = [] :=
  r.searchable.search_topLevel_spec h0

theorem Rep.all_nil {s : SkipList} {L : Nat → List Ptr} (r : Rep s L) (h0 : L 0 = []) :
    ∀ j, L j = [] :=
  r.searchable.search_all_nil h0

theorem Rep.findNode_spec {s : SkipList} {L : Nat → List Ptr} (r : Rep s L) (item : Int) :
    ∃ res, s.findNode item 0 = some res ∧ FoundTop s L item res :=
  r.searchable.search_findNode_spec item

theorem Rep.contains_spec {s : SkipList} {L : Nat → List Ptr} (r : Rep s L) (item : Int) :
    s.contains item = some (decide (item ∈ s.keys (L 0))) :=
  r.searchable.search_contains_spec item

theorem Rep.isEmpty_spec {s : SkipList} {L : Nat → List Ptr} (r : Rep s L) :
    s.isEmpty = some (L 0).isEmpty := by
  simp only [isEmpty, r.getAt_heads_zero]
  cases L 0 <;> rfl

/-! ### Effect of one node insertion -/

@[simp]
theorem store_mem (s : SkipList) (p : Ptr) (c : Option SkipListNode) (a : Ptr) :
    (s.store p c).mem a = if a = p then c else s.mem a := rfl

@[simp]
theorem store_heads (s : SkipList) (p : Ptr) (c : Option SkipListNode) :
    (s.store p c).heads_ = s.heads_ := rfl

@[simp]
theorem store_tails (s : SkipList) (p : Ptr) (c : Option SkipListNode) :
    (s.store p c).tails_ = s.tails_ := rfl

@[simp]
theorem store_maxLevels (s : SkipList) (p : Ptr) (c : Option SkipListNode) :
    (s.store p c).maxLevels_ = s.maxLevels_ := rfl

@[simp]
theorem store_brk (s : SkipList) (p : Ptr) (c : Option SkipListNode) :
    (s.store p c).brk = s.brk := rfl

theorem getAt_nat (xs : List (Option Ptr)) (n : Nat) : getAt xs (n : Int) = xs[n]? := by
  simp [getAt]

theorem setAt_nat (xs : List (Option Ptr)) (n : Nat) (v : Option Ptr) (h : n < xs.length) :
    setAt xs (n : Int) v = some (xs.set n v) := by
  simp [setAt, h]

theorem linked_last {g : Ptr → Option (Option Ptr)} {l : List Ptr} {q : Option Ptr} {a : Ptr}
    (hl : Linked g l q) (ha : l.getLast? = some a) : g a = some q := by
  obtain ⟨l2, rfl⟩ := List.getLast?_eq_some_iff.1 ha
  rw [linked_append] at hl
  simpa using hl.2

theorem Rep.nx_last {s : SkipList} {L : Nat → List Ptr} (r : Rep s L) {n : Nat}
    {A B : List Ptr} (h : L n = A ++ B) {a : Ptr} (ha : A.getLast? = some a) :
    s.nx a = some B.head? := by
  have := r.next n
  rw [h, linked_append, hd_none] at this
  exact linked_last this.1 ha

theorem Rep.pv_head {s : SkipList} {L : Nat → List Ptr} (r : Rep s L) {n : Nat}
    {A B : List Ptr} (h : L n = A ++ B) {b : Ptr} (hb : B.head? = some b) :
    s.pv b = some A.getLast? := by
  have := r.prev n
  rw [h, List.reverse_append, linked_append, hd_none, List.head?_reverse] at this
  exact linked_last this.1 (by rw [List.getLast?_reverse]; exact hb)

set_option maxHeartbeats 4000000 in
theorem Rep.pushNode_eff {s : SkipList} {L : Nat → List Ptr} (r : Rep s L) (item : Int)
    {ips : List (Option Ptr)} {n : Nat} (hn : n < s.maxLevels_.toNat) {A B : List Ptr}
    (hsplit : L n = A ++ B) (hips : ips[n]? = some B.head?) {d : Option Ptr}
    (hd : ∀ dd, d = some dd → ∃ j, dd ∈ L j ∧ j ≠ n) :
    ∃ s2, s.pushNode item ips n d = some (s2, s.brk) ∧ PushEff s s2 s.brk item n A B d := by
  have hp : s.mem s.brk = none := r.fresh _ (Nat.le_refl _)
  have hn1 : n < s.heads_.length := by rw [r.hlen]; exact hn
  have hn2 : n < s.tails_.length := by rw [r.tlen]; exact hn
  have hh := r.head n hn
  have ht := r.tail n hn
  rw [hsplit] at hh ht
  have hne : ∀ a ∈ A ++ B, a ≠ s.brk := by
    intro a ha e
    have : a ∈ L n := by rw [hsplit]; exact ha
    have := r.lt_brk this
    rw [e] at this
    exact lt_irrefl _ this
  have hdd : ∀ dd, d = some dd → (∃ nd, s.mem dd = some nd) ∧ dd ≠ s.brk ∧ dd ∉ A ++ B := by
    intro dd hdd
    obtain ⟨j, hj, hjn⟩ := hd dd hdd
    refine ⟨r.alloc hj, ?_, ?_⟩
    · intro e
      have := r.lt_brk hj
      rw [e] at this
      exact lt_irrefl _ this
    · intro hm
      rw [← hsplit] at hm
      exact hjn (r.disj j n dd hj hm)
  have hA1 : ∀ a1, A.getLast? = some a1 → (∃ na, s.mem a1 = some na) ∧ a1 ≠ s.brk ∧
      ∀ b, B.head? = some b → a1 ≠ b := by
    intro a1 ha1
    have hm : a1 ∈ L n := by
      rw [hsplit]; exact List.mem_append_left B (List.mem_of_getLast?_eq_some ha1)
    refine ⟨r.alloc hm, hne a1 (by rw [← hsplit]; exact hm), ?_⟩
    intro b hb e
    have hnd := r.nodup n
    rw [hsplit] at hnd
    exact (List.nodup_append.1 hnd).2.2 (List.mem_of_getLast?_eq_some ha1)
      (e ▸ List.mem_of_mem_head? hb)
  have hB1 : ∀ b, B.head? = some b → (∃ nb, s.mem b = some nb ∧ nb.prev_ = A.getLast?) ∧
      b ≠ s.brk := by
    intro b hb
    exact ⟨mem_of_pv (r.pv_head hsplit hb),
      hne b (List.mem_append_right A (List.mem_of_mem_head? hb))⟩
  have hD : ∀ dd, d = some dd → dd ≠ s.brk ∧ some dd ≠ A.getLast? ∧ some dd ≠ B.head? := by
    intro dd h
    obtain ⟨-, h1, h2⟩ := hdd dd h
    refine ⟨h1, ?_, ?_⟩
    · intro e
      exact h2 (List.mem_append_left B (List.mem_of_getLast?_eq_some e.symm))
    · intro e
      exact h2 (List.mem_append_right A (List.mem_of_mem_head? e.symm))
  rcases List.eq_nil_or_concat A with rfl | ⟨A, a1, rfl⟩ <;> cases B <;> cases d
  case' inl.nil.none =>
    simp [pushNode, hips, newNode, addBefore, hh, setHead, setTail, setAt_nat, hn1, hn2, setDown, modify]
  case' inl.nil.some dd =>
    obtain ⟨⟨nd, hnd⟩, -, -⟩ := hdd dd rfl
    obtain ⟨hd1, -, -⟩ := hD dd rfl
    simp [pushNode, hips, newNode, addBefore, hh, setHead, setTail, setAt_nat, hn1, hn2, setDown, setUp, modify, hd1, hnd]
  case' inl.cons.none b B =>
    obtain ⟨⟨nb, hb, hbp⟩, hb1⟩ := hB1 b rfl
    simp only [List.getLast?_nil] at hbp
    simp [pushNode, hips, newNode, addBefore, hh, setHead, setTail, setAt_nat, hn1, hn2, setDown, setNext, setPrev, modify, hb, hbp, hb1, hb1.symm]
  case' inl.cons.some b B dd =>
    obtain ⟨⟨nb, hb, hbp⟩, hb1⟩ := hB1 b rfl
    simp only [List.getLast?_nil] at hbp
    obtain ⟨⟨nd, hnd⟩, -, -⟩ := hdd dd rfl
    obtain ⟨hd1, -, hd3⟩ := hD dd rfl
    have hd3 : dd ≠ b := by simpa using hd3
    simp [pushNode, hips, newNode, addBefore, hh, setHead, setTail, setAt_nat, hn1, hn2, setDown, setUp, setNext, setPrev, modify, hb, hbp, hb1, hb1.symm, hd1, hnd, hd3, hd3.symm]
  case' inr.intro.intro.nil.none =>
    obtain ⟨⟨na, ha⟩, ha1, -⟩ := hA1 a1 (by simp)
    have ht2 : s.tails_[n]? = some (some a1) := by simpa using ht
    have hh2 : ∃ h0, s.heads_[n]? = some (some h0) := by
      cases A <;> simp [hh]
    obtain ⟨h0, hh2⟩ := hh2
    simp [pushNode, hips, newNode, addBefore, hh2, ht2, getAt_nat, setHead, setTail, setAt_nat, hn1, hn2, setDown, setNext, setPrev, modify, ha, ha1, ha1.symm]
  case' inr.intro.intro.nil.some dd =>
    obtain ⟨⟨na, ha⟩, ha1, -⟩ := hA1 a1 (by simp)
    have ht2 : s.tails_[n]? = some (some a1) := by simpa using ht
    have hh2 : ∃ h0, s.heads_[n]? = some (some h0) := by
      cases A <;> simp [hh]
    obtain ⟨h0, hh2⟩ := hh2
    obtain ⟨⟨nd, hnd⟩, -, -⟩ := hdd dd rfl
    obtain ⟨hd1, hd2, -⟩ := hD dd rfl
    have hd2 : dd ≠ a1 := by simpa using hd2
    simp [pushNode, hips, newNode, addBefore, hh2, ht2, getAt_nat, setHead, setTail, setAt_nat, hn1, hn2, setDown, setUp, setNext, setPrev, modify, ha, ha1, ha1.symm, hd1, hnd, hd2, hd2.symm]
  case' inr.intro.intro.cons.none b B =>
    obtain ⟨⟨na, ha⟩, ha1, hab⟩ := hA1 a1 (by simp)
    have hab := hab b rfl
    obtain ⟨⟨nb, hb, hbp⟩, hb1⟩ := hB1 b rfl
    have hbp : nb.prev_ = some a1 := by simpa using hbp
    have hh2 : ∃ h0, s.heads_[n]? = some (some h0) := by
      cases A <;> simp [hh]
    obtain ⟨h0, hh2⟩ := hh2
    simp [pushNode, hips, newNode, addBefore, hh2, getAt_nat, setHead, setTail, setAt_nat, hn1, hn2, setDown, setNext, setPrev, modify, ha, ha1, ha1.symm, hb, hbp, hb1, hb1.symm, hab, hab.symm]
  case' inr.intro.intro.cons.some b B dd =>
    obtain ⟨⟨na, ha⟩, ha1, hab⟩ := hA1 a1 (by simp)
    have hab := hab b rfl
    obtain ⟨⟨nb, hb, hbp⟩, hb1⟩ := hB1 b rfl
    have hbp : nb.prev_ = some a1 := by simpa using hbp
    have hh2 : ∃ h0, s.heads_[n]? = some (some h0) := by
      cases A <;> simp [hh]
    obtain ⟨h0, hh2⟩ := hh2
    obtain ⟨⟨nd, hnd⟩, -, -⟩ := hdd dd rfl
    obtain ⟨hd1, hd2, hd3⟩ := hD dd rfl
    have hd2 : dd ≠ a1 := by simpa using hd2
    have hd3 : dd ≠ b := by simpa using hd3
    simp [pushNode, hips, newNode, addBefore, hh2, getAt_nat, setHead, setTail, setAt_nat, hn1, hn2, setDown, setUp, setNext, setPrev, modify, ha, ha1, ha1.symm, hb, hbp, hb1, hb1.symm, hab, hab.symm, hd1, hnd, hd2, hd2.symm, hd3, hd3.symm]
  all_goals
    clear hd hdd hne hsplit hips r hA1 hB1 hD
    refine ⟨rfl, rfl, by simp, by simp, ?_, ?_, ?_, ?_, ?_, ?_, ?_, ?_⟩
    · intro i
      by_cases h : i = n
      · subst h; simp [List.getElem?_set, hn1, hh]
      · have h2 : n ≠ i := fun e => h e.symm
        simp [List.getElem?_set, h, h2]
    · intro i
      by_cases h : i = n
      · subst h; simp [List.getElem?_set, hn2, ht]
      · have h2 : n ≠ i := fun e => h e.symm
        simp [List.getElem?_set, h, h2]
    · intro a
      simp only [nx, store_mem]
      split_ifs <;> simp_all
    · intro a
      simp only [pv, store_mem]
      split_ifs <;> simp_all
    · intro a
      simp only [dn, store_mem]
      split_ifs <;> simp_all
    · intro a
      simp only [up, store_mem]
      split_ifs <;> simp_all
    · intro a
      simp only [keyOf, store_mem]
      split_ifs <;> simp_all
    · intro a
      simp only [store_mem]
      split_ifs <;> simp_all

/-! ### Effect of unlinking one node -/

set_option maxHeartbeats 4000000 in
theorem Rep.unlinkNode_eff {s : SkipList} {L : Nat → List Ptr} (r : Rep s L)
    {n : Nat} (hn : n < s.maxLevels_.toNat) {A B : List Ptr} {t : Ptr}
    (hsplit : L n = A ++ t :: B) :
    ∃ s2 nt, s.mem t = some nt ∧ s.unlinkNode t (n : Int) = some (s2, nt.downLevel_) ∧
      EraseEff s s2 t n A B := by
  have hn1 : n < s.heads_.length := by rw [r.hlen]; exact hn
  have hn2 : n < s.tails_.length := by rw [r.tlen]; exact hn
  have hh := r.head n hn
  have ht := r.tail n hn
  rw [hsplit] at hh ht
  have hnd := r.nodup n
  rw [hsplit] at hnd
  have htm : t ∈ L n := by rw [hsplit]; simp
  have hnxt : s.nx t = some B.head? := by
    have h2 : L n = (A ++ [t]) ++ B := by rw [hsplit]; simp
    exact r.nx_last h2 (by simp)
  have hpvt : s.pv t = some A.getLast? := r.pv_head hsplit rfl
  obtain ⟨nt, hnt, hntn⟩ := mem_of_nx hnxt
  obtain ⟨nt2, hnt2, hntp⟩ := mem_of_pv hpvt
  rw [hnt] at hnt2
  cases hnt2
  have hA1 : ∀ a1, A.getLast? = some a1 → (∃ na, s.mem a1 = some na) ∧ a1 ≠ t ∧
      ∀ b, B.head? = some b → a1 ≠ b := by
    intro a1 ha1
    have hm1 : a1 ∈ A := List.mem_of_getLast?_eq_some ha1
    have hm : a1 ∈ L n := by rw [hsplit]; exact List.mem_append_left _ hm1
    refine ⟨r.alloc hm, ?_, ?_⟩
    · intro e
      exact (List.nodup_append.1 hnd).2.2 hm1 (e ▸ List.mem_cons_self t B) 
    · intro b hb e
      exact (List.nodup_append.1 hnd).2.2 hm1
        (List.mem_cons_of_mem t (e ▸ List.mem_of_mem_head? hb))
  have hB1 : ∀ b, B.head? = some b → (∃ nb, s.mem b = some nb) ∧ b ≠ t := by
    intro b hb
    have hm1 : b ∈ B := List.mem_of_mem_head? hb
    have hm : b ∈ L n := by
      rw [hsplit]; exact List.mem_append_right _ (List.mem_cons_of_mem t hm1)
    refine ⟨r.alloc hm, ?_⟩
    intro e
    exact (List.nodup_cons.1 (List.nodup_append.1 hnd).2.1).1 (e ▸ hm1)
  suffices h : ∃ s2, s.unlinkNode t (n : Int) = some (s2, nt.downLevel_) ∧
      EraseEff s s2 t n A B by
    obtain ⟨s2, h1, h2⟩ := h
    exact ⟨s2, nt, hnt, h1, h2⟩
  rcases List.eq_nil_or_concat A with rfl | ⟨A, a1, rfl⟩ <;> cases B
  case' inl.nil =>
    simp only [List.head?_nil] at hntn
    simp only [List.getLast?_nil] at hntp
    simp [unlinkNode, hnt, hntn, hntp, setHead, setTail, setAt_nat, hn1, hn2, deleteNode]
  case' inl.cons b B =>
    simp only [List.head?_cons] at hntn
    simp only [List.getLast?_nil] at hntp
    obtain ⟨⟨nb, hb⟩, hbt⟩ := hB1 b rfl
    simp [unlinkNode, hnt, hntn, hntp, setHead, setTail, setAt_nat, hn1, hn2, deleteNode,
      setPrev, setNext, modify, hb, hbt, hbt.symm]
  case' inr.intro.intro.nil =>
    simp only [List.head?_nil] at hntn
    have hntp : nt.prev_ = some a1 := by simpa using hntp
    obtain ⟨⟨na, ha⟩, hat, -⟩ := hA1 a1 (by simp)
    simp [unlinkNode, hnt, hntn, hntp, setHead, setTail, setAt_nat, hn1, hn2, deleteNode,
      setPrev, setNext, modify, ha, hat, hat.symm]
  case' inr.intro.intro.cons b B =>
    simp only [List.head?_cons] at hntn
    have hntp : nt.prev_ = some a1 := by simpa using hntp
    obtain ⟨⟨na, ha⟩, hat, hab⟩ := hA1 a1 (by simp)
    have hab := hab b rfl
    obtain ⟨⟨nb, hb⟩, hbt⟩ := hB1 b rfl
    simp [unlinkNode, hnt, hntn, hntp, setHead, setTail, setAt_nat, hn1, hn2, deleteNode,
      setPrev, setNext, modify, ha, hat, hat.symm, hb, hbt, hbt.symm, hab, hab.symm]
  all_goals
    clear hsplit r hA1 hB1 hnd htm hnxt hpvt
    refine ⟨rfl, rfl, by simp, by simp, ?_, ?_, ?_, ?_, ?_, ?_, ?_, ?_⟩
    · intro i
      by_cases h : i = n
      · subst h; simp [List.getElem?_set, hn1, hh]
      · have h2 : n ≠ i := fun e => h e.symm
        simp [List.getElem?_set, h, h2]
    · intro i
      by_cases h : i = n
      · subst h; simp [List.getElem?_set, hn2, ht]
      · have h2 : n ≠ i := fun e => h e.symm
        simp [List.getElem?_set, h, h2]
    · intro a
      simp only [nx, store_mem]
      split_ifs <;> simp_all
    · intro a
      simp only [pv, store_mem]
      split_ifs <;> simp_all
    · intro a
      simp only [dn, store_mem]
      split_ifs <;> simp_all
    · intro a
      simp only [up, store_mem]
      split_ifs <;> simp_all
    · intro a
      simp only [keyOf, store_mem]
      split_ifs <;> simp_all
    · intro a
      simp only [store_mem]
      split_ifs <;> simp_all

/-! ### The invariant is kept by a node insertion -/

theorem Rep.ne_brk {s : SkipList} {L : Nat → List Ptr} (r : Rep s L) {i : Nat} {a : Ptr}
    (h : a ∈ L i) : a ≠ s.brk := by
  intro e
  have := r.lt_brk h
  rw [e] at this
  exact lt_irrefl _ this

theorem keys_congr {s s2 : SkipList} {l : List Ptr} (h : ∀ a ∈ l, s2.keyOf a = s.keyOf a) :
    s2.keys l = s.keys l := by
  unfold keys
  exact List.map_congr_left h

theorem PushEff.key_old {s s2 : SkipList} {L : Nat → List Ptr} {item : Int} {n : Nat}
    {A B : List Ptr} {d : Option Ptr} (e : PushEff s s2 s.brk item n A B d) (r : Rep s L)
    {i : Nat} {a : Ptr} (h : a ∈ L i) : s2.keyOf a = s.keyOf a := by
  rw [e.key, if_neg (r.ne_brk h)]

theorem PushEff.key_new {s s2 : SkipList} {item : Int} {n : Nat}
    {A B : List Ptr} {d : Option Ptr} (e : PushEff s s2 s.brk item n A B d) :
    s2.keyOf s.brk = item := by
  rw [e.key, if_pos rfl]

theorem PushEff.keys_new {s s2 : SkipList} {L : Nat → List Ptr} {item : Int} {n : Nat}
    {A B : List Ptr} {d : Option Ptr} (e : PushEff s s2 s.brk item n A B d) (r : Rep s L)
    (hsplit : L n = A ++ B) :
    s2.keys (A ++ s.brk :: B) = s.keys A ++ item :: s.keys B := by
  have hA : s2.keys A = s.keys A := keys_congr (fun a ha =>
    e.key_old r (i := n) (by rw [hsplit]; exact List.mem_append_left B ha))
  have hB : s2.keys B = s.keys B := keys_congr (fun a ha =>
    e.key_old r (i := n) (by rw [hsplit]; exact List.mem_append_right A ha))
  unfold keys at hA hB ⊢
  rw [List.map_append, List.map_cons, hA, hB, e.key_new]

theorem Rep.push {s s2 : SkipList} {L : Nat → List Ptr} (r : Rep s L) {item : Int} {n : Nat}
    {A B : List Ptr} {d : Option Ptr} (e : PushEff s s2 s.brk item n A B d)
    (hn : n < s.maxLevels_.toNat) (hsplit : L n = A ++ B)
    (hA : ∀ a ∈ A, s.keyOf a < item) (hB : ∀ b ∈ B, item < s.keyOf b)
    (hd0 : n = 0 → d = none)
    (hdS : ∀ k, n = k + 1 → ∃ dd, d = some dd ∧ dd ∈ L k ∧ s.keyOf dd = item) :
    Rep s2 (Function.update L n (A ++ s.brk :: B)) := by
  have hLn : Function.update L n (A ++ s.brk :: B) n = A ++ s.brk :: B :=
    Function.update_same _ _ _
  have hLi : ∀ i, i ≠ n → Function.update L n (A ++ s.brk :: B) i = L i :=
    fun i hi => Function.update_noteq hi _ _
  have hsub : ∀ i a, a ∈ L i → a ∈ Function.update L n (A ++ s.brk :: B) i := by
    intro i a ha
    by_cases hi : i = n
    · subst hi
      rw [hLn]
      rw [hsplit] at ha
      rcases List.mem_append.1 ha with h | h
      · exact List.mem_append_left _ h
      · exact List.mem_append_right _ (List.mem_cons_of_mem _ h)
    · rw [hLi i hi]; exact ha
  have hinv : ∀ i a, a ∈ Function.update L n (A ++ s.brk :: B) i →
      (a = s.brk ∧ i = n) ∨ a ∈ L i := by
    intro i a ha
    by_cases hi : i = n
    · subst hi
      rw [hLn] at ha
      rw [hsplit]
      rcases List.mem_append.1 ha with h | h
      · exact Or.inr (List.mem_append_left _ h)
      · rcases List.mem_cons.1 h with h | h
        · exact Or.inl ⟨h, rfl⟩
        · exact Or.inr (List.mem_append_right _ h)
    · rw [hLi i hi] at ha; exact Or.inr ha
  have hAB : ∀ a ∈ A ++ B, a ∈ L n := fun a ha => by rw [hsplit]; exact ha
  have hnd : (A ++ B).Nodup := hsplit ▸ r.nodup n
  refine
    { pos := by rw [e.maxLevels]; exact r.pos
      hlen := by rw [e.hlen, e.maxLevels]; exact r.hlen
      tlen := by rw [e.tlen, e.maxLevels]; exact r.tlen
      head := ?_, tail := ?_, above := ?_, next := ?_, prev := ?_, sorted := ?_, down0 := ?_,
      downS := ?_, disj := ?_, live := ?_, fresh := ?_ }
  · intro i hi
    rw [e.maxLevels] at hi
    rw [e.heads i]
    by_cases h : i = n
    · subst h; rw [if_pos rfl, hLn]
    · rw [if_neg h, hLi i h]; exact r.head i hi
  · intro i hi
    rw [e.maxLevels] at hi
    rw [e.tails i]
    by_cases h : i = n
    · subst h; rw [if_pos rfl, hLn]
    · rw [if_neg h, hLi i h]; exact r.tail i hi
  · intro i hi
    rw [e.maxLevels] at hi
    have h : i ≠ n := by omega
    rw [hLi i h]; exact r.above i hi
  · intro i
    by_cases h : i = n
    · subst h
      rw [hLn]
      refine linked_insert (hsplit ▸ r.next i) hnd (by rw [e.nx, if_pos rfl]) ?_
      intro a ha
      rw [e.nx, if_neg (r.ne_brk (hAB a ha))]
    · rw [hLi i h]
      refine linked_congr ?_ (r.next i)
      intro a ha
      rw [e.nx, if_neg (r.ne_brk ha), if_neg]
      intro e2
      exact h (r.disj i n a ha (hAB a (List.mem_append_left B
        (List.mem_of_getLast?_eq_some e2.symm))))
  · intro i
    by_cases h : i = n
    · subst h
      rw [hLn]
      have hrev : (A ++ s.brk :: B).reverse = B.reverse ++ s.brk :: A.reverse := by simp
      rw [hrev]
      have hl := r.prev i
      rw [hsplit, List.reverse_append] at hl
      refine linked_insert hl ?_ (by rw [e.pv, if_pos rfl, List.head?_reverse]) ?_
      · rw [← List.reverse_append]; exact List.nodup_reverse.2 hnd
      · intro a ha
        have ha2 : a ∈ A ++ B := by
          rcases List.mem_append.1 ha with h1 | h1
          · exact List.mem_append_right A (List.mem_reverse.1 h1)
          · exact List.mem_append_left B (List.mem_reverse.1 h1)
        rw [e.pv, if_neg (r.ne_brk (hAB a ha2)), List.getLast?_reverse]
    · rw [hLi i h]
      refine linked_congr ?_ (r.prev i)
      intro a ha
      have ha2 : a ∈ L i := List.mem_reverse.1 ha
      rw [e.pv, if_neg (r.ne_brk ha2), if_neg]
      intro e2
      exact h (r.disj i n a ha2 (hAB a (List.mem_append_right A
        (List.mem_of_mem_head? e2.symm))))
  · intro i
    by_cases h : i = n
    · subst h
      rw [hLn, e.keys_new r hsplit]
      have hs := r.sorted i
      rw [hsplit] at hs
      unfold keys at hs ⊢
      rw [List.map_append] at hs
      obtain ⟨h1, h2, h3⟩ := List.pairwise_append.1 hs
      refine List.pairwise_append.2 ⟨h1, List.pairwise_cons.2 ⟨?_, h2⟩, ?_⟩
      · intro y hy
        obtain ⟨b, hb, rfl⟩ := List.mem_map.1 hy
        exact hB b hb
      · intro x hx y hy
        obtain ⟨a, ha, rfl⟩ := List.mem_map.1 hx
        rcases List.mem_cons.1 hy with rfl | hy
        · exact hA a ha
        · exact h3 _ (List.mem_map_of_mem _ ha) _ hy
    · rw [hLi i h, keys_congr (fun a ha => e.key_old r ha)]
      exact r.sorted i
  · intro a ha
    rcases hinv 0 a ha with ⟨rfl, h0⟩ | h
    · rw [e.dn, if_pos rfl, hd0 h0.symm]
    · rw [e.dn, if_neg (r.ne_brk h)]
      exact r.down0 a h
  · intro i a ha
    rcases hinv (i + 1) a ha with ⟨rfl, h0⟩ | h
    · obtain ⟨dd, hdd, hm, hk⟩ := hdS i h0.symm
      refine ⟨dd, hsub i dd hm, by rw [e.dn, if_pos rfl, hdd], ?_⟩
      rw [e.key_old r hm, e.key_new, hk]
    · obtain ⟨q, hq, hdq, hkq⟩ := r.downS i a h
      refine ⟨q, hsub i q hq, by rw [e.dn, if_neg (r.ne_brk h)]; exact hdq, ?_⟩
      rw [e.key_old r hq, e.key_old r h, hkq]
  · intro i j a hi hj
    rcases hinv i a hi with ⟨rfl, h1⟩ | h1
    · rcases hinv j _ hj with ⟨-, h2⟩ | h2
      · rw [h1, h2]
      · exact absurd rfl (r.ne_brk h2)
    · rcases hinv j a hj with ⟨rfl, -⟩ | h2
      · exact absurd rfl (r.ne_brk h1)
      · exact r.disj i j a h1 h2
  · intro a ha
    by_cases hap : a = s.brk
    · exact ⟨n, by rw [hLn, hap]; simp⟩
    · have : s.mem a ≠ none := by
        intro hm
        exact ha ((e.mem a).2 ⟨hap, hm⟩)
      obtain ⟨i, hi⟩ := r.live a this
      exact ⟨i, hsub i a hi⟩
  · intro a ha
    rw [e.brk] at ha
    refine (e.mem a).2 ⟨?_, r.fresh a (Nat.le_of_succ_le ha)⟩
    intro e2
    rw [e2] at ha
    exact Nat.not_succ_le_self _ ha

/-! ### The invariant is kept by unlinking the top node of a column -/

theorem Rep.unlink {s s2 : SkipList} {L : Nat → List Ptr} (r : Rep s L) {n : Nat}
    {A B : List Ptr} {t : Ptr} (e : EraseEff s s2 t n A B)
    (hn : n < s.maxLevels_.toNat) (hsplit : L n = A ++ t :: B)
    (habove : ∀ j, n < j → s.keyOf t ∉ s.keys (L j)) :
    Rep s2 (Function.update L n (A ++ B)) := by
  have hLn : Function.update L n (A ++ B) n = A ++ B := Function.update_same _ _ _
  have hLi : ∀ i, i ≠ n → Function.update L n (A ++ B) i = L i :=
    fun i hi => Function.update_noteq hi _ _
  have hnd : (A ++ t :: B).Nodup := hsplit ▸ r.nodup n
  have htn : t ∈ L n := by rw [hsplit]; simp
  have htAB : t ∉ A ++ B := by
    intro h
    rcases List.mem_append.1 h with h | h
    · exact (List.nodup_append.1 hnd).2.2 h (List.mem_cons_self t B)
    · exact (List.nodup_cons.1 (List.nodup_append.1 hnd).2.1).1 h
  have hAB : ∀ a ∈ A ++ B, a ∈ L n := by
    intro a ha
    rw [hsplit]
    rcases List.mem_append.1 ha with h | h
    · exact List.mem_append_left _ h
    · exact List.mem_append_right _ (List.mem_cons_of_mem _ h)
  have hsub : ∀ i a, a ∈ Function.update L n (A ++ B) i → a ∈ L i ∧ a ≠ t := by
    intro i a ha
    by_cases hi : i = n
    · subst hi
      rw [hLn] at ha
      exact ⟨hAB a ha, fun e2 => htAB (e2 ▸ ha)⟩
    · rw [hLi i hi] at ha
      exact ⟨ha, fun e2 => hi (r.disj i n a ha (e2 ▸ htn))⟩
  have hinv : ∀ i a, a ∈ L i → a ≠ t → a ∈ Function.update L n (A ++ B) i := by
    intro i a ha hat
    by_cases hi : i = n
    · subst hi
      rw [hLn]
      rw [hsplit] at ha
      rcases List.mem_append.1 ha with h | h
      · exact List.mem_append_left _ h
      · rcases List.mem_cons.1 h with h | h
        · exact absurd h hat
        · exact List.mem_append_right _ h
    · rw [hLi i hi]; exact ha
  have hkeys : ∀ i, s2.keys (Function.update L n (A ++ B) i)
      = s.keys (Function.update L n (A ++ B) i) :=
    fun i => keys_congr (fun a ha => e.key a (hsub i a ha).2)
  refine
    { pos := by rw [e.maxLevels]; exact r.pos
      hlen := by rw [e.hlen, e.maxLevels]; exact r.hlen
      tlen := by rw [e.tlen, e.maxLevels]; exact r.tlen
      head := ?_, tail := ?_, above := ?_, next := ?_, prev := ?_, sorted := ?_, down0 := ?_,
      downS := ?_, disj := ?_, live := ?_, fresh := ?_ }
  · intro i hi
    rw [e.maxLevels] at hi
    rw [e.heads i]
    by_cases h : i = n
    · subst h; rw [if_pos rfl, hLn]
    · rw [if_neg h, hLi i h]; exact r.head i hi
  · intro i hi
    rw [e.maxLevels] at hi
    rw [e.tails i]
    by_cases h : i = n
    · subst h; rw [if_pos rfl, hLn]
    · rw [if_neg h, hLi i h]; exact r.tail i hi
  · intro i hi
    rw [e.maxLevels] at hi
    have h : i ≠ n := by omega
    rw [hLi i h]; exact r.above i hi
  · intro i
    by_cases h : i = n
    · subst h
      rw [hLn]
      refine linked_remove (hsplit ▸ r.next i) hnd ?_
      intro a ha
      have hat : a ≠ t := fun e2 => htAB (e2 ▸ ha)
      rw [e.nx, if_neg hat]
    · rw [hLi i h]
      refine linked_congr ?_ (r.next i)
      intro a ha
      have hat : a ≠ t := fun e2 => h (r.disj i n a ha (e2 ▸ htn))
      rw [e.nx, if_neg hat, if_neg]
      intro e2
      exact h (r.disj i n a ha (hAB a (List.mem_append_left B
        (List.mem_of_getLast?_eq_some e2.symm))))
  · intro i
    by_cases h : i = n
    · subst h
      rw [hLn, List.reverse_append]
      have hl := r.prev i
      have hrev : (A ++ t :: B).reverse = B.reverse ++ t :: A.reverse := by simp
      rw [hsplit, hrev] at hl
      refine linked_remove hl ?_ ?_
      · rw [← hrev]; exact List.nodup_reverse.2 hnd
      · intro a ha
        have ha2 : a ∈ A ++ B := by
          rcases List.mem_append.1 ha with h1 | h1
          · exact List.mem_append_right A (List.mem_reverse.1 h1)
          · exact List.mem_append_left B (List.mem_reverse.1 h1)
        have hat : a ≠ t := fun e2 => htAB (e2 ▸ ha2)
        rw [e.pv, if_neg hat, List.getLast?_reverse, List.head?_reverse]
    · rw [hLi i h]
      refine linked_congr ?_ (r.prev i)
      intro a ha
      have ha2 : a ∈ L i := List.mem_reverse.1 ha
      have hat : a ≠ t := fun e2 => h (r.disj i n a ha2 (e2 ▸ htn))
      rw [e.pv, if_neg hat, if_neg]
      intro e2
      exact h (r.disj i n a ha2 (hAB a (List.mem_append_right A
        (List.mem_of_mem_head? e2.symm))))
  · intro i
    rw [hkeys i]
    by_cases h : i = n
    · subst h
      rw [hLn]
      have hs := r.sorted i
      rw [hsplit] at hs
      unfold keys at hs ⊢
      rw [List.map_append] at hs ⊢
      obtain ⟨h1, h2, h3⟩ := List.pairwise_append.1 hs
      refine List.pairwise_append.2 ⟨h1, (List.pairwise_cons.1 h2).2, ?_⟩
      intro x hx y hy
      exact h3 x hx y (List.mem_cons_of_mem _ hy)
    · rw [hLi i h]
      exact r.sorted i
  · intro a ha
    obtain ⟨h1, h2⟩ := hsub 0 a ha
    rw [e.dn, if_neg h2]
    exact r.down0 a h1
  · intro i a ha
    obtain ⟨h1, h2⟩ := hsub (i + 1) a ha
    obtain ⟨q, hq, hdq, hkq⟩ := r.downS i a h1
    have hqt : q ≠ t := by
      intro e2
      subst e2
      have hin : i = n := r.disj i n q hq htn
      subst hin
      exact habove (i + 1) (Nat.lt_succ_self i) (List.mem_map.2 ⟨a, h1, hkq.symm⟩)
    refine ⟨q, hinv i q hq hqt, by rw [e.dn, if_neg h2]; exact hdq, ?_⟩
    rw [e.key q hqt, e.key a h2, hkq]
  · intro i j a hi hj
    exact r.disj i j a (hsub i a hi).1 (hsub j a hj).1
  · intro a ha
    have h1 : a ≠ t := fun e2 => ha ((e.mem a).2 (Or.inl e2))
    have h2 : s.mem a ≠ none := fun hm => ha ((e.mem a).2 (Or.inr hm))
    obtain ⟨i, hi⟩ := r.live a h2
    exact ⟨i, hinv i a hi h1⟩
  · intro a ha
    rw [e.brk] at ha
    exact (e.mem a).2 (Or.inr (r.fresh a ha))

/-! ### The method `erase` -/

theorem without_of_not_mem {s : SkipList} {item : Int} {l : List Ptr}
    (h : item ∉ s.keys l) : s.without item l = l := by
  simp only [without, List.filter_eq_self, decide_eq_true_eq]
  intro a ha e
  exact h (List.mem_map.2 ⟨a, ha, e⟩)

theorem without_congr {s s2 : SkipList} {item : Int} {l : List Ptr}
    (h : ∀ a ∈ l, s2.keyOf a = s.keyOf a) : s2.without item l = s.without item l := by
  unfold without
  apply List.filter_congr
  intro a ha
  rw [h a ha]

theorem mem_without {s : SkipList} {item : Int} {l : List Ptr} {a : Ptr} :
    a ∈ s.without item l ↔ a ∈ l ∧ s.keyOf a ≠ item := by
  simp [without]

theorem not_mem_keys_split {s : SkipList} {A B : List Ptr} {t : Ptr}
    (hs : (s.keys (A ++ t :: B)).Pairwise (· < ·)) : s.keyOf t ∉ s.keys (A ++ B) := by
  unfold keys at hs ⊢
  rw [List.map_append] at hs ⊢
  obtain ⟨-, h2, h3⟩ := List.pairwise_append.1 hs
  intro h
  rcases List.mem_append.1 h with h | h
  · exact lt_irrefl _ (h3 _ h _ (List.mem_cons_self _ _))
  · exact lt_irrefl _ ((List.pairwise_cons.1 h2).1 _ h)

theorem without_split {s : SkipList} {A B : List Ptr} {t : Ptr}
    (hs : (s.keys (A ++ t :: B)).Pairwise (· < ·)) :
    s.without (s.keyOf t) (A ++ t :: B) = A ++ B := by
  have h := without_of_not_mem (not_mem_keys_split hs)
  unfold without at h ⊢
  rw [List.filter_append] at h ⊢
  rw [List.filter_cons_of_neg (by simp)]
  exact h

theorem Rep.succ_le_brk {s : SkipList} {L : Nat → List Ptr} (r : Rep s L) {k : Nat}
    (h : L k ≠ []) : k + 1 ≤ s.brk := by
  have hne : ∀ j ∈ List.range (k + 1), ∃ a, (L j).head? = some a := by
    intro j hj
    have hj : j ≤ k := Nat.le_of_lt_succ (List.mem_range.1 hj)
    have := r.ne_nil_below hj h
    cases hL : L j with
    | nil => exact absurd hL this
    | cons a l => exact ⟨a, rfl⟩
  have hnd : ((List.range (k + 1)).map fun j => (L j).head?.getD 0).Nodup := by
    refine List.Nodup.map_on ?_ (List.nodup_range _)
    intro i hi j hj e
    obtain ⟨a, ha⟩ := hne i hi
    obtain ⟨b, hb⟩ := hne j hj
    simp only [ha, hb, Option.getD_some] at e
    subst e
    exact r.disj i j a (List.mem_of_mem_head? ha) (List.mem_of_mem_head? hb)
  have hlt : ∀ a ∈ (List.range (k + 1)).map (fun j => (L j).head?.getD 0), a < s.brk := by
    intro a ha
    obtain ⟨j, hj, rfl⟩ := List.mem_map.1 ha
    obtain ⟨b, hb⟩ := hne j hj
    simp only [hb, Option.getD_some]
    exact r.lt_brk (List.mem_of_mem_head? hb)
  have := length_le_of_nodup_lt hnd hlt
  simpa using this

theorem Rep.eraseLoop_spec (item : Int) :
    ∀ (n : Nat) (s : SkipList) (L : Nat → List Ptr) (t : Ptr) (fuel : Nat),
      Rep s L → t ∈ L n → s.keyOf t = item → (∀ j, n < j → item ∉ s.keys (L j)) →
      n + 1 ≤ fuel →
      ∃ s2, eraseLoop fuel s (some t) (n : Int) = some s2 ∧
        Rep s2 (fun j => s.without item (L j)) ∧
        (∀ j, ∀ a ∈ s.without item (L j), s2.keyOf a = s.keyOf a) ∧
        s2.maxLevels_ = s.maxLevels_ ∧ s2.brk = s.brk := by
  intro n
  induction n with
  | zero =>
    intro s L t fuel r ht hk habove hf
    obtain ⟨fuel, rfl⟩ : ∃ f, fuel = f + 1 := ⟨fuel - 1, by omega⟩
    obtain ⟨A, B, hsplit⟩ := List.append_of_mem ht
    have hn := r.level_lt ht
    obtain ⟨s1, nt, hnt, hunl, e⟩ := r.unlinkNode_eff hn hsplit
    have r1 := r.unlink e hn hsplit (by rw [hk]; exact habove)
    have hdn : nt.downLevel_ = none := by
      have := r.down0 t ht
      simpa [dn, hnt] using this
    have hL : (fun j => s.without item (L j)) = Function.update L 0 (A ++ B) := by
      funext j
      by_cases hj : j = 0
      · subst hj
        rw [Function.update_same, hsplit, ← hk]
        exact without_split (hsplit ▸ r.sorted 0)
      · rw [Function.update_noteq hj]
        exact without_of_not_mem (habove j (Nat.pos_of_ne_zero hj))
    refine ⟨s1, ?_, hL ▸ r1, ?_, e.maxLevels, e.brk⟩
    · simp only [eraseLoop, hunl, hdn]
    · intro j a ha
      have hm := mem_without.1 ha
      exact e.key a (fun e2 => hm.2 (e2 ▸ hk))
  | succ n ih =>
    intro s L t fuel r ht hk habove hf
    obtain ⟨fuel, rfl⟩ : ∃ f, fuel = f + 1 := ⟨fuel - 1, by omega⟩
    obtain ⟨A, B, hsplit⟩ := List.append_of_mem ht
    have hn := r.level_lt ht
    obtain ⟨s1, nt, hnt, hunl, e⟩ := r.unlinkNode_eff hn hsplit
    have r1 := r.unlink e hn hsplit (by rw [hk]; exact habove)
    obtain ⟨q, hq, hdq, hkq⟩ := r.downS n t ht
    have hdn : nt.downLevel_ = some q := by
      simpa [dn, hnt] using hdq
    have hqt : q ≠ t := fun e2 => absurd (r.disj n (n + 1) q hq (e2 ▸ ht)) (by omega)
    have hq1 : q ∈ Function.update L (n + 1) (A ++ B) n := by
      rw [Function.update_noteq (by omega)]; exact hq
    have hk1 : s1.keyOf q = item := by rw [e.key q hqt, hkq, hk]
    have hkeys : ∀ j, ∀ a ∈ Function.update L (n + 1) (A ++ B) j, s1.keyOf a = s.keyOf a := by
      intro j a ha
      apply e.key
      intro e2
      subst e2
      by_cases hj : j = n + 1
      · subst hj
        rw [Function.update_same] at ha
        have hnd : (A ++ a :: B).Nodup := hsplit ▸ r.nodup (n + 1)
        rcases List.mem_append.1 ha with h | h
        · exact (List.nodup_append.1 hnd).2.2 h (List.mem_cons_self a B)
        · exact (List.nodup_cons.1 (List.nodup_append.1 hnd).2.1).1 h
      · rw [Function.update_noteq hj] at ha
        exact hj (r.disj j (n + 1) a ha ht)
    have hL : ∀ j, s1.without item (Function.update L (n + 1) (A ++ B) j)
        = s.without item (L j) := by
      intro j
      rw [without_congr (hkeys j)]
      by_cases hj : j = n + 1
      · subst hj
        rw [Function.update_same, hsplit, ← hk, without_split (hsplit ▸ r.sorted (n + 1))]
        exact without_of_not_mem (not_mem_keys_split (hsplit ▸ r.sorted (n + 1)))
      · rw [Function.update_noteq hj]
    have habove1 : ∀ j, n < j → item ∉ s1.keys (Function.update L (n + 1) (A ++ B) j) := by
      intro j hj
      rw [keys_congr (hkeys j)]
      by_cases hj2 : j = n + 1
      · subst hj2
        rw [Function.update_same, ← hk]
        exact not_mem_keys_split (hsplit ▸ r.sorted (n + 1))
      · rw [Function.update_noteq hj2]
        exact habove j (by omega)
    obtain ⟨s2, hloop, r2, hk2, hm2, hb2⟩ :=
      ih s1 _ q fuel r1 hq1 hk1 habove1 (by omega)
    have hLf : (fun j => s1.without item (Function.update L (n + 1) (A ++ B) j))
        = fun j => s.without item (L j) := funext hL
    refine ⟨s2, ?_, hLf ▸ r2, ?_, by rw [hm2, e.maxLevels], by rw [hb2, e.brk]⟩
    · have hc : ((n + 1 : Nat) : Int) - 1 = (n : Int) := by push_cast; ring
      simp only [eraseLoop, hunl, hdn, hc, hloop]
    · intro j a ha
      have ha1 : a ∈ s1.without item (Function.update L (n + 1) (A ++ B) j) := by
        rw [hL j]; exact ha
      rw [hk2 j a ha1]
      exact hkeys j a (mem_without.1 ha1).1

theorem Rep.erase_spec {s : SkipList} {L : Nat → List Ptr} (r : Rep s L) (item : Int) :
    ∃ b s2, s.erase item = some (b, s2) ∧ b = decide (item ∈ s.keys (L 0)) ∧
      (b = false → s2 = s) ∧ Rep s2 (fun j => s.without item (L j)) ∧
      (∀ j, ∀ a ∈ s.without item (L j), s2.keyOf a = s.keyOf a) ∧
      s2.maxLevels_ = s.maxLevels_ ∧ s2.brk = s.brk := by
  have hnone : (∀ j, item ∉ s.keys (L j)) → Rep s (fun j => s.without item (L j)) := by
    intro h
    have : (fun j => s.without item (L j)) = L := funext fun j => without_of_not_mem (h j)
    rw [this]; exact r
  obtain ⟨res, hres, hft⟩ := r.findNode_spec item
  obtain ⟨t, lvl⟩ := res
  cases hL : L 0 with
  | nil =>
    have hall : ∀ j, item ∉ s.keys (L j) := by
      intro j
      rw [r.all_nil hL j]
      simp [keys]
    refine ⟨false, s, ?_, ?_, fun _ => rfl, hnone hall, fun _ _ _ => rfl, rfl, rfl⟩
    · simp only [erase, r.isEmpty_spec, hL, List.isEmpty_nil]
    · have := hall 0
      rw [hL] at this
      simp [this]
  | cons c l =>
    have hemp : s.isEmpty = some false := by rw [r.isEmpty_spec, hL]; rfl
    cases t with
    | none =>
      have hall : ∀ j, item ∉ s.keys (L j) := hft
      refine ⟨false, s, ?_, ?_, fun _ => rfl, hnone hall, fun _ _ _ => rfl, rfl, rfl⟩
      · simp only [erase, hemp, hres]
      · have := hall 0
        rw [hL] at this
        simp [this]
    | some t =>
      obtain ⟨k, hlvl, htk, hkey, habove⟩ := hft
      simp only at hlvl
      subst hlvl
      have hfuel : k + 1 ≤ s.brk := r.succ_le_brk (List.ne_nil_of_mem htk)
      obtain ⟨s2, hloop, r2, hk2, hm2, hb2⟩ :=
        Rep.eraseLoop_spec item k s L t s.brk r htk hkey habove hfuel
      refine ⟨true, s2, ?_, ?_, fun h => absurd h (by simp), r2, hk2, hm2, hb2⟩
      · simp only [erase, hemp, hres, hloop]
      · have : item ∈ s.keys (L 0) := r.key_zero (List.mem_map.2 ⟨t, htk, hkey⟩)
        rw [hL] at this
        simp [this]

/-! ### The method `insert` -/

theorem Rep.locateLoop_spec {s : SkipList} {L : Nat → List Ptr} (r : Rep s L) (item : Int) :
    ∀ (n : Nat) (curr : Option Ptr) (sah : Bool) (ips : List (Option Ptr)),
      n ≤ s.maxLevels_.toNat → (∀ j, j < n → L j ≠ []) → CurOK s L item n curr sah →
      ips.length = s.maxLevels_.toNat →
      ∃ ips2, locateLoop s item n curr sah ips = some ips2 ∧
        ips2.length = s.maxLevels_.toNat ∧
        (∀ j, j < n → ips2[j]? = some (s.hi item (L j)).head?) ∧
        (∀ j, n ≤ j → ips2[j]? = ips[j]?) := by
  intro n
  induction n with
  | zero =>
    intro curr sah ips _ _ _ hlen
    exact ⟨ips, rfl, hlen, fun j hj => absurd hj (Nat.not_lt_zero j), fun _ _ => rfl⟩
  | succ n ih =>
    intro curr sah ips hn hne hc hlen
    obtain ⟨c1, sah1, hscan, hc1, hk1⟩ :=
      r.scanLevel_spec item (Nat.lt_of_succ_le hn) (hne n (Nat.lt_succ_self n)) hc
    obtain ⟨cn, hcn⟩ := r.alloc hc1
    have hnl : n < ips.length := by rw [hlen]; exact Nat.lt_of_succ_le hn
    obtain ⟨ips2, hloop, hlen2, hlow, hhigh⟩ :=
      ih cn.downLevel_ sah1 (ips.set n (s.hi item (L n)).head?) (Nat.le_of_succ_le hn)
        (fun j hj => hne j (Nat.lt_succ_of_lt hj)) (r.curOK_down item hc1 hk1 hcn)
        (by rw [List.length_set]; exact hlen)
    refine ⟨ips2, ?_, hlen2, ?_, ?_⟩
    · simp only [locateLoop, hscan, setAt_nat _ _ _ hnl, load, hcn, hloop]
    · intro j hj
      rcases Nat.eq_or_lt_of_le (Nat.le_of_lt_succ hj) with e | hlt
      · subst e
        rw [hhigh j (Nat.le_refl j), List.getElem?_set_self hnl]
      · exact hlow j hlt
    · intro j hj
      rw [hhigh j (Nat.le_of_succ_le hj), List.getElem?_set_ne (by omega)]

theorem Rep.locate_spec {s : SkipList} {L : Nat → List Ptr} (r : Rep s L) (item : Int) :
    ∃ ips, s.locate item = some ips ∧ ips.length = s.maxLevels_.toNat ∧
      ∀ j, j < s.maxLevels_.toNat → ips[j]? = some (s.hi item (L j)).head? := by
  cases hL : L 0 with
  | nil =>
    refine ⟨List.replicate s.maxLevels_.toNat none, ?_, by simp, ?_⟩
    · simp only [locate, r.getAt_heads_zero, hL, List.head?_nil]
    · intro j hj
      rw [r.all_nil hL j, List.getElem?_replicate, if_pos hj]
      rfl
  | cons c l =>
    have h0 : L 0 ≠ [] := by rw [hL]; simp
    obtain ⟨top, curr, ht, h1, h2, h3⟩ :=
      r.topLevel_spec h0 s.maxLevels_.toNat (Nat.le_refl _) (fun j hj => r.above j hj)
    obtain ⟨ips, hloop, hlen, hlow, hhigh⟩ := r.locateLoop_spec item (top + 1) curr true
      (List.replicate s.maxLevels_.toNat none) h1
      (fun j hj => r.ne_nil_below (Nat.le_of_lt_succ hj) h2) (Or.inl rfl) (by simp)
    refine ⟨ips, ?_, hlen, ?_⟩
    · simp only [locate, r.getAt_heads_zero, hL, List.head?_cons, ht, hloop]
    · intro j hj
      by_cases hjt : j < top + 1
      · exact hlow j hjt
      · rw [hhigh j (by omega), h3 j (by omega), List.getElem?_replicate, if_pos hj]
        rfl

theorem keys_lo (s : SkipList) (item : Int) (l : List Ptr) :
    s.keys (s.lo item l) = (s.keys l).filter (fun k => decide (k < item)) := by
  unfold keys lo
  rw [List.filter_map]
  rfl

theorem keys_hi (s : SkipList) (item : Int) (l : List Ptr) :
    s.keys (s.hi item l) = (s.keys l).filter (fun k => decide (item ≤ k)) := by
  unfold keys hi
  rw [List.filter_map]
  rfl

theorem hi_congr {s s2 : SkipList} {item : Int} {l : List Ptr}
    (h : ∀ a ∈ l, s2.keyOf a = s.keyOf a) : s2.hi item l = s.hi item l := by
  unfold hi
  apply List.filter_congr
  intro a ha
  rw [h a ha]

theorem Rep.pushLevel {s : SkipList} {L : Nat → List Ptr} (r : Rep s L) (item : Int)
    {ips : List (Option Ptr)} {n : Nat} (hn : n < s.maxLevels_.toNat)
    (hips : ips[n]? = some (s.hi item (L n)).head?) (hnot : item ∉ s.keys (L n))
    {d : Option Ptr} (hd0 : n = 0 → d = none)
    (hdS : ∀ k, n = k + 1 → ∃ dd, d = some dd ∧ dd ∈ L k ∧ s.keyOf dd = item) :
    ∃ s2, s.pushNode item ips n d = some (s2, s.brk) ∧
      PushEff s s2 s.brk item n (s.lo item (L n)) (s.hi item (L n)) d ∧
      Rep s2 (Function.update L n (s.lo item (L n) ++ s.brk :: s.hi item (L n))) ∧
      s2.keys (s.lo item (L n) ++ s.brk :: s.hi item (L n)) = insertKey item (s.keys (L n)) := by
  have hsplit : L n = s.lo item (L n) ++ s.hi item (L n) := (lo_append_hi item (r.sorted n)).symm
  have hd : ∀ dd, d = some dd → ∃ j, dd ∈ L j ∧ j ≠ n := by
    intro dd hdd
    cases n with
    | zero => rw [hd0 rfl] at hdd; exact absurd hdd (by simp)
    | succ k =>
      obtain ⟨dd2, h1, h2, -⟩ := hdS k rfl
      rw [h1] at hdd
      cases hdd
      exact ⟨k, h2, by omega⟩
  obtain ⟨s2, hpush, e⟩ := r.pushNode_eff item hn hsplit hips hd
  have hA : ∀ a ∈ s.lo item (L n), s.keyOf a < item := fun a ha => (mem_lo.1 ha).2
  have hB : ∀ b ∈ s.hi item (L n), item < s.keyOf b := by
    intro b hb
    have h1 := mem_hi.1 hb
    have h2 : s.keyOf b ≠ item := fun e2 => hnot (List.mem_map.2 ⟨b, h1.1, e2⟩)
    omega
  refine ⟨s2, hpush, e, r.push e hn hsplit hA hB hd0 hdS, ?_⟩
  rw [e.keys_new r hsplit, keys_lo, keys_hi]
  rfl

theorem columnHeight_le (coin : Nat → Bool) : ∀ (cap g : Nat), columnHeight coin g cap ≤ cap := by
  intro cap
  induction cap with
  | zero => intro g; simp [columnHeight]
  | succ cap ih =>
    intro g
    simp only [columnHeight]
    split_ifs
    · have := ih (g + 1); omega
    · omega

theorem columnHeight_pos (coin : Nat → Bool) (g cap : Nat) (h : 0 < cap) :
    0 < columnHeight coin g cap := by
  cases cap with
  | zero => omega
  | succ cap =>
    simp only [columnHeight]
    split_ifs <;> omega

theorem Rep.buildColumn_spec (coin : Nat → Bool) (item : Int) (ips : List (Option Ptr)) :
    ∀ (fuel : Nat) (s : SkipList) (L : Nat → List Ptr) (lvl : Nat) (d : Option Ptr) (g : Nat),
      Rep s L → lvl + fuel = s.maxLevels_.toNat →
      (∀ j, lvl ≤ j → j < s.maxLevels_.toNat → ips[j]? = some (s.hi item (L j)).head?) →
      (∀ j, lvl ≤ j → item ∉ s.keys (L j)) →
      (lvl = 0 → d = none) →
      (∀ k, lvl = k + 1 → ∃ dd, d = some dd ∧ dd ∈ L k ∧ s.keyOf dd = item) →
      ∃ s2 L2, buildColumn coin item ips fuel s lvl d g
          = some (s2, g + columnHeight coin g fuel) ∧
        Rep s2 L2 ∧ Built s L s2 L2 item lvl (columnHeight coin g fuel) := by
  intro fuel
  induction fuel with
  | zero =>
    intro s L lvl d g r hm _ _ _ _
    have hlt : ¬ ((lvl : Int) < s.maxLevels_) := by
      have := r.pos
      omega
    refine ⟨s, L, ?_, r, ⟨rfl, rfl, ?_, fun j a ha => ⟨ha, rfl⟩, fun _ _ => rfl⟩⟩
    · simp only [buildColumn, if_neg hlt, columnHeight, Nat.add_zero]
    · intro j
      have h3 : ¬ (lvl ≤ j ∧ j < lvl + 0) := by omega
      simp only [columnHeight]
      rw [if_neg h3]
  | succ fuel ih =>
    intro s L lvl d g r hm hips hnot hd0 hdS
    have hn : lvl < s.maxLevels_.toNat := by omega
    have hlt : (lvl : Int) < s.maxLevels_ := by omega
    obtain ⟨s1, hpush, e, r1, hkeys1⟩ :=
      r.pushLevel item hn (hips lvl (Nat.le_refl _) hn) (hnot lvl (Nat.le_refl _)) hd0 hdS
    have hold1 : ∀ j, ∀ a ∈ L j,
        a ∈ Function.update L lvl (s.lo item (L lvl) ++ s.brk :: s.hi item (L lvl)) j ∧
          s1.keyOf a = s.keyOf a := by
      intro j a ha
      refine ⟨?_, e.key_old r ha⟩
      by_cases hj : j = lvl
      · subst hj
        rw [Function.update_same]
        have h2 := ha
        rw [← lo_append_hi item (r.sorted j)] at h2
        rcases List.mem_append.1 h2 with h | h
        · exact List.mem_append_left _ h
        · exact List.mem_append_right _ (List.mem_cons_of_mem _ h)
      · rw [Function.update_noteq hj]; exact ha
    have hkeysne : ∀ j, j ≠ lvl →
        s1.keys (Function.update L lvl (s.lo item (L lvl) ++ s.brk :: s.hi item (L lvl)) j)
          = s.keys (L j) := by
      intro j hj
      rw [Function.update_noteq hj]
      exact keys_congr (fun a ha => e.key_old r ha)
    by_cases hcoin : coin g = true
    · have hch : columnHeight coin g (fuel + 1) = columnHeight coin (g + 1) fuel + 1 := by
        simp only [columnHeight, hcoin, if_true]
      obtain ⟨s2, L2, hbuild, r2, b2⟩ := ih s1 _ (lvl + 1) (some s.brk) (g + 1) r1
        (by rw [e.maxLevels]; omega)
        (by
          intro j hj1 hj2
          rw [e.maxLevels] at hj2
          have hj : j ≠ lvl := by omega
          rw [Function.update_noteq hj, hi_congr (fun a ha => e.key_old r ha)]
          exact hips j (by omega) hj2)
        (by
          intro j hj1
          rw [hkeysne j (by omega)]
          exact hnot j (by omega))
        (by intro h; omega)
        (by
          intro k hk
          have hk : k = lvl := by omega
          subst hk
          refine ⟨s.brk, rfl, ?_, e.key_new⟩
          rw [Function.update_same]
          simp)
      refine ⟨s2, L2, ?_, r2, ⟨by rw [b2.maxLevels, e.maxLevels], ?_, ?_, ?_, ?_⟩⟩
      · simp only [buildColumn, if_pos hlt, hpush, hcoin, if_true, hbuild, hch]
        congr 2
        omega
      · rw [b2.brk, e.brk, hch, Nat.add_assoc, Nat.add_comm 1]
      · intro j
        rw [b2.keys j, hch]
        by_cases hj : j = lvl
        · subst hj
          have h3 : ¬ (j + 1 ≤ j ∧ j < j + 1 + columnHeight coin (g + 1) fuel) := by omega
          have h4 : j ≤ j ∧ j < j + (columnHeight coin (g + 1) fuel + 1) := by omega
          rw [if_neg h3, if_pos h4, Function.update_same, hkeys1]
        · rw [hkeysne j hj]
          by_cases hj2 : lvl + 1 ≤ j ∧ j < lvl + 1 + columnHeight coin (g + 1) fuel
          · have h4 : lvl ≤ j ∧ j < lvl + (columnHeight coin (g + 1) fuel + 1) := by omega
            rw [if_pos hj2, if_pos h4]
          · have h4 : ¬ (lvl ≤ j ∧ j < lvl + (columnHeight coin (g + 1) fuel + 1)) := by omega
            rw [if_neg hj2, if_neg h4]
      · intro j a ha
        obtain ⟨h1, h2⟩ := hold1 j a ha
        obtain ⟨h3, h4⟩ := b2.old j a h1
        exact ⟨h3, by rw [h4, h2]⟩
      · intro j hj
        rw [hch] at hj
        rw [b2.frame j (by omega), Function.update_noteq (by omega)]
    · have hch : columnHeight coin g (fuel + 1) = 1 := by
        simp only [columnHeight, hcoin, if_false, Bool.false_eq_true]
      refine ⟨s1, _, ?_, r1, ⟨e.maxLevels, by rw [e.brk, hch], ?_, hold1, ?_⟩⟩
      · simp only [buildColumn, if_pos hlt, hpush, hcoin, hch, Bool.false_eq_true, if_false]
      · intro j
        rw [hch]
        by_cases hj : j = lvl
        · subst hj
          have h4 : j ≤ j ∧ j < j + 1 := by omega
          rw [if_pos h4, Function.update_same, hkeys1]
        · have h4 : ¬ (lvl ≤ j ∧ j < lvl + 1) := by omega
          rw [if_neg h4, hkeysne j hj]
      · intro j hj
        rw [hch] at hj
        rw [Function.update_noteq (by omega)]

theorem Rep.insert_present {s : SkipList} {L : Nat → List Ptr} (r : Rep s L)
    (coin : Nat → Bool) (g : Nat) {item : Int} (h : item ∈ s.keys (L 0)) :
    s.insert coin g item = some (false, s, g) := by
  simp only [insert, r.contains_spec item, h, decide_True]

theorem Rep.insert_absent {s : SkipList} {L : Nat → List Ptr} (r : Rep s L)
    (coin : Nat → Bool) (g : Nat) {item : Int} (h : item ∉ s.keys (L 0)) :
    ∃ s2 L2, s.insert coin g item
        = some (true, s2, g + columnHeight coin g s.maxLevels_.toNat) ∧
      Rep s2 L2 ∧ Built s L s2 L2 item 0 (columnHeight coin g s.maxLevels_.toNat) := by
  obtain ⟨ips, hloc, -, hips⟩ := r.locate_spec item
  obtain ⟨s2, L2, hbuild, r2, b2⟩ :=
    Rep.buildColumn_spec coin item ips s.maxLevels_.toNat s L 0 none g r (Nat.zero_add _)
      (fun j _ hj => hips j hj) (fun j _ hm => h (r.key_zero hm)) (fun _ => rfl)
      (fun k hk => absurd hk (by omega))
  refine ⟨s2, L2, ?_, r2, b2⟩
  simp only [insert, r.contains_spec item, h, decide_False, hloc, hbuild]

/-! ### Reading a level -/

theorem keysFrom_spec (s : SkipList) :
    ∀ (l : List Ptr) (fuel : Nat), Linked s.nx l none → l.length ≤ fuel →
      keysFrom s fuel l.head? = some (s.keys l) := by
  intro l
  induction l with
  | nil =>
    intro fuel _ _
    cases fuel <;> rfl
  | cons a l ih =>
    intro fuel hl hf
    obtain ⟨fuel, rfl⟩ : ∃ f, fuel = f + 1 := ⟨fuel - 1, by simp at hf; omega⟩
    obtain ⟨nd, hnd, hnx⟩ := mem_of_nx ((linked_cons _ _ _ _).1 hl).1
    rw [hd_none] at hnx
    have := ih fuel ((linked_cons _ _ _ _).1 hl).2 (by simp at hf; omega)
    simp only [List.head?_cons, keysFrom, hnd, hnx, this, Option.map_some', keys,
      List.map_cons, keyOf_of_mem hnd]

theorem nodesFrom_spec (s : SkipList) :
    ∀ (l : List Ptr) (fuel : Nat), Linked s.nx l none → l.length ≤ fuel →
      nodesFrom s fuel l.head? = some l := by
  intro l
  induction l with
  | nil =>
    intro fuel _ _
    cases fuel <;> rfl
  | cons a l ih =>
    intro fuel hl hf
    obtain ⟨fuel, rfl⟩ : ∃ f, fuel = f + 1 := ⟨fuel - 1, by simp at hf; omega⟩
    obtain ⟨nd, hnd, hnx⟩ := mem_of_nx ((linked_cons _ _ _ _).1 hl).1
    rw [hd_none] at hnx
    have := ih fuel ((linked_cons _ _ _ _).1 hl).2 (by simp at hf; omega)
    simp only [List.head?_cons, nodesFrom, hnd, hnx, this, Option.map_some']

theorem Rep.levelKeys_spec {s : SkipList} {L : Nat → List Ptr} (r : Rep s L) {i : Nat}
    (hi : i < s.maxLevels_.toNat) : s.levelKeys i = some (s.keys (L i)) := by
  simp only [levelKeys, r.head i hi]
  exact keysFrom_spec s (L i) s.brk (r.next i) (r.length_le i)

theorem Rep.levelNodes_spec {s : SkipList} {L : Nat → List Ptr} (r : Rep s L) {i : Nat}
    (hi : i < s.maxLevels_.toNat) : s.levelNodes i = some (L i) := by
  simp only [levelNodes, r.head i hi]
  exact nodesFrom_spec s (L i) s.brk (r.next i) (r.length_le i)

/-! ### Reachable structures satisfy the invariant -/

theorem rep_construct {maxLevels : Int} {s : SkipList} (h1 : 1 ≤ maxLevels)
    (h : construct maxLevels = some s) : Rep s (fun _ => []) := by
  have hn : ¬ maxLevels < 0 := by omega
  simp only [construct, if_neg hn, Option.some.injEq] at h
  subst h
  refine
    { pos := h1
      hlen := by simp
      tlen := by simp
      head := ?_, tail := ?_, above := fun _ _ => rfl, next := fun _ => trivial,
      prev := fun _ => trivial, sorted := fun _ => List.Pairwise.nil,
      down0 := ?_, downS := ?_, disj := ?_, live := ?_, fresh := fun _ _ => rfl }
  · intro i hi
    simp only at hi
    simp [List.getElem?_replicate, hi]
  · intro i hi
    simp only at hi
    simp [List.getElem?_replicate, hi]
  · intro p hp; simp at hp
  · intro i p hp; simp at hp
  · intro i j p hp; simp at hp
  · intro p hp; simp at hp

theorem reachable_rep {s : SkipList} (h : Reachable s) : ∃ L, Rep s L := by
  induction h with
  | construct m s h1 h2 => exact ⟨_, rep_construct h1 h2⟩
  | insert coin g item s b s2 g2 _ hins ih =>
    obtain ⟨L, r⟩ := ih
    by_cases hk : item ∈ s.keys (L 0)
    · rw [r.insert_present coin g hk] at hins
      simp only [Option.some.injEq, Prod.mk.injEq] at hins
      obtain ⟨-, rfl, -⟩ := hins
      exact ⟨L, r⟩
    · obtain ⟨s3, L3, h3, r3, -⟩ := r.insert_absent coin g hk
      rw [h3] at hins
      simp only [Option.some.injEq, Prod.mk.injEq] at hins
      obtain ⟨-, rfl, -⟩ := hins
      exact ⟨L3, r3⟩
  | erase item s b s2 _ her ih =>
    obtain ⟨L, r⟩ := ih
    obtain ⟨b3, s3, h3, -, -, r3, -⟩ := r.erase_spec item
    rw [h3] at her
    simp only [Option.some.injEq, Prod.mk.injEq] at her
    obtain ⟨-, rfl⟩ := her
    exact ⟨_, r3⟩

/-! ### Key sets -/

theorem mem_insertKey {item k : Int} {ks : List Int} :
    k ∈ insertKey item ks ↔ k = item ∨ k ∈ ks := by
  simp only [insertKey, List.mem_append, List.mem_cons, List.mem_filter, decide_eq_true_eq]
  constructor
  · rintro (h | h | h)
    · exact Or.inr h.1
    · exact Or.inl h
    · exact Or.inr h.1
  · rintro (h | h)
    · exact Or.inr (Or.inl h)
    · by_cases hk : k < item
      · exact Or.inl ⟨h, hk⟩
      · exact Or.inr (Or.inr ⟨h, by omega⟩)

theorem keys_without {s s2 : SkipList} {item : Int} {l : List Ptr}
    (h : ∀ a ∈ s.without item l, s2.keyOf a = s.keyOf a) :
    s2.keys (s.without item l) = (s.keys l).filter (fun k => decide (k ≠ item)) := by
  rw [keys_congr h]
  unfold keys without
  rw [List.filter_map]
  rfl

theorem Built.mem_keys_zero {s s2 : SkipList} {L L2 : Nat → List Ptr} {item : Int} {c : Nat}
    (b : Built s L s2 L2 item 0 c) (hc : 0 < c) (k : Int) :
    k ∈ s2.keys (L2 0) ↔ k = item ∨ k ∈ s.keys (L 0) := by
  have h : 0 ≤ 0 ∧ 0 < 0 + c := by omega
  rw [b.keys 0, if_pos h]
  exact mem_insertKey

theorem Rep.runOps_spec (coin : Nat → Bool) :
    ∀ (ops : List Op) (s : SkipList) (L : Nat → List Ptr) (g : Nat) (S : Finset Int),
      Rep s L → (∀ k, k ∈ s.keys (L 0) ↔ k ∈ S) →
      ∃ s2 g2 bs L2, runOps coin ops s g = some (s2, g2, bs) ∧ Rep s2 L2 ∧
        ∀ k, k ∈ s2.keys (L2 0) ↔ k ∈ specSet ops S := by
  intro ops
  induction ops with
  | nil =>
    intro s L g S r h
    exact ⟨s, g, [], L, rfl, r, h⟩
  | cons op ops ih =>
    intro s L g S r h
    cases op with
    | insert item =>
      by_cases hk : item ∈ s.keys (L 0)
      · obtain ⟨s2, g2, bs, L2, hrun, r2, h2⟩ := ih s L g (Insert.insert item S) r (by
          intro k
          rw [Finset.mem_insert, ← h k]
          constructor
          · exact Or.inr
          · rintro (rfl | h1)
            · exact hk
            · exact h1)
        refine ⟨s2, g2, false :: bs, L2, ?_, r2, h2⟩
        simp only [runOps, r.insert_present coin g hk, hrun]
      · obtain ⟨s1, L1, hins, r1, b1⟩ := r.insert_absent coin g hk
        obtain ⟨s2, g2, bs, L2, hrun, r2, h2⟩ := ih s1 L1
          (g + columnHeight coin g s.maxLevels_.toNat) (Insert.insert item S) r1 (by
          intro k
          rw [b1.mem_keys_zero (columnHeight_pos coin g _ r.levels_pos), Finset.mem_insert,
            h k])
        refine ⟨s2, g2, true :: bs, L2, ?_, r2, h2⟩
        simp only [runOps, hins, hrun]
    | erase item =>
      obtain ⟨b, s1, her, -, -, r1, hk1, -⟩ := r.erase_spec item
      obtain ⟨s2, g2, bs, L2, hrun, r2, h2⟩ := ih s1 _ g (S.erase item) r1 (by
        intro k
        show k ∈ s1.keys (s.without item (L 0)) ↔ k ∈ S.erase item
        rw [keys_without (hk1 0), Finset.mem_erase, ← h k, List.mem_filter, decide_eq_true_eq,
          and_comm])
      refine ⟨s2, g2, b :: bs, L2, ?_, r2, h2⟩
      simp only [runOps, her, hrun]

theorem reachable_runOps (coin : Nat → Bool) :
    ∀ (ops : List Op) (s : SkipList) (g : Nat) (res : SkipList × Nat × List Bool),
      Reachable s → runOps coin ops s g = some res → Reachable res.1 := by
  intro ops
  induction ops with
  | nil =>
    intro s g res h hrun
    simp only [runOps, Option.some.injEq] at hrun
    subst hrun
    exact h
  | cons op ops ih =>
    intro s g res h hrun
    cases op with
    | insert item =>
      simp only [runOps] at hrun
      cases hins : s.insert coin g item with
      | none => rw [hins] at hrun; exact absurd hrun (by simp)
      | some r1 =>
        obtain ⟨b, s1, g1⟩ := r1
        rw [hins] at hrun
        simp only at hrun
        cases hrest : runOps coin ops s1 g1 with
        | none => rw [hrest] at hrun; exact absurd hrun (by simp)
        | some r2 =>
          obtain ⟨s2, g2, bs⟩ := r2
          rw [hrest] at hrun
          simp only [Option.some.injEq] at hrun
          subst hrun
          exact ih s1 g1 (s2, g2, bs) (Reachable.insert coin g item s b s1 g1 h hins) hrest
    | erase item =>
      simp only [runOps] at hrun
      cases her : s.erase item with
      | none => rw [her] at hrun; exact absurd hrun (by simp)
      | some r1 =>
        obtain ⟨b, s1⟩ := r1
        rw [her] at hrun
        simp only at hrun
        cases hrest : runOps coin ops s1 g with
        | none => rw [hrest] at hrun; exact absurd hrun (by simp)
        | some r2 =>
          obtain ⟨s2, g2, bs⟩ := r2
          rw [hrest] at hrun
          simp only [Option.some.injEq] at hrun
          subst hrun
          exact ih s1 g (s2, g2, bs) (Reachable.erase item s b s1 h her) hrest

theorem exampleRun_reachable {res : SkipList × Nat × List Bool} (h : exampleRun = some res) :
    Reachable res.1 := by
  unfold exampleRun at h
  cases h0 : construct 3 with
  | none => rw [h0] at h; exact absurd h (by simp)
  | some s0 =>
    rw [h0] at h
    exact reachable_runOps _ _ s0 0 res (Reachable.construct 3 s0 (by decide) h0) h

theorem Rep.lt_levels {s : SkipList} {L : Nat → List Ptr} (r : Rep s L) {i : Nat}
    (h : (i : Int) < s.maxLevels_) : i < s.maxLevels_.toNat := by
  have := r.pos
  omega

theorem columnHeight_one (coin : Nat → Bool) (g : Nat) : columnHeight coin g 1 = 1 := by
  simp only [columnHeight]
  split_ifs <;> rfl

set_option maxRecDepth 100000 in
theorem exampleRun_isSome : exampleRun.isSome = true := by decide

set_option maxRecDepth 100000 in
theorem exampleRun_maxLevels {res : SkipList × Nat × List Bool} (h : exampleRun = some res) :
    res.1.maxLevels_ = 3 := by
  have h3 : exampleRun.map (fun r => r.1.maxLevels_) = some 3 := by decide
  rw [h] at h3
  simpa using h3

theorem Rep.heads_none_iff {s : SkipList} {L : Nat → List Ptr} (r : Rep s L) {i : Nat}
    (hi : i < s.maxLevels_.toNat) :
    (s.heads_[i]? = some none ↔ L i = []) ∧ (s.tails_[i]? = some none ↔ L i = []) := by
  rw [r.head i hi, r.tail i hi]
  simp

/-! ### Insertion points, column height, erased column -/

theorem head?_filter_eq_find? {α : Type} (p : α → Bool) (l : List α) :
    (l.filter p).head? = l.find? p := by
  induction l with
  | nil => rfl
  | cons a l ih =>
    by_cases h : p a = true
    · simp [List.filter_cons, List.find?_cons, h]
    · have h2 : p a = false := by simpa using h
      simp [List.filter_cons, List.find?_cons, h2, ih]

theorem Rep.not_mem_of_contains {s : SkipList} {L : Nat → List Ptr} (r : Rep s L) {k : Int}
    (hk : s.contains k = some false) : ∀ j, k ∉ s.keys (L j) := by
  intro j hm
  have h0 := r.key_zero hm
  rw [r.contains_spec k] at hk
  simp [h0] at hk

theorem Rep.mem_of_contains {s : SkipList} {L : Nat → List Ptr} (r : Rep s L) {k : Int}
    (hk : s.contains k = some true) : k ∈ s.keys (L 0) := by
  rw [r.contains_spec k] at hk
  simpa using hk

theorem hi_eq_filter_lt {s : SkipList} {k : Int} {l : List Ptr} (h : k ∉ s.keys l) :
    s.hi k l = l.filter (fun p => decide (k < s.keyOf p)) := by
  unfold hi
  apply List.filter_congr
  intro a ha
  have hne : s.keyOf a ≠ k := fun e => h (List.mem_map.2 ⟨a, ha, e⟩)
  by_cases hlt : k < s.keyOf a
  · have : k ≤ s.keyOf a := by omega
    simp [hlt, this]
  · have : ¬ k ≤ s.keyOf a := by omega
    simp [hlt, this]

theorem columnHeight_eq_min (coin : Nat → Bool) :
    ∀ (cap g n : Nat), cap ≤ n + 1 →
      columnHeight coin g cap = min cap (1 + leadingFavourable coin g n) := by
  intro cap
  induction cap with
  | zero => intro g n _; simp [columnHeight]
  | succ cap ih =>
    intro g n hn
    by_cases hc : coin g = true
    · cases n with
      | zero =>
        have h0 : cap = 0 := by omega
        subst h0
        simp [columnHeight, leadingFavourable]
      | succ n =>
        simp only [columnHeight, leadingFavourable, hc, if_true]
        rw [ih (g + 1) n (by omega)]
        omega
    · cases n with
      | zero =>
        have h0 : cap = 0 := by omega
        subst h0
        simp [columnHeight, leadingFavourable]
      | succ n =>
        simp only [columnHeight, leadingFavourable, hc, if_false, Bool.false_eq_true]
        omega

theorem keys_split_sorted {s : SkipList} (k : Int) {l : List Ptr}
    (hs : (s.keys l).Pairwise (· < ·)) :
    (s.keys l).filter (fun x => decide (x < k)) ++ (s.keys l).filter (fun x => decide (k ≤ x))
      = s.keys l := by
  rw [← keys_lo, ← keys_hi]
  have := lo_append_hi (s := s) k hs
  unfold keys at this ⊢
  rw [← List.map_append, this]

theorem insertKey_split {s : SkipList} {k : Int} {l : List Ptr}
    (hs : (s.keys l).Pairwise (· < ·)) (hk : k ∉ s.keys l) :
    ∃ A B, s.keys l = A ++ B ∧ (∀ a ∈ A, a < k) ∧ (∀ b ∈ B, k < b) ∧
      insertKey k (s.keys l) = A ++ k :: B := by
  refine ⟨(s.keys l).filter (fun x => decide (x < k)),
    (s.keys l).filter (fun x => decide (k ≤ x)), (keys_split_sorted k hs).symm, ?_, ?_, rfl⟩
  · intro a ha
    simpa using (List.mem_filter.1 ha).2
  · intro b hb
    have h1 := List.mem_filter.1 hb
    have h2 : k ≤ b := by simpa using h1.2
    have h3 : b ≠ k := fun e => hk (e ▸ h1.1)
    omega

set_option maxRecDepth 100000 in
theorem exampleRun_contains_four {res : SkipList × Nat × List Bool} (h : exampleRun = some res) :
    res.1.contains 4 = some false := by
  have h1 : exampleRun.bind (fun r => r.1.contains 4) = some false := by decide
  rw [h] at h1
  simpa using h1

set_option maxRecDepth 100000 in
theorem exampleRun_contains_seven {res : SkipList × Nat × List Bool} (h : exampleRun = some res) :
    res.1.contains 7 = some true := by
  have h1 : exampleRun.bind (fun r => r.1.contains 7) = some true := by decide
  rw [h] at h1
  simpa using h1

/-! ### The printed view -/

theorem join_cons (a : String) (l : List String) : String.join (a :: l) = a ++ String.join l := by
  apply String.ext
  simp [String.join_eq, List.flatten]

theorem intercalate_go_eq (sep : String) : ∀ (l : List String) (acc : String),
    String.intercalate.go acc sep l = acc ++ String.join (l.map fun a => sep ++ a) := by
  intro l
  induction l with
  | nil => intro acc; simp [String.intercalate.go, String.join]
  | cons a l ih =>
    intro acc
    simp only [String.intercalate.go, ih, List.map_cons, join_cons, String.append_assoc]

theorem printRest_spec (s : SkipList) :
    ∀ (l : List Ptr) (fuel : Nat) (os : String), Linked s.nx l none → l.length ≤ fuel →
      printRest s fuel l.head? os
        = some (os ++ String.join ((s.keys l).map fun k => ", " ++ toString k)) := by
  intro l
  induction l with
  | nil =>
    intro fuel os _ _
    cases fuel <;> simp [printRest, keys, String.join]
  | cons a l ih =>
    intro fuel os hl hf
    obtain ⟨fuel, rfl⟩ : ∃ f, fuel = f + 1 := ⟨fuel - 1, by simp at hf; omega⟩
    obtain ⟨nd, hnd, hnx⟩ := mem_of_nx ((linked_cons _ _ _ _).1 hl).1
    rw [hd_none] at hnx
    have := ih fuel (os ++ ", " ++ toString nd.data_) ((linked_cons _ _ _ _).1 hl).2
      (by simp at hf; omega)
    simp only [List.head?_cons, printRest, hnd]
    rw [hnx, this]
    simp only [keys, List.map_cons, join_cons, keyOf_of_mem hnd, String.append_assoc]

theorem Rep.printLevels_spec {s : SkipList} {L : Nat → List Ptr} (r : Rep s L) :
    ∀ (n : Nat) (os : String), n ≤ s.maxLevels_.toNat →
      printLevels s n os = some (os ++ joinLines (renderLines n fun i => s.keys (L i))) := by
  intro n
  induction n with
  | zero =>
    intro os _
    simp [printLevels, joinLines, renderLines, String.join]
  | succ n ih =>
    intro os hn
    have hh := r.head n (Nat.lt_of_succ_le hn)
    have hlines : joinLines (renderLines (n + 1) fun i => s.keys (L i))
        = renderLine n (s.keys (L n)) ++ "\n"
          ++ joinLines (renderLines n fun i => s.keys (L i)) := by
      simp only [joinLines, renderLines, List.range_succ, List.reverse_append,
        List.reverse_cons, List.reverse_nil, List.nil_append, List.singleton_append,
        List.map_cons, join_cons]
    rw [hlines]
    cases hL : L n with
    | nil =>
      rw [hL] at hh
      simp only [printLevels, hh, List.head?_nil, ih _ (Nat.le_of_succ_le hn), keys,
        List.map_nil, renderLine, String.append_assoc]
    | cons c l =>
      rw [hL] at hh
      have hlk := r.next n
      rw [hL] at hlk
      obtain ⟨nd, hnd, hnx⟩ := mem_of_nx ((linked_cons _ _ _ _).1 hlk).1
      rw [hd_none] at hnx
      have hlen := r.length_le n
      rw [hL] at hlen
      have hrest := printRest_spec s l s.brk
        (os ++ "Level: " ++ toString n ++ " -- " ++ toString nd.data_)
        ((linked_cons _ _ _ _).1 hlk).2 (by simp at hlen; omega)
      simp only [printLevels, hh, List.head?_cons, hnd]
      rw [hnx, hrest]
      simp only []
      rw [ih _ (Nat.le_of_succ_le hn)]
      simp only [keys, List.map_cons, renderLine, String.intercalate,
        intercalate_go_eq, keyOf_of_mem hnd, List.map_map, String.append_assoc]
      rfl

theorem Rep.render_spec {s : SkipList} {L : Nat → List Ptr} (r : Rep s L) :
    s.render = some (joinLines (renderLines s.maxLevels_.toNat fun i => s.keys (L i))) := by
  rw [render, r.printLevels_spec _ "" (Nat.le_refl _), String.empty_append]

theorem renderLines_congr {m : Nat} {f g : Nat → List Int} (h : ∀ i, i < m → f i = g i) :
    renderLines m f = renderLines m g := by
  unfold renderLines
  apply List.map_congr_left
  intro i hi
  rw [h i (List.mem_range.1 (List.mem_reverse.1 hi))]

set_option maxRecDepth 100000 in
theorem exampleRun_render {res : SkipList × Nat × List Bool} (h : exampleRun = some res) :
    res.1.render = some "Level: 2 -- empty\nLevel: 1 -- 7\nLevel: 0 -- 3, 5, 7\n" := by
  have h1 : exampleRun.bind (fun r => r.1.render)
      = some "Level: 2 -- empty\nLevel: 1 -- 7\nLevel: 0 -- 3, 5, 7\n" := by decide
  rw [h] at h1
  simpa using h1

theorem filter_ne_insertKey {s : SkipList} {k : Int} {l : List Ptr}
    (hs : (s.keys l).Pairwise (· < ·)) (hk : k ∉ s.keys l) :
    (insertKey k (s.keys l)).filter (fun x => decide (x ≠ k)) = s.keys l := by
  obtain ⟨A, B, hAB, hA, hB, hins⟩ := insertKey_split hs hk
  rw [hins, hAB, List.filter_append, List.filter_cons_of_neg (by simp)]
  have h1 : A.filter (fun x => decide (x ≠ k)) = A := by
    simp only [List.filter_eq_self, decide_eq_true_eq]
    intro a ha; have := hA a ha; omega
  have h2 : B.filter (fun x => decide (x ≠ k)) = B := by
    simp only [List.filter_eq_self, decide_eq_true_eq]
    intro b hb; have := hB b hb; omega
  rw [h1, h2]

theorem filter_ne_of_not_mem {k : Int} {ks : List Int} (hk : k ∉ ks) :
    ks.filter (fun x => decide (x ≠ k)) = ks := by
  simp only [List.filter_eq_self, decide_eq_true_eq]
  intro a ha e
  exact hk (e ▸ ha)

theorem isEmpty_eq_of_length {α : Type} (a b : List α) (h : a.length = b.length) :
    a.isEmpty = b.isEmpty := by
  cases a <;> cases b <;> simp_all

/-! ### Vertical links -/

theorem mem_of_up {s : SkipList} {a : Ptr} {v : Option Ptr} (h : s.up a = some v) :
    ∃ n, s.mem a = some n ∧ n.upLevel_ = v := by
  simpa [up] using h

theorem dn_of_mem {s : SkipList} {a : Ptr} {n : SkipListNode} (h : s.mem a = some n) :
    s.dn a = some n.downLevel_ := by
  simp [dn, h]

theorem up_of_mem {s : SkipList} {a : Ptr} {n : SkipListNode} (h : s.mem a = some n) :
    s.up a = some n.upLevel_ := by
  simp [up, h]

theorem Vertical.but_none {s : SkipList} (v : Vertical s) : VerticalBut s none :=
  { up_down := fun q u _ h => v.up_down q u h
    down_up := v.down_up
    top := fun t h => absurd h (by simp) }

theorem VerticalBut.vertical {s : SkipList} (v : VerticalBut s none) : Vertical s :=
  { up_down := fun q u h => v.up_down q u (by simp) h
    down_up := v.down_up }

theorem PushEff.vertical_push {s s2 : SkipList} {p : Ptr} {item : Int} {n : Nat} {A B : List Ptr}
    {d : Option Ptr} (e : PushEff s s2 p item n A B d) (v : Vertical s)
    (hp : s.mem p = none) (hd : ∀ dd, d = some dd → s.up dd = some none) :
    Vertical s2 ∧ s2.up p = some none := by
  have hlive_dn : ∀ a w, s.dn a = some w → a ≠ p := by
    intro a w h e2
    obtain ⟨n1, hn1, -⟩ := mem_of_dn h
    rw [e2, hp] at hn1
    exact absurd hn1 (by simp)
  have hlive_up : ∀ a w, s.up a = some w → a ≠ p := by
    intro a w h e2
    obtain ⟨n1, hn1, -⟩ := mem_of_up h
    rw [e2, hp] at hn1
    exact absurd hn1 (by simp)
  refine ⟨⟨?_, ?_⟩, by rw [e.up, if_pos rfl]⟩
  · intro q u h
    rw [e.up] at h
    by_cases hq : q = p
    · rw [if_pos hq] at h
      exact absurd h (by simp)
    · rw [if_neg hq] at h
      by_cases hqd : some q = d
      · rw [if_pos hqd] at h
        simp only [Option.some.injEq] at h
        subst h
        rw [e.dn, if_pos rfl, hqd]
      · rw [if_neg hqd] at h
        have h1 := v.up_down q u h
        rw [e.dn, if_neg (hlive_dn u _ h1)]
        exact h1
  · intro x q h
    rw [e.dn] at h
    by_cases hx : x = p
    · rw [if_pos hx] at h
      simp only [Option.some.injEq] at h
      have hq : q ≠ p := hlive_up q _ (hd q h)
      rw [e.up, if_neg hq, if_pos h.symm, hx]
    · rw [if_neg hx] at h
      have h1 := v.down_up x q h
      have hq : q ≠ p := hlive_up q _ h1
      have hqd : some q ≠ d := by
        intro e2
        have := hd q e2.symm
        rw [h1] at this
        simp at this
      rw [e.up, if_neg hq, if_neg hqd]
      exact h1

theorem EraseEff.vertical_unlink {s s2 : SkipList} {t : Ptr} {n : Nat} {A B : List Ptr}
    (e : EraseEff s s2 t n A B) (v : VerticalBut s (some t)) {w : Option Ptr}
    (hw : s.dn t = some w) : VerticalBut s2 w := by
  refine ⟨?_, ?_, ?_⟩
  · intro q u hq h
    rw [e.up] at h
    by_cases hqt : q = t
    · rw [if_pos hqt] at h
      exact absurd h (by simp)
    · rw [if_neg hqt] at h
      have h1 := v.up_down q u (by simpa using hqt) h
      have hut : u ≠ t := by
        intro e2
        rw [e2, hw] at h1
        simp only [Option.some.injEq] at h1
        exact hq h1.symm
      rw [e.dn, if_neg hut]
      exact h1
  · intro x q h
    rw [e.dn] at h
    by_cases hx : x = t
    · rw [if_pos hx] at h
      exact absurd h (by simp)
    · rw [if_neg hx] at h
      have hqt : q ≠ t := by
        intro e2
        rw [e2] at h
        exact v.top t rfl x h
      rw [e.up, if_neg hqt]
      exact v.down_up x q h
  · intro t2 ht2 x h
    rw [e.dn] at h
    by_cases hx : x = t
    · rw [if_pos hx] at h
      exact absurd h (by simp)
    · rw [if_neg hx] at h
      have h1 := v.down_up x t2 h
      rw [ht2] at hw
      have h2 := v.down_up t t2 hw
      rw [h1] at h2
      simp only [Option.some.injEq] at h2
      exact hx h2

theorem Rep.buildColumn_vertical (coin : Nat → Bool) (item : Int) (ips : List (Option Ptr)) :
    ∀ (fuel : Nat) (s : SkipList) (L : Nat → List Ptr) (lvl : Nat) (d : Option Ptr) (g : Nat),
      Rep s L → lvl + fuel = s.maxLevels_.toNat →
      (∀ j, lvl ≤ j → j < s.maxLevels_.toNat → ips[j]? = some (s.hi item (L j)).head?) →
      (∀ j, lvl ≤ j → item ∉ s.keys (L j)) →
      (lvl = 0 → d = none) →
      (∀ k, lvl = k + 1 → ∃ dd, d = some dd ∧ dd ∈ L k ∧ s.keyOf dd = item) →
      Vertical s → (∀ dd, d = some dd → s.up dd = some none) →
      ∀ res, buildColumn coin item ips fuel s lvl d g = some res → Vertical res.1 := by
  intro fuel
  induction fuel with
  | zero =>
    intro s L lvl d g r hm _ _ _ _ v _ res hres
    have hlt : ¬ ((lvl : Int) < s.maxLevels_) := by
      have := r.pos
      omega
    simp only [buildColumn, if_neg hlt, Option.some.injEq] at hres
    subst hres
    exact v
  | succ fuel ih =>
    intro s L lvl d g r hm hips hnot hd0 hdS v hup res hres
    have hn : lvl < s.maxLevels_.toNat := by omega
    have hlt : (lvl : Int) < s.maxLevels_ := by omega
    obtain ⟨s1, hpush, e, r1, -⟩ :=
      r.pushLevel item hn (hips lvl (Nat.le_refl _) hn) (hnot lvl (Nat.le_refl _)) hd0 hdS
    obtain ⟨v1, hup1⟩ := e.vertical_push v (r.fresh _ (Nat.le_refl _)) hup
    simp only [buildColumn, if_pos hlt, hpush] at hres
    by_cases hcoin : coin g = true
    · rw [if_pos hcoin] at hres
      refine ih s1 _ (lvl + 1) (some s.brk) (g + 1) r1
        (by rw [e.maxLevels]; omega) ?_ ?_ (by intro h; omega) ?_ v1 ?_ res hres
      · intro j hj1 hj2
        rw [e.maxLevels] at hj2
        have hj : j ≠ lvl := by omega
        rw [Function.update_noteq hj, hi_congr (fun a ha => e.key_old r ha)]
        exact hips j (by omega) hj2
      · intro j hj1
        have hj : j ≠ lvl := by omega
        rw [Function.update_noteq hj, keys_congr (fun a ha => e.key_old r ha)]
        exact hnot j (by omega)
      · intro k hk
        have hk : k = lvl := by omega
        subst hk
        refine ⟨s.brk, rfl, ?_, e.key_new⟩
        rw [Function.update_same]
        simp
      · intro dd hdd
        simp only [Option.some.injEq] at hdd
        rw [← hdd]
        exact hup1
    · rw [if_neg hcoin] at hres
      simp only [Option.some.injEq] at hres
      subst hres
      exact v1

theorem Rep.insert_vertical {s : SkipList} {L : Nat → List Ptr} (r : Rep s L) (v : Vertical s)
    {coin : Nat → Bool} {g : Nat} {item : Int} {res : Bool × SkipList × Nat}
    (h : s.insert coin g item = some res) : Vertical res.2.1 := by
  by_cases hk : item ∈ s.keys (L 0)
  · rw [r.insert_present coin g hk] at h
    simp only [Option.some.injEq] at h
    subst h
    exact v
  · obtain ⟨ips, hloc, -, hips⟩ := r.locate_spec item
    simp only [insert, r.contains_spec item, hk, decide_False, hloc] at h
    cases hb : buildColumn coin item ips s.maxLevels_.toNat s 0 none g with
    | none => rw [hb] at h; exact absurd h (by simp)
    | some res1 =>
      rw [hb] at h
      simp only [Option.some.injEq] at h
      subst h
      exact Rep.buildColumn_vertical coin item ips s.maxLevels_.toNat s L 0 none g r
        (Nat.zero_add _) (fun j _ hj => hips j hj) (fun j _ hm => hk (r.key_zero hm))
        (fun _ => rfl) (fun k hk2 => absurd hk2 (by omega)) v
        (fun dd hdd => absurd hdd (by simp)) res1 hb

theorem Rep.eraseLoop_vertical (item : Int) :
    ∀ (n : Nat) (s : SkipList) (L : Nat → List Ptr) (t : Ptr) (fuel : Nat),
      Rep s L → t ∈ L n → s.keyOf t = item → (∀ j, n < j → item ∉ s.keys (L j)) →
      VerticalBut s (some t) →
      ∀ s2, eraseLoop fuel s (some t) (n : Int) = some s2 → Vertical s2 := by
  intro n
  induction n with
  | zero =>
    intro s L t fuel r ht hk habove v s2 h2
    cases fuel with
    | zero => simp [eraseLoop] at h2
    | succ fuel =>
      obtain ⟨A, B, hsplit⟩ := List.append_of_mem ht
      have hn := r.level_lt ht
      obtain ⟨s1, nt, hnt, hunl, e⟩ := r.unlinkNode_eff hn hsplit
      have hdn : nt.downLevel_ = none := by
        have := r.down0 t ht
        simpa [dn, hnt] using this
      have v1 := e.vertical_unlink v (dn_of_mem hnt)
      rw [hdn] at v1
      simp only [eraseLoop, hunl, hdn, Option.some.injEq] at h2
      subst h2
      exact v1.vertical
  | succ n ih =>
    intro s L t fuel r ht hk habove v s2 h2
    cases fuel with
    | zero => simp [eraseLoop] at h2
    | succ fuel =>
      obtain ⟨A, B, hsplit⟩ := List.append_of_mem ht
      have hn := r.level_lt ht
      obtain ⟨s1, nt, hnt, hunl, e⟩ := r.unlinkNode_eff hn hsplit
      have r1 := r.unlink e hn hsplit (by rw [hk]; exact habove)
      obtain ⟨q, hq, hdq, hkq⟩ := r.downS n t ht
      have hdn : nt.downLevel_ = some q := by
        simpa [dn, hnt] using hdq
      have v1 := e.vertical_unlink v (dn_of_mem hnt)
      rw [hdn] at v1
      have hqt : q ≠ t := fun e2 => absurd (r.disj n (n + 1) q hq (e2 ▸ ht)) (by omega)
      have hq1 : q ∈ Function.update L (n + 1) (A ++ B) n := by
        rw [Function.update_noteq (by omega)]; exact hq
      have hk1 : s1.keyOf q = item := by rw [e.key q hqt, hkq, hk]
      have hkeys : ∀ j, ∀ a ∈ Function.update L (n + 1) (A ++ B) j,
          s1.keyOf a = s.keyOf a := by
        intro j a ha
        apply e.key
        intro e2
        subst e2
        by_cases hj : j = n + 1
        · subst hj
          rw [Function.update_same] at ha
          have hnd : (A ++ a :: B).Nodup := hsplit ▸ r.nodup (n + 1)
          rcases List.mem_append.1 ha with h | h
          · exact (List.nodup_append.1 hnd).2.2 h (List.mem_cons_self a B)
          · exact (List.nodup_cons.1 (List.nodup_append.1 hnd).2.1).1 h
        · rw [Function.update_noteq hj] at ha
          exact hj (r.disj j (n + 1) a ha ht)
      have habove1 : ∀ j, n < j →
          item ∉ s1.keys (Function.update L (n + 1) (A ++ B) j) := by
        intro j hj
        rw [keys_congr (hkeys j)]
        by_cases hj2 : j = n + 1
        · subst hj2
          rw [Function.update_same, ← hk]
          exact not_mem_keys_split (hsplit ▸ r.sorted (n + 1))
        · rw [Function.update_noteq hj2]
          exact habove j (by omega)
      have hc : ((n + 1 : Nat) : Int) - 1 = (n : Int) := by push_cast; ring
      simp only [eraseLoop, hunl, hdn, hc] at h2
      exact ih s1 _ q fuel r1 hq1 hk1 habove1 v1 s2 h2

theorem Rep.erase_vertical {s : SkipList} {L : Nat → List Ptr} (r : Rep s L) (v : Vertical s)
    {item : Int} {res : Bool × SkipList} (h : s.erase item = some res) : Vertical res.2 := by
  obtain ⟨fres, hres, hft⟩ := r.findNode_spec item
  obtain ⟨t, lvl⟩ := fres
  cases hL : L 0 with
  | nil =>
    simp only [erase, r.isEmpty_spec, hL, List.isEmpty_nil, Option.some.injEq] at h
    subst h
    exact v
  | cons c l =>
    have hemp : s.isEmpty = some false := by rw [r.isEmpty_spec, hL]; rfl
    cases t with
    | none =>
      simp only [erase, hemp, hres, Option.some.injEq] at h
      subst h
      exact v
    | some t =>
      obtain ⟨k, hlvl, htk, hkey, habove⟩ := hft
      simp only at hlvl
      subst hlvl
      simp only [erase, hemp, hres] at h
      cases hl : eraseLoop s.brk s (some t) (k : Int) with
      | none => rw [hl] at h; exact absurd h (by simp)
      | some s2 =>
        rw [hl] at h
        simp only [Option.some.injEq] at h
        subst h
        have vb : VerticalBut s (some t) := by
          refine ⟨fun q u _ hq => v.up_down q u hq, v.down_up, ?_⟩
          intro t2 ht2 p hp
          simp only [Option.some.injEq] at ht2
          subst ht2
          obtain ⟨np, hnp, -⟩ := mem_of_dn hp
          obtain ⟨i, hi⟩ := r.live p (by rw [hnp]; simp)
          cases i with
          | zero =>
            have := r.down0 p hi
            rw [hp] at this
            simp at this
          | succ i =>
            obtain ⟨q, hq, hdq, hkq⟩ := r.downS i p hi
            rw [hp] at hdq
            simp only [Option.some.injEq] at hdq
            subst hdq
            have hik : i = k := r.disj i k _ hq htk
            subst hik
            exact habove (i + 1) (Nat.lt_succ_self i)
              (List.mem_map.2 ⟨p, hi, by rw [← hkq, hkey]⟩)
        exact Rep.eraseLoop_vertical item k s L t s.brk r htk hkey habove vb s2 hl

theorem vertical_construct {maxLevels : Int} {s : SkipList}
    (h : construct maxLevels = some s) : Vertical s := by
  unfold construct at h
  split_ifs at h
  simp only [Option.some.injEq] at h
  subst h
  exact ⟨fun q u hq => by simp [up] at hq, fun p q hp => by simp [dn] at hp⟩

theorem reachable_vertical {s : SkipList} (h : Reachable s) : Vertical s := by
  induction h with
  | construct m s _ h2 => exact vertical_construct h2
  | insert coin g item s b s2 g2 hs hins ih =>
    obtain ⟨L, r⟩ := reachable_rep hs
    exact r.insert_vertical ih hins
  | erase item s b s2 hs her ih =>
    obtain ⟨L, r⟩ := reachable_rep hs
    exact r.erase_vertical ih her

theorem Searchable.search_levelNodes_spec {s : SkipList} {L : Nat → List Ptr} (r : Searchable s L)
    {i : Nat} (hi : i < s.maxLevels_.toNat) : s.levelNodes i = some (L i) := by
  simp only [levelNodes, r.head i hi]
  exact nodesFrom_spec s (L i) s.brk (r.next i) (r.search_length_le i)

theorem mem_keys_iff {s : SkipList} {l : List Ptr} (hl : ∀ a ∈ l, ∃ n, s.mem a = some n)
    (k : Int) : k ∈ s.keys l ↔ ∃ p ∈ l, ∃ n, s.mem p = some n ∧ n.data_ = k := by
  constructor
  · intro h
    obtain ⟨p, hp, hk⟩ := List.mem_map.1 h
    obtain ⟨n, hn⟩ := hl p hp
    exact ⟨p, hp, n, hn, by rw [← keyOf_of_mem hn]; exact hk⟩
  · rintro ⟨p, hp, n, hn, hk⟩
    exact List.mem_map.2 ⟨p, hp, by rw [keyOf_of_mem hn]; exact hk⟩

end SkipList

/-! ## The claims -/

open SkipList

/-- C1 (uniqueness, refinement of a finite set).  For every `maxLevels ≥ 1`,
    every sequence of `insert` / `erase` calls applied to a freshly constructed
    structure and every sequence of coin outcomes, the calls all return, and
    afterwards `contains k` is true exactly for the keys `k` of the reference
    set, which adds on `insert` and removes on `erase`. -/
theorem contains_refines_set (maxLevels : Int) (h : 1 ≤ maxLevels) (coin : Nat → Bool)
    (g : Nat) (ops : List Op) :
    ∃ s0 s g2 bs, SkipList.construct maxLevels = some s0 ∧
      runOps coin ops s0 g = some (s, g2, bs) ∧
      ∀ k, s.contains k = some (decide (k ∈ specSet ops ∅)) := by
  have hn : ¬ maxLevels < 0 := by omega
  obtain ⟨s0, hs0⟩ : ∃ s0, SkipList.construct maxLevels = some s0 := by
    simp only [SkipList.construct, if_neg hn]
    exact ⟨_, rfl⟩
  have r0 := rep_construct h hs0
  obtain ⟨s, g2, bs, L, hrun, r, hk⟩ :=
    Rep.runOps_spec coin ops s0 _ g ∅ r0 (by intro k; simp [keys])
  refine ⟨s0, s, g2, bs, hs0, hrun, ?_⟩
  intro k
  rw [r.contains_spec k]
  congr 1
  exact decide_eq_decide.2 (hk k)

/-- Witness of C1: with three levels and a coin that always promotes,
    inserting 5, 1, 9, 3, 7 and erasing 1 and 9 leaves a structure in which
    `contains` answers true, false, false, true, true for 5, 1, 9, 3, 7. -/
theorem contains_refines_set_witness :
    (1 : Int) ≤ 3 ∧ ∃ s0 s g2 bs, SkipList.construct 3 = some s0 ∧
      runOps (fun _ => true)
        [Op.insert 5, Op.insert 1, Op.insert 9, Op.insert 3, Op.insert 7,
          Op.erase 1, Op.erase 9] s0 0 = some (s, g2, bs) ∧
      s.contains 5 = some true ∧ s.contains 1 = some false ∧ s.contains 9 = some false ∧
      s.contains 3 = some true ∧ s.contains 7 = some true := by
  refine ⟨by decide, ?_⟩
  obtain ⟨s0, s, g2, bs, h0, hrun, hk⟩ := contains_refines_set 3 (by decide) (fun _ => true) 0
    [Op.insert 5, Op.insert 1, Op.insert 9, Op.insert 3, Op.insert 7, Op.erase 1, Op.erase 9]
  refine ⟨s0, s, g2, bs, h0, hrun, ?_, ?_, ?_, ?_, ?_⟩
  · rw [hk 5]; decide
  · rw [hk 1]; decide
  · rw [hk 9]; decide
  · rw [hk 3]; decide
  · rw [hk 7]; decide

/-- C2 (`insert` reports whether the key was absent).  For every reachable
    structure, every key `k` and every coin, `contains k` and `insert k` both
    return; `insert k` returns `true` exactly when `contains k` was `false`
    before the call, and in that case `contains k` is `true` after it. -/
theorem insert_true_iff_absent (s : SkipList) (h : Reachable s) (coin : Nat → Bool) (g : Nat)
    (k : Int) :
    ∃ c b s2 g2, s.contains k = some c ∧ s.insert coin g k = some (b, s2, g2) ∧
      (b = true ↔ c = false) ∧ (b = true → s2.contains k = some true) := by
  obtain ⟨L, r⟩ := reachable_rep h
  by_cases hk : k ∈ s.keys (L 0)
  · refine ⟨true, false, s, g, ?_, r.insert_present coin g hk, by simp, by simp⟩
    rw [r.contains_spec k]; simp [hk]
  · obtain ⟨s2, L2, hins, r2, b2⟩ := r.insert_absent coin g hk
    refine ⟨false, true, s2, _, ?_, hins, by simp, fun _ => ?_⟩
    · rw [r.contains_spec k]; simp [hk]
    · rw [r2.contains_spec k]
      have := (b2.mem_keys_zero (columnHeight_pos coin g _ r.levels_pos) k).2 (Or.inl rfl)
      simp [this]

/-- Witness of C2: inserting the absent key 4 into the structure left by the
    example run, with a coin that always promotes. -/
theorem insert_true_iff_absent_witness :
    ∃ res, exampleRun = some res ∧
      ∃ c b s2 g2, res.1.contains 4 = some c ∧
        res.1.insert (fun _ => true) 0 4 = some (b, s2, g2) ∧
        (b = true ↔ c = false) ∧ (b = true → s2.contains 4 = some true) := by
  obtain ⟨res, hr⟩ := Option.isSome_iff_exists.1 exampleRun_isSome
  exact ⟨res, hr, insert_true_iff_absent res.1 (exampleRun_reachable hr) (fun _ => true) 0 4⟩

/-- C3 (idempotent duplicate rejection).  For every reachable structure and
    every key `k`, a first `insert k` returns, and a second `insert k` right
    after it returns `false` and hands back the very same structure (the same
    `heads_`, `tails_` and nodes, hence the same key sequence on every level
    and the same printed output) and the same generator position: no coin is
    drawn. -/
theorem insert_twice_unchanged (s : SkipList) (h : Reachable s) (coin : Nat → Bool) (g : Nat)
    (k : Int) :
    ∃ b s1 g1, s.insert coin g k = some (b, s1, g1) ∧
      s1.insert coin g1 k = some (false, s1, g1) ∧
      ∀ i, ∀ b2 s2 g2, s1.insert coin g1 k = some (b2, s2, g2) →
        b2 = false ∧ g2 = g1 ∧ s2.heads_ = s1.heads_ ∧ s2.tails_ = s1.tails_ ∧
          s2.levelKeys i = s1.levelKeys i := by
  obtain ⟨L, r⟩ := reachable_rep h
  have key : ∀ (b : Bool) (s1 : SkipList) (g1 : Nat) (L1 : Nat → List Ptr), Rep s1 L1 →
      k ∈ s1.keys (L1 0) → s.insert coin g k = some (b, s1, g1) →
      ∃ b s1 g1, s.insert coin g k = some (b, s1, g1) ∧
        s1.insert coin g1 k = some (false, s1, g1) ∧
        ∀ i, ∀ b2 s2 g2, s1.insert coin g1 k = some (b2, s2, g2) →
          b2 = false ∧ g2 = g1 ∧ s2.heads_ = s1.heads_ ∧ s2.tails_ = s1.tails_ ∧
            s2.levelKeys i = s1.levelKeys i := by
    intro b s1 g1 L1 r1 hk1 hins
    have h2 := r1.insert_present coin g1 hk1
    refine ⟨b, s1, g1, hins, h2, ?_⟩
    intro i b2 s2 g2 h3
    rw [h2] at h3
    simp only [Option.some.injEq, Prod.mk.injEq] at h3
    obtain ⟨rfl, rfl, rfl⟩ := h3
    exact ⟨rfl, rfl, rfl, rfl, rfl⟩
  by_cases hk : k ∈ s.keys (L 0)
  · exact key false s g L r hk (r.insert_present coin g hk)
  · obtain ⟨s2, L2, hins, r2, b2⟩ := r.insert_absent coin g hk
    exact key true s2 _ L2 r2
      ((b2.mem_keys_zero (columnHeight_pos coin g _ r.levels_pos) k).2 (Or.inl rfl)) hins

/-- Witness of C3: inserting the key 4 twice into the structure left by the
    example run, with a coin that always promotes. -/
theorem insert_twice_unchanged_witness :
    ∃ res, exampleRun = some res ∧
      ∃ b s1 g1, res.1.insert (fun _ => true) 0 4 = some (b, s1, g1) ∧
        s1.insert (fun _ => true) g1 4 = some (false, s1, g1) ∧
        ∀ i, ∀ b2 s2 g2, s1.insert (fun _ => true) g1 4 = some (b2, s2, g2) →
          b2 = false ∧ g2 = g1 ∧ s2.heads_ = s1.heads_ ∧ s2.tails_ = s1.tails_ ∧
            s2.levelKeys i = s1.levelKeys i := by
  obtain ⟨res, hr⟩ := Option.isSome_iff_exists.1 exampleRun_isSome
  exact ⟨res, hr, insert_twice_unchanged res.1 (exampleRun_reachable hr) (fun _ => true) 0 4⟩

/-- C4 (`erase` reports whether the key was present).  For every reachable
    structure and every key `k`, `contains k` and `erase k` both return;
    `erase k` returns `true` exactly when `contains k` was `true` before the
    call, and `contains k` is `false` after the call whatever it returned. -/
theorem erase_true_iff_present (s : SkipList) (h : Reachable s) (k : Int) :
    ∃ c b s2, s.contains k = some c ∧ s.erase k = some (b, s2) ∧
      (b = true ↔ c = true) ∧ s2.contains k = some false := by
  obtain ⟨L, r⟩ := reachable_rep h
  obtain ⟨b, s2, her, hb, -, r2, hk2, -⟩ := r.erase_spec k
  refine ⟨decide (k ∈ s.keys (L 0)), b, s2, r.contains_spec k, her, by rw [hb], ?_⟩
  rw [r2.contains_spec k]
  have : k ∉ s2.keys (s.without k (L 0)) := by
    rw [keys_without (hk2 0)]
    simp
  simp [this]

/-- Witness of C4: erasing the key 7, which stands on two levels of the
    structure left by the example run. -/
theorem erase_true_iff_present_witness :
    ∃ res, exampleRun = some res ∧
      ∃ c b s2, res.1.contains 7 = some c ∧ res.1.erase 7 = some (b, s2) ∧
        (b = true ↔ c = true) ∧ s2.contains 7 = some false := by
  obtain ⟨res, hr⟩ := Option.isSome_iff_exists.1 exampleRun_isSome
  exact ⟨res, hr, erase_true_iff_present res.1 (exampleRun_reachable hr) 7⟩

/-- C5 (`erase` of an absent key is a no-op).  For every reachable structure
    and every key `k`, `contains k` and `isEmpty` return; when `contains k` is
    `false`, and in particular when the structure is empty, `erase k` returns
    `false` and hands back the very same structure (the same `heads_`,
    `tails_` and nodes, hence the same key sequences and printed output). -/
theorem erase_absent_unchanged (s : SkipList) (h : Reachable s) (k : Int) :
    ∃ c e, s.contains k = some c ∧ s.isEmpty = some e ∧
      (c = false → s.erase k = some (false, s)) ∧
      (e = true → c = false ∧ s.erase k = some (false, s)) := by
  obtain ⟨L, r⟩ := reachable_rep h
  obtain ⟨b, s2, her, hb, hsame, -⟩ := r.erase_spec k
  have hc : decide (k ∈ s.keys (L 0)) = false → s.erase k = some (false, s) := by
    intro hc
    rw [hc] at hb
    rw [her, hb, hsame hb]
  refine ⟨decide (k ∈ s.keys (L 0)), (L 0).isEmpty, r.contains_spec k, r.isEmpty_spec, hc, ?_⟩
  intro he
  have h0 : L 0 = [] := List.isEmpty_iff.1 he
  have hk : decide (k ∈ s.keys (L 0)) = false := by rw [h0]; simp [keys]
  exact ⟨hk, hc hk⟩

/-- Witness of C5: erasing the key 9, which the example run has already
    removed, from the structure it left. -/
theorem erase_absent_unchanged_witness :
    ∃ res, exampleRun = some res ∧
      ∃ c e, res.1.contains 9 = some c ∧ res.1.isEmpty = some e ∧
        (c = false → res.1.erase 9 = some (false, res.1)) ∧
        (e = true → c = false ∧ res.1.erase 9 = some (false, res.1)) := by
  obtain ⟨res, hr⟩ := Option.isSome_iff_exists.1 exampleRun_isSome
  exact ⟨res, hr, erase_absent_unchanged res.1 (exampleRun_reachable hr) 9⟩

/-- C6 (sorted levels).  In every reachable structure, reading any level
    `0 .. maxLevels_ - 1` from `heads_[level]` along `next_` returns, and the
    keys met are strictly ascending; so no key occurs twice on a level. -/
theorem levels_sorted (s : SkipList) (h : Reachable s) (i : Nat)
    (hi : (i : Int) < s.maxLevels_) :
    ∃ ks, s.levelKeys i = some ks ∧ ks.Pairwise (· < ·) ∧ ks.Nodup := by
  obtain ⟨L, r⟩ := reachable_rep h
  refine ⟨s.keys (L i), r.levelKeys_spec (r.lt_levels hi), r.sorted i, ?_⟩
  exact (r.sorted i).imp (fun hab e => by subst e; exact lt_irrefl _ hab)

/-- Witness of C6 on level 1 of the structure left by the example run. -/
theorem levels_sorted_witness :
    ∃ res, exampleRun = some res ∧ ((1 : Nat) : Int) < res.1.maxLevels_ ∧
      ∃ ks, res.1.levelKeys 1 = some ks ∧ ks.Pairwise (· < ·) ∧ ks.Nodup := by
  obtain ⟨res, hr⟩ := Option.isSome_iff_exists.1 exampleRun_isSome
  have hi : ((1 : Nat) : Int) < res.1.maxLevels_ := by
    rw [exampleRun_maxLevels hr]; decide
  exact ⟨res, hr, hi, levels_sorted res.1 (exampleRun_reachable hr) 1 hi⟩

/-- C7 (tower subset).  In every reachable structure and for every level
    `L = i + 1` with `0 < L < maxLevels_`, both level `L` and level `L - 1`
    can be read, and every key on level `L` is also on level `L - 1`. -/
theorem tower_subset (s : SkipList) (h : Reachable s) (i : Nat)
    (hi : ((i + 1 : Nat) : Int) < s.maxLevels_) :
    ∃ upper lower, s.levelKeys (i + 1) = some upper ∧ s.levelKeys i = some lower ∧
      ∀ k ∈ upper, k ∈ lower := by
  obtain ⟨L, r⟩ := reachable_rep h
  have h1 := r.lt_levels hi
  refine ⟨s.keys (L (i + 1)), s.keys (L i), r.levelKeys_spec h1,
    r.levelKeys_spec (Nat.lt_of_succ_lt h1), ?_⟩
  intro k hk
  exact r.key_below 1 i hk

/-- Witness of C7 on levels 1 and 0 of the structure left by the example run. -/
theorem tower_subset_witness :
    ∃ res, exampleRun = some res ∧ ((0 + 1 : Nat) : Int) < res.1.maxLevels_ ∧
      ∃ upper lower, res.1.levelKeys (0 + 1) = some upper ∧ res.1.levelKeys 0 = some lower ∧
        ∀ k ∈ upper, k ∈ lower := by
  obtain ⟨res, hr⟩ := Option.isSome_iff_exists.1 exampleRun_isSome
  have hi : ((0 + 1 : Nat) : Int) < res.1.maxLevels_ := by
    rw [exampleRun_maxLevels hr]; decide
  exact ⟨res, hr, hi, tower_subset res.1 (exampleRun_reachable hr) 0 hi⟩

/-- C8 (empty-structure contract).  For every `maxLevels ≥ 1` the constructor
    returns a structure for which `isEmpty` is `true`, `contains k` is `false`
    for every key and `erase k` returns `false` (and changes nothing) for every
    key. -/
theorem fresh_is_empty (maxLevels : Int) (h : 1 ≤ maxLevels) :
    ∃ s, SkipList.construct maxLevels = some s ∧ s.isEmpty = some true ∧
      (∀ k, s.contains k = some false) ∧ (∀ k, s.erase k = some (false, s)) := by
  have hn : ¬ maxLevels < 0 := by omega
  obtain ⟨s, hs⟩ : ∃ s, SkipList.construct maxLevels = some s := by
    simp only [SkipList.construct, if_neg hn]
    exact ⟨_, rfl⟩
  have r := rep_construct h hs
  refine ⟨s, hs, r.isEmpty_spec, ?_, ?_⟩
  · intro k
    rw [r.contains_spec k]
    simp [keys]
  · intro k
    obtain ⟨b, s2, her, hb, hsame, -⟩ := r.erase_spec k
    have hb2 : b = false := by rw [hb]; simp [keys]
    rw [her, hb2, hsame hb2]

/-- Witness of C8 with three levels. -/
theorem fresh_is_empty_witness :
    (1 : Int) ≤ 3 ∧ ∃ s, SkipList.construct 3 = some s ∧ s.isEmpty = some true ∧
      (∀ k, s.contains k = some false) ∧ (∀ k, s.erase k = some (false, s)) :=
  ⟨by decide, fresh_is_empty 3 (by decide)⟩

/-- C9 (`isEmpty` means that no key is stored).  For every reachable
    structure `isEmpty` returns, and it returns `true` exactly when
    `contains k` is `false` for every key `k`, and exactly when every level
    `0 .. maxLevels_ - 1` reads as the empty key sequence. -/
theorem isEmpty_iff_no_key (s : SkipList) (h : Reachable s) :
    ∃ e, s.isEmpty = some e ∧ (e = true ↔ ∀ k, s.contains k = some false) ∧
      (e = true ↔ ∀ i : Nat, (i : Int) < s.maxLevels_ → s.levelKeys i = some []) := by
  obtain ⟨L, r⟩ := reachable_rep h
  refine ⟨(L 0).isEmpty, r.isEmpty_spec, ?_, ?_⟩
  · constructor
    · intro he k
      rw [r.contains_spec k, List.isEmpty_iff.1 he]
      simp [keys]
    · intro hall
      cases hL : L 0 with
      | nil => rfl
      | cons a l =>
        have := hall (s.keyOf a)
        rw [r.contains_spec, hL] at this
        simp [keys] at this
  · constructor
    · intro he i hi
      rw [r.levelKeys_spec (r.lt_levels hi), r.all_nil (List.isEmpty_iff.1 he) i]
      rfl
    · intro hall
      have h0 := hall 0 (by have := r.pos; omega)
      rw [r.levelKeys_spec r.levels_pos] at h0
      simp only [Option.some.injEq, keys, List.map_eq_nil_iff] at h0
      rw [h0]; rfl

/-- Witness of C9 on the structure left by the example run. -/
theorem isEmpty_iff_no_key_witness :
    ∃ res, exampleRun = some res ∧
      ∃ e, res.1.isEmpty = some e ∧ (e = true ↔ ∀ k, res.1.contains k = some false) ∧
        (e = true ↔ ∀ i : Nat, (i : Int) < res.1.maxLevels_ → res.1.levelKeys i = some []) := by
  obtain ⟨res, hr⟩ := Option.isSome_iff_exists.1 exampleRun_isSome
  exact ⟨res, hr, isEmpty_iff_no_key res.1 (exampleRun_reachable hr)⟩

/-- C10 (level cap).  For every reachable structure, every key `k` and every
    coin (the always favourable one included), `insert k` returns and keeps
    `maxLevels_` and the length of `heads_` and `tails_`; it creates at most
    `maxLevels_` nodes; afterwards every node that holds `k` stands in the
    chain of a level `0 .. maxLevels_ - 1`.  With `maxLevels_ = 1` an
    insertion creates exactly one node and every node that holds `k` stands in
    the chain of level 0. -/
theorem level_cap (s : SkipList) (h : Reachable s) (coin : Nat → Bool) (g : Nat) (k : Int) :
    ∃ b s2 g2, s.insert coin g k = some (b, s2, g2) ∧
      s2.maxLevels_ = s.maxLevels_ ∧ s2.heads_.length = s.heads_.length ∧
      s2.tails_.length = s.tails_.length ∧
      (∃ c : Nat, s2.brk = s.brk + c ∧ (c : Int) ≤ s.maxLevels_ ∧
        (s.maxLevels_ = 1 → b = true → c = 1)) ∧
      (∀ p n, s2.mem p = some n → n.data_ = k →
        ∃ i : Nat, (i : Int) < s.maxLevels_ ∧ ∃ ps, s2.levelNodes i = some ps ∧ p ∈ ps) ∧
      (s.maxLevels_ = 1 → ∀ p n, s2.mem p = some n → n.data_ = k →
        ∃ ps, s2.levelNodes 0 = some ps ∧ p ∈ ps) := by
  obtain ⟨L, r⟩ := reachable_rep h
  have main : ∀ (b : Bool) (s2 : SkipList) (g2 : Nat) (L2 : Nat → List Ptr) (c : Nat),
      s.insert coin g k = some (b, s2, g2) → Rep s2 L2 → s2.maxLevels_ = s.maxLevels_ →
      s2.brk = s.brk + c → c ≤ s.maxLevels_.toNat → (s.maxLevels_ = 1 → b = true → c = 1) →
      ∃ b s2 g2, s.insert coin g k = some (b, s2, g2) ∧
        s2.maxLevels_ = s.maxLevels_ ∧ s2.heads_.length = s.heads_.length ∧
        s2.tails_.length = s.tails_.length ∧
        (∃ c : Nat, s2.brk = s.brk + c ∧ (c : Int) ≤ s.maxLevels_ ∧
          (s.maxLevels_ = 1 → b = true → c = 1)) ∧
        (∀ p n, s2.mem p = some n → n.data_ = k →
          ∃ i : Nat, (i : Int) < s.maxLevels_ ∧ ∃ ps, s2.levelNodes i = some ps ∧ p ∈ ps) ∧
        (s.maxLevels_ = 1 → ∀ p n, s2.mem p = some n → n.data_ = k →
          ∃ ps, s2.levelNodes 0 = some ps ∧ p ∈ ps) := by
    intro b s2 g2 L2 c hins r2 hm hbrk hc h1
    have hnodes : ∀ p n, s2.mem p = some n →
        ∃ i : Nat, (i : Int) < s.maxLevels_ ∧ ∃ ps, s2.levelNodes i = some ps ∧ p ∈ ps := by
      intro p n hp
      obtain ⟨i, hi⟩ := r2.live p (by rw [hp]; simp)
      have hlt := r2.level_lt hi
      refine ⟨i, ?_, L2 i, r2.levelNodes_spec hlt, hi⟩
      rw [hm] at hlt
      have := r.pos
      omega
    refine ⟨b, s2, g2, hins, hm, ?_, ?_, ⟨c, hbrk, ?_, h1⟩, fun p n hp _ => hnodes p n hp, ?_⟩
    · rw [r2.hlen, r.hlen, hm]
    · rw [r2.tlen, r.tlen, hm]
    · have := r.pos
      omega
    · intro hone p n hp _
      obtain ⟨i, hi, ps, hps, hmem⟩ := hnodes p n hp
      have hi0 : i = 0 := by omega
      subst hi0
      exact ⟨ps, hps, hmem⟩
  by_cases hk : k ∈ s.keys (L 0)
  · exact main false s g L 0 (r.insert_present coin g hk) r rfl rfl (Nat.zero_le _)
      (fun _ hb => absurd hb (by simp))
  · obtain ⟨s2, L2, hins, r2, b2⟩ := r.insert_absent coin g hk
    refine main true s2 _ L2 _ hins r2 b2.maxLevels b2.brk (columnHeight_le coin _ g) ?_
    intro hone _
    rw [hone]
    exact columnHeight_one coin g

/-- Witness of C10 on the structure left by the example run, with a coin that
    always promotes. -/
theorem level_cap_witness :
    ∃ res, exampleRun = some res ∧
      ∃ b s2 g2, res.1.insert (fun _ => true) 0 4 = some (b, s2, g2) ∧
        s2.maxLevels_ = res.1.maxLevels_ ∧ s2.heads_.length = res.1.heads_.length ∧
        s2.tails_.length = res.1.tails_.length ∧
        (∃ c : Nat, s2.brk = res.1.brk + c ∧ (c : Int) ≤ res.1.maxLevels_ ∧
          (res.1.maxLevels_ = 1 → b = true → c = 1)) ∧
        (∀ p n, s2.mem p = some n → n.data_ = 4 →
          ∃ i : Nat, (i : Int) < res.1.maxLevels_ ∧
            ∃ ps, s2.levelNodes i = some ps ∧ p ∈ ps) ∧
        (res.1.maxLevels_ = 1 → ∀ p n, s2.mem p = some n → n.data_ = 4 →
          ∃ ps, s2.levelNodes 0 = some ps ∧ p ∈ ps) := by
  obtain ⟨res, hr⟩ := Option.isSome_iff_exists.1 exampleRun_isSome
  exact ⟨res, hr, level_cap res.1 (exampleRun_reachable hr) (fun _ => true) 0 4⟩

/-- C11 as stated fails for `maxLevels = 0`: the constructor returns a
    structure (it does not reject the call) and that structure has no level at
    all (it is not clamped to one level). -/
theorem construct_zero_neither_rejected_nor_clamped :
    ¬ (SkipList.construct 0 = none ∨
        ∃ s, SkipList.construct 0 = some s ∧ s.maxLevels_ = 1 ∧ s.heads_.length = 1) := by
  rintro (h | ⟨s, h, h1, -⟩)
  · simp [SkipList.construct] at h
  · simp only [SkipList.construct, lt_self_iff_false, if_false, Option.some.injEq] at h
    subst h
    simp at h1

/-- C11, amended.  A negative level count is rejected: the array allocation of
    the constructor fails and no structure results.  The level count 0 is
    accepted as it is: the constructor returns a structure with
    `maxLevels_ = 0` and empty `heads_` and `tails_`; nothing is clamped
    to 1. -/
theorem construct_nonpositive (maxLevels : Int) (h : maxLevels ≤ 0) :
    (maxLevels < 0 → SkipList.construct maxLevels = none) ∧
    (maxLevels = 0 → ∃ s, SkipList.construct maxLevels = some s ∧ s.maxLevels_ = 0 ∧
      s.heads_ = [] ∧ s.tails_ = []) := by
  constructor
  · intro hneg
    simp [SkipList.construct, hneg]
  · intro h0
    subst h0
    exact ⟨_, rfl, rfl, rfl, rfl⟩

/-- Witness of the amended C11 at the level counts 0 and -2. -/
theorem construct_nonpositive_witness :
    ((0 : Int) ≤ 0 ∧ ∃ s, SkipList.construct 0 = some s ∧ s.maxLevels_ = 0 ∧
      s.heads_ = [] ∧ s.tails_ = []) ∧
    ((-2 : Int) ≤ 0 ∧ SkipList.construct (-2) = none) :=
  ⟨⟨by decide, (construct_nonpositive 0 (by decide)).2 rfl⟩,
    ⟨by decide, (construct_nonpositive (-2) (by decide)).1 (by decide)⟩⟩

/-- C17 (head / tail invariant).  In every reachable structure every level
    `0 .. maxLevels_ - 1` can be read; `heads_[level]` is the first and
    `tails_[level]` the last node of its chain, so `heads_[level]` is null
    exactly when `tails_[level]` is null, and exactly when the level holds no
    node. -/
theorem head_tail_invariant (s : SkipList) (h : Reachable s) (i : Nat)
    (hi : (i : Int) < s.maxLevels_) :
    ∃ ps, s.levelNodes i = some ps ∧
      s.heads_[i]? = some ps.head? ∧ s.tails_[i]? = some ps.getLast? ∧
      (s.heads_[i]? = some none ↔ s.tails_[i]? = some none) ∧
      (s.heads_[i]? = some none ↔ ps = []) := by
  obtain ⟨L, r⟩ := reachable_rep h
  have hlt := r.lt_levels hi
  obtain ⟨h1, h2⟩ := r.heads_none_iff hlt
  exact ⟨L i, r.levelNodes_spec hlt, r.head i hlt, r.tail i hlt, by rw [h1, h2], h1⟩

/-- Witness of C17 on level 1 of the structure left by the example run. -/
theorem head_tail_invariant_witness :
    ∃ res, exampleRun = some res ∧ ((1 : Nat) : Int) < res.1.maxLevels_ ∧
      ∃ ps, res.1.levelNodes 1 = some ps ∧
        res.1.heads_[1]? = some ps.head? ∧ res.1.tails_[1]? = some ps.getLast? ∧
        (res.1.heads_[1]? = some none ↔ res.1.tails_[1]? = some none) ∧
        (res.1.heads_[1]? = some none ↔ ps = []) := by
  obtain ⟨res, hr⟩ := Option.isSome_iff_exists.1 exampleRun_isSome
  have hi : ((1 : Nat) : Int) < res.1.maxLevels_ := by
    rw [exampleRun_maxLevels hr]; decide
  exact ⟨res, hr, hi, head_tail_invariant res.1 (exampleRun_reachable hr) 1 hi⟩

/-- C14 (insertion points).  For every reachable structure and every key `k`
    that it does not contain, the search at the start of `insert k` returns a
    vector with one entry per level `0 .. maxLevels_ - 1`; the entry of a level
    is the first node of that level's chain whose key is greater than `k`, and
    null when the chain has no such node (the level is empty or `k` belongs at
    its tail).  When `k` is smaller than every stored key, every entry is the
    head of its level. -/
theorem locate_insertion_points (s : SkipList) (h : Reachable s) (k : Int)
    (hk : s.contains k = some false) :
    ∃ ips, s.locate k = some ips ∧ (ips.length : Int) = s.maxLevels_ ∧
      (∀ j : Nat, (j : Int) < s.maxLevels_ →
        ∃ ps, s.levelNodes j = some ps ∧
          ips[j]? = some (ps.find? fun p => decide (k < s.keyOf p))) ∧
      ((∀ p n, s.mem p = some n → k < n.data_) →
        ∀ j : Nat, (j : Int) < s.maxLevels_ → ips[j]? = s.heads_[j]?) := by
  obtain ⟨L, r⟩ := reachable_rep h
  have hnot := r.not_mem_of_contains hk
  obtain ⟨ips, hloc, hlen, hips⟩ := r.locate_spec k
  refine ⟨ips, hloc, ?_, ?_, ?_⟩
  · rw [hlen]
    have := r.pos
    omega
  · intro j hj
    have hlt := r.lt_levels hj
    refine ⟨L j, r.levelNodes_spec hlt, ?_⟩
    rw [hips j hlt, hi_eq_filter_lt (hnot j), head?_filter_eq_find?]
  · intro hsmall j hj
    have hlt := r.lt_levels hj
    have hall : s.hi k (L j) = L j := by
      simp only [hi, List.filter_eq_self, decide_eq_true_eq]
      intro a ha
      obtain ⟨n, hn⟩ := r.alloc ha
      rw [keyOf_of_mem hn]
      have := hsmall a n hn
      omega
    rw [hips j hlt, hall, r.head j hlt]

/-- Witness of C14: the insertion points for the absent key 4 in the structure
    left by the example run. -/
theorem locate_insertion_points_witness :
    ∃ res, exampleRun = some res ∧ res.1.contains 4 = some false ∧
      ∃ ips, res.1.locate 4 = some ips ∧ (ips.length : Int) = res.1.maxLevels_ ∧
        (∀ j : Nat, (j : Int) < res.1.maxLevels_ →
          ∃ ps, res.1.levelNodes j = some ps ∧
            ips[j]? = some (ps.find? fun p => decide (4 < res.1.keyOf p))) ∧
        ((∀ p n, res.1.mem p = some n → 4 < n.data_) →
          ∀ j : Nat, (j : Int) < res.1.maxLevels_ → ips[j]? = res.1.heads_[j]?) := by
  obtain ⟨res, hr⟩ := Option.isSome_iff_exists.1 exampleRun_isSome
  have hc : res.1.contains 4 = some false := exampleRun_contains_four hr
  exact ⟨res, hr, hc, locate_insertion_points res.1 (exampleRun_reachable hr) 4 hc⟩

/-- C15 (column height).  For every reachable structure, every key `k` that it
    does not contain and every coin, `insert k` returns `true`.  Let `h` be the
    minimum of `maxLevels_` and one plus the number of leading favourable
    outcomes (counted among any `n ≥ maxLevels_` draws from the generator
    position).  On every level below `h` the old key sequence splits into the
    keys below `k` and the keys above `k`, and the new key sequence is the old
    one with `k` between them; every level from `h` on keeps its key sequence,
    which does not have `k`. -/
theorem insert_column_height (s : SkipList) (h : Reachable s) (coin : Nat → Bool) (g : Nat)
    (k : Int) (hk : s.contains k = some false) (n : Nat) (hn : s.maxLevels_.toNat ≤ n) :
    ∃ s2 g2, s.insert coin g k = some (true, s2, g2) ∧
      ∀ j : Nat, (j : Int) < s.maxLevels_ →
        ∃ ks, s.levelKeys j = some ks ∧
          (j < min s.maxLevels_.toNat (1 + leadingFavourable coin g n) →
            ∃ A B, ks = A ++ B ∧ (∀ a ∈ A, a < k) ∧ (∀ b ∈ B, k < b) ∧
              s2.levelKeys j = some (A ++ k :: B)) ∧
          (min s.maxLevels_.toNat (1 + leadingFavourable coin g n) ≤ j →
            s2.levelKeys j = some ks ∧ k ∉ ks) := by
  obtain ⟨L, r⟩ := reachable_rep h
  have hnot := r.not_mem_of_contains hk
  obtain ⟨s2, L2, hins, r2, b2⟩ := r.insert_absent coin g (hnot 0)
  rw [columnHeight_eq_min coin _ g n (by omega)] at b2
  refine ⟨s2, _, hins, ?_⟩
  intro j hj
  have hlt := r.lt_levels hj
  have hlt2 : j < s2.maxLevels_.toNat := by rw [b2.maxLevels]; exact hlt
  refine ⟨s.keys (L j), r.levelKeys_spec hlt, ?_, ?_⟩
  · intro hjh
    obtain ⟨A, B, hAB, hA, hB, hins2⟩ := insertKey_split (r.sorted j) (hnot j)
    refine ⟨A, B, hAB, hA, hB, ?_⟩
    have hc : 0 ≤ j ∧ j < 0 + min s.maxLevels_.toNat (1 + leadingFavourable coin g n) := by
      omega
    rw [r2.levelKeys_spec hlt2, b2.keys j, if_pos hc, hins2]
  · intro hjh
    have hc : ¬ (0 ≤ j ∧ j < 0 + min s.maxLevels_.toNat (1 + leadingFavourable coin g n)) := by
      omega
    rw [r2.levelKeys_spec hlt2, b2.keys j, if_neg hc]
    exact ⟨rfl, hnot j⟩

/-- Witness of C15: inserting the absent key 4 into the structure left by the
    example run, the coin being favourable once and then not. -/
theorem insert_column_height_witness :
    ∃ res, exampleRun = some res ∧ res.1.contains 4 = some false ∧
      res.1.maxLevels_.toNat ≤ 5 ∧
      ∃ s2 g2, res.1.insert (fun i => decide (i = 0)) 0 4 = some (true, s2, g2) ∧
        ∀ j : Nat, (j : Int) < res.1.maxLevels_ →
          ∃ ks, res.1.levelKeys j = some ks ∧
            (j < min res.1.maxLevels_.toNat
                (1 + leadingFavourable (fun i => decide (i = 0)) 0 5) →
              ∃ A B, ks = A ++ B ∧ (∀ a ∈ A, a < 4) ∧ (∀ b ∈ B, 4 < b) ∧
                s2.levelKeys j = some (A ++ 4 :: B)) ∧
            (min res.1.maxLevels_.toNat
                (1 + leadingFavourable (fun i => decide (i = 0)) 0 5) ≤ j →
              s2.levelKeys j = some ks ∧ 4 ∉ ks) := by
  obtain ⟨res, hr⟩ := Option.isSome_iff_exists.1 exampleRun_isSome
  have hc : res.1.contains 4 = some false := exampleRun_contains_four hr
  have hm : res.1.maxLevels_.toNat ≤ 5 := by
    rw [exampleRun_maxLevels hr]; decide
  exact ⟨res, hr, hc, hm, insert_column_height res.1 (exampleRun_reachable hr)
    (fun i => decide (i = 0)) 0 4 hc 5 hm⟩

/-- C16 (erase removes the whole column and nothing else).  For every
    reachable structure and every key `k` that it contains, the search that
    `erase k` starts with returns a node that holds `k`, together with the
    index of its level; no level above that one has `k`.  Then `erase k`
    returns `true`, and afterwards every level reads as its previous key
    sequence without `k`. -/
theorem erase_removes_column (s : SkipList) (h : Reachable s) (k : Int)
    (hk : s.contains k = some true) :
    ∃ (t : Ptr) (lvl : Nat), s.findNode k 0 = some (some t, (lvl : Int)) ∧
      (lvl : Int) < s.maxLevels_ ∧
      (∃ ps, s.levelNodes lvl = some ps ∧ t ∈ ps) ∧
      (∃ n, s.mem t = some n ∧ n.data_ = k) ∧
      (∀ j : Nat, lvl < j → (j : Int) < s.maxLevels_ →
        ∃ ks, s.levelKeys j = some ks ∧ k ∉ ks) ∧
      ∃ s2, s.erase k = some (true, s2) ∧ s2.maxLevels_ = s.maxLevels_ ∧
        ∀ j : Nat, (j : Int) < s.maxLevels_ →
          ∃ ks, s.levelKeys j = some ks ∧
            s2.levelKeys j = some (ks.filter fun x => decide (x ≠ k)) := by
  obtain ⟨L, r⟩ := reachable_rep h
  have hmem := r.mem_of_contains hk
  obtain ⟨res, hres, hft⟩ := r.findNode_spec k
  obtain ⟨t, lv⟩ := res
  cases t with
  | none => exact absurd hmem (hft 0)
  | some t =>
    obtain ⟨lvl, hlv, htl, hkey, habove⟩ := hft
    simp only at hlv
    subst hlv
    have hlt := r.level_lt htl
    obtain ⟨n, hn⟩ := r.alloc htl
    obtain ⟨b, s2, her, hb, -, r2, hk2, hm2, -⟩ := r.erase_spec k
    have hbt : b = true := by rw [hb]; simp [hmem]
    subst hbt
    refine ⟨t, lvl, hres, ?_, ⟨L lvl, r.levelNodes_spec hlt, htl⟩,
      ⟨n, hn, by rw [← keyOf_of_mem hn]; exact hkey⟩, ?_, s2, her, hm2, ?_⟩
    · have := r.pos
      omega
    · intro j hj hjm
      exact ⟨s.keys (L j), r.levelKeys_spec (r.lt_levels hjm), habove j hj⟩
    · intro j hjm
      have hlt1 := r.lt_levels hjm
      refine ⟨s.keys (L j), r.levelKeys_spec hlt1, ?_⟩
      rw [r2.levelKeys_spec (by rw [hm2]; exact hlt1)]
      show some (s2.keys (s.without k (L j))) = _
      rw [keys_without (hk2 j)]

/-- Witness of C16: erasing the key 7, which stands on levels 0 and 1 of the
    structure left by the example run. -/
theorem erase_removes_column_witness :
    ∃ res, exampleRun = some res ∧ res.1.contains 7 = some true ∧
      ∃ (t : Ptr) (lvl : Nat), res.1.findNode 7 0 = some (some t, (lvl : Int)) ∧
        (lvl : Int) < res.1.maxLevels_ ∧
        (∃ ps, res.1.levelNodes lvl = some ps ∧ t ∈ ps) ∧
        (∃ n, res.1.mem t = some n ∧ n.data_ = 7) ∧
        (∀ j : Nat, lvl < j → (j : Int) < res.1.maxLevels_ →
          ∃ ks, res.1.levelKeys j = some ks ∧ (7 : Int) ∉ ks) ∧
        ∃ s2, res.1.erase 7 = some (true, s2) ∧ s2.maxLevels_ = res.1.maxLevels_ ∧
          ∀ j : Nat, (j : Int) < res.1.maxLevels_ →
            ∃ ks, res.1.levelKeys j = some ks ∧
              s2.levelKeys j = some (ks.filter fun x => decide (x ≠ 7)) := by
  obtain ⟨res, hr⟩ := Option.isSome_iff_exists.1 exampleRun_isSome
  have hc : res.1.contains 7 = some true := exampleRun_contains_seven hr
  exact ⟨res, hr, hc, erase_removes_column res.1 (exampleRun_reachable hr) 7 hc⟩

/-- C12 (printed view).  For every reachable structure `operator<<` returns;
    its text consists of `maxLevels_` lines, each ended by a line feed, the
    line of level `maxLevels_ - 1` first and the line of level 0 last.  The
    line of level `i` is `Level: i -- empty` when the level holds no node, and
    otherwise `Level: i -- ` followed by the keys of the level, in the
    ascending order of its chain, separated by a comma and a blank.  Printing
    only reads the structure: the embedding of `operator<<` yields text and no
    new structure. -/
theorem render_format (s : SkipList) (h : Reachable s) :
    ∃ keysAt : Nat → List Int,
      (∀ i : Nat, (i : Int) < s.maxLevels_ →
        s.levelKeys i = some (keysAt i) ∧ (keysAt i).Pairwise (· < ·)) ∧
      s.render = some (joinLines (renderLines s.maxLevels_.toNat keysAt)) ∧
      (renderLines s.maxLevels_.toNat keysAt).length = s.maxLevels_.toNat := by
  obtain ⟨L, r⟩ := reachable_rep h
  refine ⟨fun i => s.keys (L i), ?_, r.render_spec, by simp [renderLines]⟩
  intro i hi
  exact ⟨r.levelKeys_spec (r.lt_levels hi), r.sorted i⟩

/-- Witness of C12: the text printed for the structure left by the example
    run. -/
theorem render_format_witness :
    ∃ res, exampleRun = some res ∧
      res.1.render = some "Level: 2 -- empty\nLevel: 1 -- 7\nLevel: 0 -- 3, 5, 7\n" ∧
      ∃ keysAt : Nat → List Int,
        (∀ i : Nat, (i : Int) < res.1.maxLevels_ →
          res.1.levelKeys i = some (keysAt i) ∧ (keysAt i).Pairwise (· < ·)) ∧
        res.1.render = some (joinLines (renderLines res.1.maxLevels_.toNat keysAt)) ∧
        (renderLines res.1.maxLevels_.toNat keysAt).length = res.1.maxLevels_.toNat := by
  obtain ⟨res, hr⟩ := Option.isSome_iff_exists.1 exampleRun_isSome
  exact ⟨res, hr, exampleRun_render hr, render_format res.1 (exampleRun_reachable hr)⟩

/-- C19 (safety of the traversals).  For every reachable structure, every key
    and every coin, `isEmpty`, `findNode`, `contains`, the search of `insert`,
    `insert` and `erase` all return a result: in the embedding this means that
    no null or deleted node is dereferenced, that `heads_`, `tails_` and the
    insertion-point vector are indexed within `0 .. maxLevels_ - 1` only, and
    that every pointer walk ends within its fuel.  Moreover every node of a
    level above 0 has a down reference that is not null, so the cursor that
    the search takes to the next lower level is present. -/
theorem traversals_safe (s : SkipList) (h : Reachable s) (coin : Nat → Bool) (g : Nat)
    (k : Int) :
    (∃ e, s.isEmpty = some e) ∧ (∃ r, s.findNode k 0 = some r) ∧
    (∃ c, s.contains k = some c) ∧ (∃ ips, s.locate k = some ips) ∧
    (∃ r, s.insert coin g k = some r) ∧ (∃ r, s.erase k = some r) ∧
    (∀ i : Nat, ((i + 1 : Nat) : Int) < s.maxLevels_ →
      ∃ ps, s.levelNodes (i + 1) = some ps ∧
        ∀ p ∈ ps, ∃ n q, s.mem p = some n ∧ n.downLevel_ = some q) := by
  obtain ⟨L, r⟩ := reachable_rep h
  obtain ⟨res, hres, -⟩ := r.findNode_spec k
  obtain ⟨ips, hloc, -⟩ := r.locate_spec k
  obtain ⟨b, s2, her, -⟩ := r.erase_spec k
  refine ⟨⟨_, r.isEmpty_spec⟩, ⟨res, hres⟩, ⟨_, r.contains_spec k⟩, ⟨ips, hloc⟩, ?_,
    ⟨_, her⟩, ?_⟩
  · by_cases hk : k ∈ s.keys (L 0)
    · exact ⟨_, r.insert_present coin g hk⟩
    · obtain ⟨s3, L3, hins, -⟩ := r.insert_absent coin g hk
      exact ⟨_, hins⟩
  · intro i hi
    refine ⟨L (i + 1), r.levelNodes_spec (r.lt_levels hi), ?_⟩
    intro p hp
    obtain ⟨q, -, hd, -⟩ := r.downS i p hp
    obtain ⟨n, hn, hnd⟩ := mem_of_dn hd
    exact ⟨n, q, hn, hnd⟩

/-- Witness of C19 on the structure left by the example run. -/
theorem traversals_safe_witness :
    ∃ res, exampleRun = some res ∧
      (∃ e, res.1.isEmpty = some e) ∧ (∃ r, res.1.findNode 7 0 = some r) ∧
      (∃ c, res.1.contains 7 = some c) ∧ (∃ ips, res.1.locate 7 = some ips) ∧
      (∃ r, res.1.insert (fun _ => true) 0 7 = some r) ∧ (∃ r, res.1.erase 7 = some r) ∧
      (∀ i : Nat, ((i + 1 : Nat) : Int) < res.1.maxLevels_ →
        ∃ ps, res.1.levelNodes (i + 1) = some ps ∧
          ∀ p ∈ ps, ∃ n q, res.1.mem p = some n ∧ n.downLevel_ = some q) := by
  obtain ⟨res, hr⟩ := Option.isSome_iff_exists.1 exampleRun_isSome
  exact ⟨res, hr, traversals_safe res.1 (exampleRun_reachable hr) (fun _ => true) 0 7⟩

/-- C20 (insert then erase).  For every reachable structure `s`, every key `k`
    that it does not contain and every coin, `insert k` returns `true`, the
    following `erase k` returns `true`, and the structure left has on every
    level the key sequence that `s` had; hence `isEmpty` and the printed text
    are those of `s`. -/
theorem insert_erase_round_trip (s : SkipList) (h : Reachable s) (coin : Nat → Bool) (g : Nat)
    (k : Int) (hk : s.contains k = some false) :
    ∃ s2 g2 s3, s.insert coin g k = some (true, s2, g2) ∧ s2.erase k = some (true, s3) ∧
      s3.maxLevels_ = s.maxLevels_ ∧
      (∀ j : Nat, (j : Int) < s.maxLevels_ →
        ∃ ks, s.levelKeys j = some ks ∧ s3.levelKeys j = some ks) ∧
      s3.isEmpty = s.isEmpty ∧ s3.render = s.render := by
  obtain ⟨L, r⟩ := reachable_rep h
  have hnot := r.not_mem_of_contains hk
  obtain ⟨s2, L2, hins, r2, b2⟩ := r.insert_absent coin g (hnot 0)
  have hin2 : k ∈ s2.keys (L2 0) :=
    (b2.mem_keys_zero (columnHeight_pos coin g _ r.levels_pos) k).2 (Or.inl rfl)
  obtain ⟨b, s3, her, hb, -, r3, hk3, hm3, -⟩ := r2.erase_spec k
  have hbt : b = true := by rw [hb]; simp [hin2]
  subst hbt
  have hmax : s3.maxLevels_ = s.maxLevels_ := by rw [hm3, b2.maxLevels]
  have hkeys : ∀ j, s3.keys (s2.without k (L2 j)) = s.keys (L j) := by
    intro j
    rw [keys_without (hk3 j), b2.keys j]
    split_ifs
    · exact filter_ne_insertKey (r.sorted j) (hnot j)
    · exact filter_ne_of_not_mem (hnot j)
  refine ⟨s2, _, s3, hins, her, hmax, ?_, ?_, ?_⟩
  · intro j hj
    have hlt := r.lt_levels hj
    refine ⟨s.keys (L j), r.levelKeys_spec hlt, ?_⟩
    rw [r3.levelKeys_spec (by rw [hmax]; exact hlt)]
    exact congrArg some (hkeys j)
  · rw [r3.isEmpty_spec, r.isEmpty_spec]
    have h0 := hkeys 0
    have hl : (s2.without k (L2 0)).length = (L 0).length := by
      have := congrArg List.length h0
      simpa [keys] using this
    exact congrArg some (isEmpty_eq_of_length _ _ hl)
  · rw [r3.render_spec, r.render_spec, hmax]
    exact congrArg some (congrArg joinLines (renderLines_congr (fun i _ => hkeys i)))

/-- Witness of C20: inserting the absent key 4 into the structure left by the
    example run, with a coin that always promotes, and erasing it again. -/
theorem insert_erase_round_trip_witness :
    ∃ res, exampleRun = some res ∧ res.1.contains 4 = some false ∧
      ∃ s2 g2 s3, res.1.insert (fun _ => true) 0 4 = some (true, s2, g2) ∧
        s2.erase 4 = some (true, s3) ∧ s3.maxLevels_ = res.1.maxLevels_ ∧
        (∀ j : Nat, (j : Int) < res.1.maxLevels_ →
          ∃ ks, res.1.levelKeys j = some ks ∧ s3.levelKeys j = some ks) ∧
        s3.isEmpty = res.1.isEmpty ∧ s3.render = res.1.render := by
  obtain ⟨res, hr⟩ := Option.isSome_iff_exists.1 exampleRun_isSome
  have hc : res.1.contains 4 = some false := exampleRun_contains_four hr
  exact ⟨res, hr, hc, insert_erase_round_trip res.1 (exampleRun_reachable hr)
    (fun _ => true) 0 4 hc⟩

/-- C18 (vertical links).  In every reachable structure, every node of a level
    `L = i + 1 > 0` has a down reference to a node of the chain of level
    `L - 1` that holds the same key, and the up reference of that lower node
    leads back to it; every node of level 0 has a null down reference; and
    every up reference of a node in memory leads to a node in memory (one that
    was not deleted), whose down reference leads back. -/
theorem vertical_links (s : SkipList) (h : Reachable s) :
    (∀ i : Nat, ((i + 1 : Nat) : Int) < s.maxLevels_ →
      ∃ ps qs, s.levelNodes (i + 1) = some ps ∧ s.levelNodes i = some qs ∧
        ∀ p ∈ ps, ∃ q ∈ qs, ∃ np nq, s.mem p = some np ∧ s.mem q = some nq ∧
          np.downLevel_ = some q ∧ nq.data_ = np.data_ ∧ nq.upLevel_ = some p) ∧
    (∃ ps, s.levelNodes 0 = some ps ∧
      ∀ p ∈ ps, ∃ n, s.mem p = some n ∧ n.downLevel_ = none) ∧
    (∀ q n u, s.mem q = some n → n.upLevel_ = some u →
      ∃ nu, s.mem u = some nu ∧ nu.downLevel_ = some q) := by
  obtain ⟨L, r⟩ := reachable_rep h
  have v := reachable_vertical h
  refine ⟨?_, ?_, ?_⟩
  · intro i hi
    have hlt := r.lt_levels hi
    refine ⟨L (i + 1), L i, r.levelNodes_spec hlt,
      r.levelNodes_spec (Nat.lt_of_succ_lt hlt), ?_⟩
    intro p hp
    obtain ⟨q, hq, hdq, hkq⟩ := r.downS i p hp
    obtain ⟨np, hnp, hnd⟩ := mem_of_dn hdq
    obtain ⟨nq, hnq, hnu⟩ := mem_of_up (v.down_up p q hdq)
    refine ⟨q, hq, np, nq, hnp, hnq, hnd, ?_, hnu⟩
    rw [← keyOf_of_mem hnq, ← keyOf_of_mem hnp, hkq]
  · refine ⟨L 0, r.levelNodes_spec r.levels_pos, ?_⟩
    intro p hp
    obtain ⟨n, hn, hnd⟩ := mem_of_dn (r.down0 p hp)
    exact ⟨n, hn, hnd⟩
  · intro q n u hq hu
    have h1 : s.up q = some (some u) := by rw [up_of_mem hq, hu]
    exact mem_of_dn (v.up_down q u h1)

/-- Witness of C18 on the structure left by the example run. -/
theorem vertical_links_witness :
    ∃ res, exampleRun = some res ∧
      (∀ i : Nat, ((i + 1 : Nat) : Int) < res.1.maxLevels_ →
        ∃ ps qs, res.1.levelNodes (i + 1) = some ps ∧ res.1.levelNodes i = some qs ∧
          ∀ p ∈ ps, ∃ q ∈ qs, ∃ np nq, res.1.mem p = some np ∧ res.1.mem q = some nq ∧
            np.downLevel_ = some q ∧ nq.data_ = np.data_ ∧ nq.upLevel_ = some p) ∧
      (∃ ps, res.1.levelNodes 0 = some ps ∧
        ∀ p ∈ ps, ∃ n, res.1.mem p = some n ∧ n.downLevel_ = none) ∧
      (∀ q n u, res.1.mem q = some n → n.upLevel_ = some u →
        ∃ nu, res.1.mem u = some nu ∧ nu.downLevel_ = some q) := by
  obtain ⟨res, hr⟩ := Option.isSome_iff_exists.1 exampleRun_isSome
  exact ⟨res, hr, vertical_links res.1 (exampleRun_reachable hr)⟩

/-- C13 (search correctness).  Let `s` be any structure, reachable or not, whose
    levels are the chains `L i` (`Searchable`: `heads_[i]` starts the chain
    `L i`, which follows `next_` to null through allocated nodes; at least one
    level; every level strictly ascending; every node above level 0 linked by
    `downLevel_` to a node of the same key one level lower, so that each
    level's keys are among those of the level below).  Then `contains k`
    returns, and it returns true exactly when a node with key `k` is in the
    chain of level 0, which is the chain the code walks from `heads_[0]`. -/
theorem contains_iff_level_zero (s : SkipList) (L : Nat → List Ptr) (h : Searchable s L)
    (k : Int) :
    s.levelNodes 0 = some (L 0) ∧
    (∀ i, (s.keys (L i)).Pairwise (· < ·) ∧ ∀ x ∈ s.keys (L (i + 1)), x ∈ s.keys (L i)) ∧
    ∃ c, s.contains k = some c ∧
      (c = true ↔ ∃ p ∈ L 0, ∃ n, s.mem p = some n ∧ n.data_ = k) := by
  refine ⟨h.search_levelNodes_spec h.search_levels_pos, ?_, ?_⟩
  · intro i
    exact ⟨h.sorted i, fun x hx => h.search_key_below 1 i hx⟩
  · refine ⟨_, h.search_contains_spec k, ?_⟩
    rw [decide_eq_true_iff]
    exact mem_keys_iff (fun a ha => h.search_alloc ha) k

/-- Witness of C13: the structure left by the example run satisfies the
    hypothesis, and there `contains 7` is true with a node of key 7 on level 0. -/
theorem contains_iff_level_zero_witness :
    ∃ res L, exampleRun = some res ∧ Searchable res.1 L ∧
      res.1.levelNodes 0 = some (L 0) ∧
      (∀ i, (res.1.keys (L i)).Pairwise (· < ·) ∧
        ∀ x ∈ res.1.keys (L (i + 1)), x ∈ res.1.keys (L i)) ∧
      ∃ c, res.1.contains 7 = some c ∧
        (c = true ↔ ∃ p ∈ L 0, ∃ n, res.1.mem p = some n ∧ n.data_ = 7) := by
  obtain ⟨res, hr⟩ := Option.isSome_iff_exists.1 exampleRun_isSome
  obtain ⟨L, r⟩ := reachable_rep (exampleRun_reachable hr)
  exact ⟨res, L, hr, r.searchable, contains_iff_level_zero res.1 L r.searchable 7⟩
